import Mathlib

/-!
# Online forest regressor (`online_forest_regressor.cpp`)

A shallow embedding of the node, tree and forest methods of the online
random-forest regressor, followed by theorems about them.

Conventions of the embedding.

* `double` values live in an arbitrary linearly ordered field `K` (exact
  arithmetic); the library function `exp` is a parameter `expf : K → K`.
* `ulong` counters are natural numbers: each of them is incremented at most once
  per fitted sample, so they stay far below `2 ^ 64`.
* The node arena `std::vector<NodeRegressor>` is a `List`; `node(i)` and every
  `operator[]` return `none` when the index is out of bounds, so a result
  `some _` certifies that every access was in bounds.
* `while` loops take a fuel argument and return `none` when it runs out.
* The outcomes of `sample_feature()` and `sample_threshold(_, _)` are arguments
  (`feature`, `threshold`) of the functions that draw them.
* Methods that mutate `*this` take the state and return the new state.
-/

/-- One record of a tree's node arena (the data members of `NodeRegressor`). -/
structure NodeRegressor (K : Type) where
  parent : Nat
  left : Nat
  right : Nat
  feature : Nat
  threshold : K
  n_samples : Nat
  x_t : List K
  y_t : K
  weight : K
  weight_tree : K
  is_leaf : Bool
  predict : K

/-- The data members of `TreeRegressor`: the arena, `_n_nodes` and `iteration`. -/
structure TreeRegressor (K : Type) where
  nodes : List (NodeRegressor K)
  n_nodes : Nat
  iteration : Nat

namespace NodeRegressor

variable {K : Type} [LinearOrderedField K]

/-- `NodeRegressor::NodeRegressor(tree, parent)`. The members the constructor
leaves uninitialised (`_feature`, `_threshold`, `_y_t`) are given the value `0`
and `_x_t` is the empty array. -/
def create (parent : Nat) : NodeRegressor K :=
  { parent := parent, left := 0, right := 0, feature := 0, threshold := 0,
    n_samples := 0, x_t := [], y_t := 0, weight := 1, weight_tree := 1,
    is_leaf := true, predict := 0 }

/-- `NodeRegressor::loss`. -/
def loss (n : NodeRegressor K) (y_t : K) : K :=
  let diff := n.predict - y_t
  diff * diff / 2

/-- `NodeRegressor::update_predict`. -/
def update_predict (n : NodeRegressor K) (y_t : K) : NodeRegressor K :=
  { n with predict := (((n.n_samples - 1 : Nat) : K) * n.predict + y_t) / (n.n_samples : K) }

/-- `NodeRegressor::update_downwards`; `step` is `_tree.step()`. -/
def update_downwards (expf : K → K) (step : K) (n : NodeRegressor K) (_x_t : List K) (y_t : K) :
    NodeRegressor K :=
  let n1 := { n with n_samples := n.n_samples + 1 }
  let n2 := { n1 with weight := n1.weight * expf (-step * n1.loss y_t) }
  n2.update_predict y_t

/-- `NodeRegressor::set_left`. -/
def set_left (n : NodeRegressor K) (left : Nat) : NodeRegressor K :=
  { n with left := left }

/-- `NodeRegressor::set_right`. -/
def set_right (n : NodeRegressor K) (right : Nat) : NodeRegressor K :=
  { n with right := right }

/-- `NodeRegressor::set_is_leaf`. -/
def set_is_leaf (n : NodeRegressor K) (is_leaf : Bool) : NodeRegressor K :=
  { n with is_leaf := is_leaf }

/-- `NodeRegressor::set_feature`. -/
def set_feature (n : NodeRegressor K) (feature : Nat) : NodeRegressor K :=
  { n with feature := feature }

/-- `NodeRegressor::set_threshold`. -/
def set_threshold (n : NodeRegressor K) (threshold : K) : NodeRegressor K :=
  { n with threshold := threshold }

/-- `NodeRegressor::set_weight_tree`. -/
def set_weight_tree (n : NodeRegressor K) (weight_tree : K) : NodeRegressor K :=
  { n with weight_tree := weight_tree }

/-- `NodeRegressor::set_x_t`. -/
def set_x_t (n : NodeRegressor K) (x_t : List K) : NodeRegressor K :=
  { n with x_t := x_t }

/-- `NodeRegressor::set_y_t`. -/
def set_y_t (n : NodeRegressor K) (y_t : K) : NodeRegressor K :=
  { n with y_t := y_t }

/-- `NodeRegressor::update_upwards`; `node` is the accessor `_tree.node`. -/
def update_upwards (node : Nat → Option (NodeRegressor K)) (n : NodeRegressor K) :
    Option (NodeRegressor K) :=
  if n.is_leaf then
    some { n with weight_tree := n.weight }
  else do
    let l ← node n.left
    let r ← node n.right
    some { n with weight_tree := (n.weight + l.weight_tree * r.weight_tree) / 2 }

end NodeRegressor

namespace TreeRegressor

variable {K : Type} [LinearOrderedField K]

/-- `TreeRegressor::node(index)`: `nodes[index]`. -/
def node (t : TreeRegressor K) (index : Nat) : Option (NodeRegressor K) :=
  t.nodes[index]?

/-- Write-back of a node obtained through the reference `node(index)`. -/
def set_node (t : TreeRegressor K) (index : Nat) (nd : NodeRegressor K) : TreeRegressor K :=
  { t with nodes := t.nodes.set index nd }

/-- `TreeRegressor::add_node`: appends a node and returns `_n_nodes++`. -/
def add_node (t : TreeRegressor K) (parent : Nat) : TreeRegressor K × Nat :=
  ({ t with nodes := t.nodes ++ [NodeRegressor.create parent], n_nodes := t.n_nodes + 1 },
    t.n_nodes)

/-- Modelled from the spec: the member initialisers of `TreeRegressor` are in the
header, which is not part of the sources; the spec says a tree is "created once
at tree construction with a single root leaf" and that the first `fit` sees the
tree iteration counter at `0`, so the members start as an empty arena,
`_n_nodes = 0` and `iteration = 0`. -/
def empty : TreeRegressor K :=
  { nodes := [], n_nodes := 0, iteration := 0 }

/-- `TreeRegressor::TreeRegressor(forest)`: `add_node(0)`. -/
def create : TreeRegressor K :=
  (empty.add_node 0).1

/-- `TreeRegressor::split_leaf`; `feature` is the value returned by
`forest.sample_feature()` and `threshold` the value returned by the call of
`forest.sample_threshold` that is executed. -/
def split_leaf (expf : K → K) (step : K) (t : TreeRegressor K) (index : Nat) (x_t : List K)
    (y_t : K) (feature : Nat) (threshold : K) : Option (TreeRegressor K × Nat) := do
  let a1 := t.add_node index
  let left := a1.2
  let a2 := a1.1.add_node index
  let right := a2.2
  let t2 := a2.1
  let n0 ← t2.node index
  let t3 := t2.set_node index (((n0.set_left left).set_right right).set_is_leaf false)
  let x1_tj ← x_t[feature]?
  let n1 ← t3.node index
  let x2_tj ← n1.x_t[feature]?
  let data_leaf := if x1_tj < x2_tj then left else right
  let other_leaf := if x1_tj < x2_tj then right else left
  let t4 := t3.set_node index ((n1.set_feature feature).set_threshold threshold)
  let nd ← t4.node data_leaf
  let t5 := t4.set_node data_leaf ((nd.set_x_t x_t).set_y_t y_t)
  let ni ← t5.node index
  let no ← t5.node other_leaf
  let t6 := t5.set_node other_leaf ((no.set_x_t ni.x_t).set_y_t ni.y_t)
  let no1 ← t6.node other_leaf
  let ni1 ← t6.node index
  let t7 := t6.set_node other_leaf (no1.update_downwards expf step ni1.x_t ni1.y_t)
  let no2 ← t7.node other_leaf
  let no3 ← no2.update_upwards t7.node
  let t8 := t7.set_node other_leaf no3
  let nd1 ← t8.node data_leaf
  let t9 := t8.set_node data_leaf (nd1.update_downwards expf step x_t y_t)
  some (t9, data_leaf)

/-- The `while (!is_leaf)` loop of `TreeRegressor::go_downwards`, entered with
`index_current_node`. -/
def go_downwards_loop (expf : K → K) (step : K) :
    Nat → TreeRegressor K → Nat → List K → K → Bool → Option (TreeRegressor K × Nat)
  | 0, _, _, _, _, _ => none
  | fuel + 1, t, index_current_node, x_t, y_t, predict => do
    let n0 ← t.node index_current_node
    let current_node := if predict then n0 else n0.update_downwards expf step x_t y_t
    let t1 := if predict then t else t.set_node index_current_node current_node
    if current_node.is_leaf then
      some (t1, index_current_node)
    else do
      let xv ← x_t[current_node.feature]?
      if xv ≤ current_node.threshold then
        go_downwards_loop expf step fuel t1 current_node.left x_t y_t predict
      else
        go_downwards_loop expf step fuel t1 current_node.right x_t y_t predict

/-- `TreeRegressor::go_downwards`: the loop started at the root, index `0`. -/
def go_downwards (expf : K → K) (step : K) (fuel : Nat) (t : TreeRegressor K) (x_t : List K)
    (y_t : K) (predict : Bool) : Option (TreeRegressor K × Nat) :=
  go_downwards_loop expf step fuel t 0 x_t y_t predict

/-- `TreeRegressor::go_upwards`, with `current` as loop variable. -/
def go_upwards : Nat → TreeRegressor K → Nat → Option (TreeRegressor K)
  | 0, _, _ => none
  | fuel + 1, t, current => do
    let current_node ← t.node current
    let updated ← current_node.update_upwards t.node
    let t1 := t.set_node current updated
    if current = 0 then
      some t1
    else do
      let c ← t1.node current
      go_upwards fuel t1 c.parent

/-- `TreeRegressor::fit`. -/
def fit (expf : K → K) (step : K) (fuel : Nat) (t : TreeRegressor K) (x_t : List K) (y_t : K)
    (feature : Nat) (threshold : K) : Option (TreeRegressor K) :=
  if t.iteration = 0 then do
    let root ← t.nodes[0]?
    let t1 := { t with nodes := t.nodes.set 0 ((root.set_x_t x_t).set_y_t y_t) }
    some { t1 with iteration := t1.iteration + 1 }
  else do
    let d ← t.go_downwards expf step fuel x_t y_t false
    let s ← d.1.split_leaf expf step d.2 x_t y_t feature threshold
    let t3 ← s.1.go_upwards fuel s.2
    some { t3 with iteration := t3.iteration + 1 }

/-- The `while (true)` loop of `TreeRegressor::predict` (aggregation branch);
`current`, `other` and `weight` are the local variables at the loop head. -/
def predict_loop : Nat → TreeRegressor K → Nat → Nat → K → Option K
  | 0, _, _, _, _ => none
  | fuel + 1, t, current, other, weight => do
    let current_node ← t.node current
    let weight1 ←
      if current_node.is_leaf then
        some (current_node.weight * current_node.predict)
      else do
        let o ← t.node other
        some (1 / 2 * current_node.weight * current_node.predict
          + 1 / 2 * o.weight_tree * weight)
    let parent := current_node.parent
    let p ← t.node parent
    let other1 := if p.left = current then p.right else p.left
    if current = 0 then
      some weight1
    else
      predict_loop fuel t parent other1 weight1

/-- `TreeRegressor::predict`. The locals `other` and `weight` are uninitialised
when the loop is entered; they are given the value `0`. -/
def predict (expf : K → K) (step : K) (fuel : Nat) (t : TreeRegressor K) (x_t : List K)
    (use_aggregation : Bool) : Option (TreeRegressor K × K) := do
  let d ← t.go_downwards expf step fuel x_t 0 true
  if !use_aggregation then do
    let l ← d.1.node d.2
    some (d.1, l.y_t)
  else do
    let weight ← d.1.predict_loop fuel d.2 0 0
    let root ← d.1.nodes[0]?
    some (d.1, weight / root.weight_tree)

end TreeRegressor

/-- The outcomes of `sample_feature()` and of `sample_threshold(_, _)` in one
call of `TreeRegressor::split_leaf`. -/
structure Draw (K : Type) where
  feature : Nat
  threshold : K

/-- The dense matrix `SArrayDouble2d`: `n_rows()` is `rows.length`, `n_cols()` is
`n_cols` and `view_row(m, i)` is `rows[i]`. -/
structure SArrayDouble2d (K : Type) where
  n_cols : Nat
  rows : List (List K)

/-- How a forest method can fail: an exception raised by `TICK_ERROR`, or
undefined behaviour (an access out of bounds, a loop out of fuel). -/
inductive Failure where
  | tick_error (msg : String)
  | undefined
  deriving DecidableEq

/-- The data members of `OnlineForestRegressor`. -/
structure OnlineForestRegressor (K : Type) (Criterion : Type) where
  n_trees : Nat
  n_threads : Int
  criterion : Criterion
  step : K
  verbose : Bool
  seed : Int
  n_features : Nat
  iteration : Nat
  trees : List (TreeRegressor K)

namespace OnlineForestRegressor

variable {K : Type} [LinearOrderedField K] {Criterion : Type}

/-- `OnlineForestRegressor::create_trees`. -/
def create_trees (f : OnlineForestRegressor K Criterion) : OnlineForestRegressor K Criterion :=
  { f with trees := List.replicate f.n_trees TreeRegressor.create }

/-- Modelled from the spec: `set_seed` is defined in the header, which is not part
of the sources; the spec says construction fixes the RNG seed. -/
def set_seed (f : OnlineForestRegressor K Criterion) (seed : Int) :
    OnlineForestRegressor K Criterion :=
  { f with seed := seed }

/-- Modelled from the spec: `set_n_features` is defined in the header, which is
not part of the sources; the spec says `n_features` "is set from the first fit
call and must not change afterward" and that a change after the forest has been
fit is rejected. -/
def set_n_features (f : OnlineForestRegressor K Criterion) (n_features : Nat) :
    Except Failure (OnlineForestRegressor K Criterion) :=
  if f.iteration = 0 then
    .ok { f with n_features := n_features }
  else
    .error (.tick_error "OnlineForest::set_n_features can be called only once !")

/-- `OnlineForestRegressor::OnlineForestRegressor`. The argument `n_trees` is not
used by the constructor, which assigns `_n_trees = 10`; `_n_features` and `_seed`
are uninitialised before `set_seed` and are given the value `0`. -/
def create (_n_trees : Nat) (step : K) (criterion : Criterion) (n_threads : Int) (seed : Int)
    (verbose : Bool) : OnlineForestRegressor K Criterion :=
  let f0 : OnlineForestRegressor K Criterion :=
    { n_trees := 10, n_threads := n_threads, criterion := criterion, step := step,
      verbose := verbose, seed := 0, n_features := 0, iteration := 0, trees := [] }
  f0.create_trees.set_seed seed

/-- The loop `for (TreeRegressor &tree : trees)` of `OnlineForestRegressor::fit`
for row `i`, whose view is `x`; `draw j` holds the sampler outcomes seen by the
tree of position `j`. -/
def fit_trees (expf : K → K) (step : K) (fuel : Nat) (draw : Nat → Draw K) (labels : List K)
    (i : Nat) (x : List K) : Nat → List (TreeRegressor K) → Option (List (TreeRegressor K))
  | _, [] => some []
  | j, tree :: rest => do
    let y ← labels[i]?
    let tree1 ← tree.fit expf step fuel x y (draw j).feature (draw j).threshold
    let rest1 ← fit_trees expf step fuel draw labels i x (j + 1) rest
    some (tree1 :: rest1)

/-- The loop over the rows of `OnlineForestRegressor::fit`, from row `i` on. -/
def fit_rows (expf : K → K) (fuel : Nat) (draws : Nat → Nat → Draw K) (labels : List K) :
    Nat → List (List K) → OnlineForestRegressor K Criterion →
      Except Failure (OnlineForestRegressor K Criterion)
  | _, [], f => .ok f
  | i, x :: rest, f =>
    match fit_trees expf f.step fuel (draws i) labels i x 0 f.trees with
    | none => .error .undefined
    | some trees1 =>
      fit_rows expf fuel draws labels (i + 1) rest
        { f with trees := trees1, iteration := f.iteration + 1 }

/-- `OnlineForestRegressor::fit`; `draws i j` holds the sampler outcomes seen by
the tree of position `j` while it fits row `i`. -/
def fit (expf : K → K) (fuel : Nat) (draws : Nat → Nat → Draw K)
    (f : OnlineForestRegressor K Criterion) (features : SArrayDouble2d K) (labels : List K) :
    Except Failure (OnlineForestRegressor K Criterion) := do
  let f1 ← f.set_n_features features.n_cols
  fit_rows expf fuel draws labels 0 features.rows f1

/-- The loop `for (TreeRegressor &tree : trees)` of
`OnlineForestRegressor::predict`; `y_pred` is the accumulator. -/
def predict_trees (expf : K → K) (step : K) (fuel : Nat) (x : List K) (use_aggregation : Bool) :
    List (TreeRegressor K) → K → Option (List (TreeRegressor K) × K)
  | [], y_pred => some ([], y_pred)
  | tree :: rest, y_pred => do
    let p ← tree.predict expf step fuel x use_aggregation
    let r ← predict_trees expf step fuel x use_aggregation rest (y_pred + p.2)
    some (p.1 :: r.1, r.2)

/-- The loop over the rows of `OnlineForestRegressor::predict`, from row `i` on.
The result is the final state (forest and predictions vector) and the outcome. -/
def predict_rows (expf : K → K) (fuel : Nat) (use_aggregation : Bool) :
    Nat → List (List K) → OnlineForestRegressor K Criterion → List K →
      (OnlineForestRegressor K Criterion × List K) × Except Failure Unit
  | _, [], f, predictions => ((f, predictions), .ok ())
  | i, x :: rest, f, predictions =>
    match predict_trees expf f.step fuel x use_aggregation f.trees 0 with
    | none => ((f, predictions), .error .undefined)
    | some r =>
      if i < predictions.length then
        predict_rows expf fuel use_aggregation (i + 1) rest { f with trees := r.1 }
          (predictions.set i (r.2 / (f.n_trees : K)))
      else
        (({ f with trees := r.1 }, predictions), .error .undefined)

/-- `OnlineForestRegressor::predict`. -/
def predict (expf : K → K) (fuel : Nat) (f : OnlineForestRegressor K Criterion)
    (features : SArrayDouble2d K) (predictions : List K) (use_aggregation : Bool) :
    (OnlineForestRegressor K Criterion × List K) × Except Failure Unit :=
  if 0 < f.iteration then
    predict_rows expf fuel use_aggregation 0 features.rows f predictions
  else
    ((f, predictions), .error (.tick_error "You must call ``fit`` before ``predict``."))

end OnlineForestRegressor

/-! ## Vocabulary of the statements -/

namespace NodeRegressor

variable {K : Type} [LinearOrderedField K]

/-- The fields of a node that the weight updates never write: the links, the
split rule and the retained sample. -/
def shape (n : NodeRegressor K) : Nat × Nat × Nat × Bool × Nat × K × List K × K :=
  (n.parent, n.left, n.right, n.is_leaf, n.feature, n.threshold, n.x_t, n.y_t)

end NodeRegressor

namespace TreeRegressor

variable {K : Type} [LinearOrderedField K]

/-- Two trees with the same arena size, counters and node shapes: they differ at
most in `n_samples`, `weight`, `weight_tree` and `predict` of their nodes. -/
structure SameShape (t t1 : TreeRegressor K) : Prop where
  shapes : t.nodes.map NodeRegressor.shape = t1.nodes.map NodeRegressor.shape
  n_nodes : t.n_nodes = t1.n_nodes
  iteration : t.iteration = t1.iteration

/-- Node `i` lies on the parent chain that starts at node `j` and ends at the
root: `j`, `parent(j)`, `parent(parent(j))`, ..., `0`. -/
inductive OnChain (t : TreeRegressor K) : Nat → Nat → Prop
  | here (j : Nat) : OnChain t j j
  | step (j i : Nat) (nd : NodeRegressor K) : j ≠ 0 → t.nodes[j]? = some nd →
      OnChain t nd.parent i → OnChain t j i

/-- The topology invariant of the arena of a tree over `nf` features. -/
structure Arena (nf : Nat) (t : TreeRegressor K) : Prop where
  count : t.n_nodes = t.nodes.length
  root : ∃ r : NodeRegressor K, t.nodes[0]? = some r ∧ r.parent = 0
  parent_lt : ∀ (i : Nat) (nd : NodeRegressor K), t.nodes[i]? = some nd → 0 < i → nd.parent < i
  children : ∀ (i : Nat) (nd : NodeRegressor K), t.nodes[i]? = some nd → nd.is_leaf = false →
    i < nd.left ∧ nd.right = nd.left + 1 ∧ nd.feature < nf ∧
      ∃ l r : NodeRegressor K, t.nodes[nd.left]? = some l ∧ t.nodes[nd.right]? = some r ∧
        l.parent = i ∧ r.parent = i
  width : t.iteration ≠ 0 → ∀ (i : Nat) (nd : NodeRegressor K), t.nodes[i]? = some nd →
    nd.x_t.length = nf

/-- The mixture-weight equation at node `i`. -/
def LocalEq (t : TreeRegressor K) (i : Nat) : Prop :=
  ∀ nd : NodeRegressor K, t.nodes[i]? = some nd →
    (nd.is_leaf = true → nd.weight_tree = nd.weight) ∧
    (nd.is_leaf = false → ∃ l r : NodeRegressor K, t.nodes[nd.left]? = some l ∧ t.nodes[nd.right]? = some r ∧
      nd.weight_tree = (nd.weight + l.weight_tree * r.weight_tree) / 2)

/-- Every node has positive `weight` and `weight_tree`. -/
def Pos (t : TreeRegressor K) : Prop :=
  ∀ (i : Nat) (nd : NodeRegressor K), t.nodes[i]? = some nd → 0 < nd.weight ∧ 0 < nd.weight_tree

/-- Two trees that differ at most in the `weight_tree` of their nodes. -/
structure SameCore (t t1 : TreeRegressor K) : Prop where
  cores : t.nodes.map (fun n => n.set_weight_tree 0) = t1.nodes.map (fun n => n.set_weight_tree 0)
  n_nodes : t.n_nodes = t1.n_nodes
  iteration : t.iteration = t1.iteration

/-- The new leaf that receives a sample `(x, y)` in a split of node `index`, after
its `update_downwards`. -/
def data_node (expf : K → K) (step : K) (index : Nat) (x : List K) (y : K) : NodeRegressor K :=
  (((NodeRegressor.create index : NodeRegressor K).set_x_t x).set_y_t y).update_downwards
    expf step x y

/-- The new leaf that receives the retained sample `(x, y)` of the split node
`index`, after its `update_downwards` and `update_upwards`. -/
def other_node (expf : K → K) (step : K) (index : Nat) (x : List K) (y : K) : NodeRegressor K :=
  { data_node expf step index x y with weight_tree := (data_node expf step index x y).weight }

/-- The split node after `split_leaf`: it is internal, with children `n` and `n + 1`. -/
def split_node (nd : NodeRegressor K) (n : Nat) (feature : Nat) (threshold : K) :
    NodeRegressor K :=
  ((((nd.set_left n).set_right (n + 1)).set_is_leaf false).set_feature feature).set_threshold
    threshold

/-- An arena in which node `i` of `base` is replaced and two nodes are appended. -/
def arena3 (base : List (NodeRegressor K)) (i : Nat) (v a b : NodeRegressor K) :
    List (NodeRegressor K) :=
  base.set i v ++ [a, b]

/-- The mixture-weight invariant of a tree: positive weights and the
mixture-weight equation at every node. -/
def WInv (t : TreeRegressor K) : Prop :=
  Pos t ∧ ∀ i, LocalEq t i

/-- The invariant of a tree over `nf` features: the arena invariant and the node
count `1 + 2 * (iteration - 1)`. -/
structure WF (nf : Nat) (t : TreeRegressor K) : Prop where
  arena : Arena nf t
  size : t.nodes.length = 1 + 2 * (t.iteration - 1)

/-- The arena after `split_leaf` of the leaf `l` (node `nd`) for the sample
`(x, y)`; `c` tells whether `x1_tj < x2_tj`. -/
def split_tree (expf : K → K) (step : K) (t : TreeRegressor K) (l : Nat) (nd : NodeRegressor K)
    (x : List K) (y : K) (feature : Nat) (threshold : K) (c : Bool) : TreeRegressor K :=
  ⟨arena3 t.nodes l (split_node nd t.nodes.length feature threshold)
      (if c then data_node expf step l x y else other_node expf step l nd.x_t nd.y_t)
      (if c then other_node expf step l nd.x_t nd.y_t else data_node expf step l x y),
    t.nodes.length + 2, t.iteration⟩

/-- Index of the new leaf that holds the new sample after a split. -/
def data_index (t : TreeRegressor K) (c : Bool) : Nat :=
  if c then t.nodes.length else t.nodes.length + 1

/-- Index of the new leaf that holds the retained sample after a split. -/
def other_index (t : TreeRegressor K) (c : Bool) : Nat :=
  if c then t.nodes.length + 1 else t.nodes.length

end TreeRegressor

/-- One call of `TreeRegressor::fit` as the tree sees it: the sample `(x_t, y_t)`
and the sampler outcomes of the split, if the call splits. -/
structure FitCall (K : Type) where
  x_t : List K
  y_t : K
  feature : Nat
  threshold : K

namespace TreeRegressor

variable {K : Type} [LinearOrderedField K]

/-- Successive calls of `fit` on a tree, in order. -/
def fit_all (expf : K → K) (step : K) (fuel : Nat) :
    TreeRegressor K → List (FitCall K) → Option (TreeRegressor K)
  | t, [] => some t
  | t, c :: cs =>
    (t.fit expf step fuel c.x_t c.y_t c.feature c.threshold).bind
      (fun t1 => fit_all expf step fuel t1 cs)

/-- Well-formed calls for a forest over `nf` features: every sample has `nf`
entries and every feature drawn is in `[0, nf)`. -/
def Valid (nf : Nat) (calls : List (FitCall K)) : Prop :=
  ∀ c ∈ calls, c.x_t.length = nf ∧ c.feature < nf

/-- The trees reachable from a fresh tree by calls of `fit`. -/
def Reachable (expf : K → K) (step : K) (nf : Nat) (t : TreeRegressor K) : Prop :=
  ∃ (fuel : Nat) (calls : List (FitCall K)),
    Valid nf calls ∧ fit_all expf step fuel create calls = some t

/-- The routing rule in the words of the specification: the leaf obtained by
starting at node `i` and, at each internal node, going left when
`x[feature] ≤ threshold` and right otherwise. -/
def route (t : TreeRegressor K) (x : List K) : Nat → Nat → Option Nat
  | 0, _ => none
  | fuel + 1, i =>
    match t.nodes[i]? with
    | none => none
    | some nd =>
      if nd.is_leaf then some i
      else
        match x[nd.feature]? with
        | none => none
        | some xv =>
          if xv ≤ nd.threshold then route t x fuel nd.left else route t x fuel nd.right

/-- The nodes visited by the routing rule from node `i` down to the leaf, in that
order. -/
def route_path (t : TreeRegressor K) (x : List K) : Nat → Nat → Option (List Nat)
  | 0, _ => none
  | fuel + 1, i =>
    match t.nodes[i]? with
    | none => none
    | some nd =>
      if nd.is_leaf then some [i]
      else
        match x[nd.feature]? with
        | none => none
        | some xv =>
          if xv ≤ nd.threshold then (route_path t x fuel nd.left).map (fun p => i :: p)
          else (route_path t x fuel nd.right).map (fun p => i :: p)

/-- The running mean `predict` stored in node `i` (`0` if there is no such node). -/
def node_predict (t : TreeRegressor K) (i : Nat) : K :=
  ((t.nodes[i]?).map NodeRegressor.predict).getD 0

/-- The weighted sum `c₁ * p₁ + ... + cₙ * pₙ`. -/
def weighted_sum (cs ps : List K) : K :=
  (List.zipWith (fun c p => c * p) cs ps).sum

/-- The rest of one iteration of the loop of `TreeRegressor::predict` at node `s`,
once `weight` has been assigned the value `w`: the sibling is looked up, and the
loop either stops at the root or continues at the parent. -/
def predict_after (t : TreeRegressor K) (fuel : Nat) (s : Nat) (w : K) : Option K :=
  (t.node s).bind (fun nd => (t.node nd.parent).bind (fun p =>
    if s = 0 then some w
    else predict_loop fuel t nd.parent (if p.left = s then p.right else p.left) w))

/-- Two calls of `fit` over the rationals: `(x = [0, 0], y = 1)` and then
`(x = [1, 0], y = 2)` with sampled feature `0` and sampled threshold `1 / 2`. -/
def sample_calls : List (FitCall ℚ) :=
  [⟨[0, 0], 1, 0, 0⟩, ⟨[1, 0], 2, 0, 1 / 2⟩]

/-- The tree obtained by `sample_calls` with `step = 0`, for which
`exp(-step * loss) = 1`. -/
def sample_tree : TreeRegressor ℚ :=
  (fit_all (fun _ => 1) 0 5 create sample_calls).getD create

/-- The calls of the scenario of two points in which the second `fit` samples
feature `1`, on which the two points agree, and the threshold `0` of the
degenerate interval `[0, 0]`. -/
def degenerate_calls : List (FitCall ℚ) :=
  [⟨[0, 0], 1, 0, 0⟩, ⟨[1, 0], 2, 1, 0⟩]

end TreeRegressor

namespace OnlineForestRegressor

variable {K : Type} [LinearOrderedField K] {Criterion : Type}

/-- The invariant of a forest over `nf` features: `_n_trees` is the number of
trees, and every tree satisfies the tree invariant and has seen as many samples
as the forest. -/
structure FInv (nf : Nat) (f : OnlineForestRegressor K Criterion) : Prop where
  count : f.trees.length = f.n_trees
  trees : ∀ tree ∈ f.trees, TreeRegressor.WF nf tree ∧ tree.iteration = f.iteration

/-- The value `TreeRegressor::predict` returns for `x` on `tree` (`0` if it does
not return). -/
def tree_value (expf : K → K) (step : K) (fuel : Nat) (x : List K) (use_aggregation : Bool)
    (tree : TreeRegressor K) : K :=
  ((tree.predict expf step fuel x use_aggregation).map Prod.snd).getD 0

/-- The arithmetic mean of the values the trees of the forest predict for `x`:
their sum divided by the number of trees. -/
def forest_mean (expf : K → K) (fuel : Nat) (f : OnlineForestRegressor K Criterion)
    (x : List K) (use_aggregation : Bool) : K :=
  (f.trees.map (tree_value expf f.step fuel x use_aggregation)).sum / (f.trees.length : K)

/-- A forest over the rationals with `step = 0`, for which
`exp(-step * loss) = 1`; the criterion type has a single value. -/
def sample_forest : OnlineForestRegressor ℚ Unit :=
  create 10 0 () 1 0 false

/-- A batch of two rows over two features. -/
def sample_features : SArrayDouble2d ℚ :=
  ⟨2, [[0, 0], [1, 0]]⟩

/-- The labels of `sample_features`. -/
def sample_labels : List ℚ :=
  [1, 2]

/-- A batch without rows over two features. -/
def empty_features : SArrayDouble2d ℚ :=
  ⟨2, []⟩

/-- One query row over two features. -/
def sample_queries : SArrayDouble2d ℚ :=
  ⟨2, [[1, 0]]⟩

/-- Sampler outcomes: feature `0` and threshold `1 / 2` in every split. -/
def sample_draws : Nat → Nat → Draw ℚ :=
  fun _ _ => ⟨0, 1 / 2⟩

end OnlineForestRegressor

namespace NodeRegressor

variable {K : Type} [LinearOrderedField K]

/-- Successive calls of `update_downwards` on a node, one for each sample `(x, y)`
of the list, in order. -/
def update_downwards_all (expf : K → K) (step : K) :
    NodeRegressor K → List (List K × K) → NodeRegressor K
  | n, [] => n
  | n, s :: rest => update_downwards_all expf step (n.update_downwards expf step s.1 s.2) rest

end NodeRegressor

namespace TreeRegressor

variable {K : Type} [LinearOrderedField K]

/-- The tree after its first `fit`, of the sample `(x, y)`: a root leaf that
retains the sample. -/
def root_tree (x : List K) (y : K) : TreeRegressor K :=
  ⟨[((NodeRegressor.create 0).set_x_t x).set_y_t y], 1, 1⟩

end TreeRegressor
namespace TreeRegressor

variable {K : Type} [LinearOrderedField K]

/-- The arguments `(left, right)` of the call of `forest.sample_threshold` that
`TreeRegressor::split_leaf(index, x_t, y_t)` executes when
`forest.sample_feature()` returns `feature`: `(x1_tj, x2_tj)` in the branch
`x1_tj < x2_tj` and `(x2_tj, x1_tj)` in the other branch. -/
def split_leaf_bounds (t : TreeRegressor K) (index : Nat) (x_t : List K) (feature : Nat) :
    Option (K × K) := do
  let a1 := t.add_node index
  let left := a1.2
  let a2 := a1.1.add_node index
  let right := a2.2
  let t2 := a2.1
  let n0 ← t2.node index
  let t3 := t2.set_node index (((n0.set_left left).set_right right).set_is_leaf false)
  let x1_tj ← x_t[feature]?
  let n1 ← t3.node index
  let x2_tj ← n1.x_t[feature]?
  some (if x1_tj < x2_tj then (x1_tj, x2_tj) else (x2_tj, x1_tj))

/-- The arguments of the call of `forest.sample_threshold` made by the
`split_leaf` of `TreeRegressor::fit(x_t, y_t)`, when `forest.sample_feature()`
returns `feature`; `none` in the first `fit` of a tree, which does not split. -/
def fit_bounds (expf : K → K) (step : K) (fuel : Nat) (t : TreeRegressor K) (x_t : List K)
    (y_t : K) (feature : Nat) : Option (K × K) :=
  if t.iteration = 0 then
    none
  else do
    let d ← t.go_downwards expf step fuel x_t y_t false
    d.1.split_leaf_bounds d.2 x_t feature

end TreeRegressor

namespace OnlineForestRegressor

variable {K : Type} [LinearOrderedField K] {Criterion : Type}

/-- `OnlineForestRegressor::sample_feature`: the bounds `(0, n_features() - 1)` of
the closed range from which `rand.uniform_int` draws the feature; neither the
sample nor the leaf enters the draw. -/
def sample_feature_range (f : OnlineForestRegressor K Criterion) : Nat × Nat :=
  (0, f.n_features - 1)

end OnlineForestRegressor
/-- The sample `(x_t, y_t)` passed to a call of `fit`. -/
def FitCall.sample {K : Type} (c : FitCall K) : List K × K :=
  (c.x_t, c.y_t)

namespace TreeRegressor

variable {K : Type} [LinearOrderedField K]

/-- The retained pairs `(x_t, y_t)` of the leaves of the tree, in arena order. -/
def leaf_samples (t : TreeRegressor K) : List (List K × K) :=
  (t.nodes.filter (fun n => n.is_leaf)).map (fun n => (n.x_t, n.y_t))

/-- The number of leaves of the tree. -/
def n_leaves (t : TreeRegressor K) : Nat :=
  t.nodes.countP (fun n => n.is_leaf)

/-- The number of internal nodes of the tree. -/
def n_internal (t : TreeRegressor K) : Nat :=
  t.nodes.countP (fun n => !n.is_leaf)

end TreeRegressor
namespace TreeRegressor

variable {K : Type} [LinearOrderedField K]

/-- Whether the split made by `fit` for the call `c` on the tree `t` is
non-degenerate: the bounds `(lo, hi)` passed to `sample_threshold`, the smaller
and the larger of `x[j]` and `leaf.x_t[j]` for the sampled feature `j`, satisfy
`lo ≤ threshold < hi`, so that `x[j] ≠ leaf.x_t[j]`. A call that does not split
qualifies. -/
def split_ok (expf : K → K) (step : K) (fuel : Nat) (t : TreeRegressor K) (c : FitCall K) :
    Bool :=
  match t.fit_bounds expf step fuel c.x_t c.y_t c.feature with
  | none => true
  | some b => decide (b.1 ≤ c.threshold) && decide (c.threshold < b.2)

/-- Whether every split of the run of the calls `calls` from the tree `t` is
non-degenerate. -/
def non_degenerate (expf : K → K) (step : K) (fuel : Nat) :
    TreeRegressor K → List (FitCall K) → Bool
  | _, [] => true
  | t, c :: cs =>
    split_ok expf step fuel t c &&
      match t.fit expf step fuel c.x_t c.y_t c.feature c.threshold with
      | none => true
      | some t1 => non_degenerate expf step fuel t1 cs

/-- Every leaf's retained `x_t` routes from the root to that very leaf. -/
def Routed (t : TreeRegressor K) : Prop :=
  ∀ (l : Nat) (nd : NodeRegressor K), t.nodes[l]? = some nd → nd.is_leaf = true →
    ∃ fuel, route t nd.x_t fuel 0 = some l

end TreeRegressor

namespace TreeRegressor

/-- Two calls of `fit` over the rationals in which the second call samples
feature `0` and the threshold `0`, the lower end of the interval `[0, 1)`. -/
def lower_calls : List (FitCall ℚ) :=
  [⟨[0, 0], 1, 0, 0⟩, ⟨[1, 0], 2, 0, 0⟩]

end TreeRegressor

namespace TreeRegressor

/-- The tree in the middle of the second `fit` of the scenario
`(x = [0, 0], y = 1)`, `(x = [1, 0], y = 2)`, after `go_downwards` and
`split_leaf` (sampled feature `0`, threshold `0`) and before `go_upwards`, for an
`exp` that returns `2`. -/
def mid_fit_tree : TreeRegressor ℚ :=
  ((((root_tree [0, 0] 1).go_downwards (fun _ => 2) 0 5 [1, 0] 2 false).bind
    (fun d => d.1.split_leaf (fun _ => 2) 0 d.2 [1, 0] 2 0 0)).map Prod.fst).getD create

end TreeRegressor

namespace OnlineForestRegressor

variable {K : Type} [LinearOrderedField K] {Criterion : Type}

/-- The value `OnlineForestRegressor::predict` computes for the row `x`, in the
order of the code: `y_pred` starts at `0`, the predictions of the trees are added
to it one after the other, in the order of the trees, and the result is divided
by `_n_trees`. -/
def forest_accumulated (expf : K → K) (fuel : Nat) (f : OnlineForestRegressor K Criterion)
    (x : List K) (use_aggregation : Bool) : K :=
  f.trees.foldl (fun y_pred tree => y_pred + tree_value expf f.step fuel x use_aggregation tree)
    0 / (f.n_trees : K)

end OnlineForestRegressor

/-! ## Theorems -/

set_option linter.unusedSectionVars false

namespace TreeRegressor

variable {K : Type} [LinearOrderedField K]

theorem SameShape.shape_refl (t : TreeRegressor K) : SameShape t t := ⟨rfl, rfl, rfl⟩

theorem SameShape.shape_trans {t t1 t2 : TreeRegressor K} (h : SameShape t t1) (h1 : SameShape t1 t2) :
    SameShape t t2 :=
  ⟨h.shapes.trans h1.shapes, h.n_nodes.trans h1.n_nodes, h.iteration.trans h1.iteration⟩

theorem SameShape.shape_symm {t t1 : TreeRegressor K} (h : SameShape t t1) : SameShape t1 t :=
  ⟨h.shapes.symm, h.n_nodes.symm, h.iteration.symm⟩

theorem SameShape.shape_length {t t1 : TreeRegressor K} (h : SameShape t t1) :
    t.nodes.length = t1.nodes.length := by
  have := congrArg List.length h.shapes
  simpa using this

theorem SameShape.shape_get {t t1 : TreeRegressor K} (h : SameShape t t1) {i : Nat}
    {nd : NodeRegressor K} (hi : t1.nodes[i]? = some nd) :
    ∃ nd0, t.nodes[i]? = some nd0 ∧ nd0.shape = nd.shape := by
  have h1 : (t.nodes.map NodeRegressor.shape)[i]? = (t1.nodes.map NodeRegressor.shape)[i]? := by
    rw [h.shapes]
  rw [List.getElem?_map, List.getElem?_map, hi] at h1
  cases h0 : t.nodes[i]? with
  | none => rw [h0] at h1; simp at h1
  | some nd0 =>
    rw [h0] at h1
    exact ⟨nd0, rfl, by simpa using h1⟩

theorem shape_fields {a b : NodeRegressor K} (h : a.shape = b.shape) :
    a.parent = b.parent ∧ a.left = b.left ∧ a.right = b.right ∧ a.is_leaf = b.is_leaf ∧
      a.feature = b.feature ∧ a.threshold = b.threshold ∧ a.x_t = b.x_t ∧ a.y_t = b.y_t := by
  simpa [NodeRegressor.shape] using h

theorem SameShape.shape_set_node (t : TreeRegressor K) (i : Nat) (nd nd1 : NodeRegressor K)
    (hi : t.nodes[i]? = some nd) (hs : nd1.shape = nd.shape) : SameShape t (t.set_node i nd1) := by
  refine ⟨?_, rfl, rfl⟩
  unfold TreeRegressor.set_node
  apply List.ext_getElem?
  intro j
  simp only [List.getElem?_map]
  by_cases hj : i = j
  · subst hj
    rw [List.getElem?_set_self', hi]
    simp [hs]
  · rw [List.getElem?_set_ne hj]

theorem Arena.arena_congr {nf : Nat} {t t1 : TreeRegressor K} (h : SameShape t t1) (hw : Arena nf t) :
    Arena nf t1 := by
  have hlen := h.shape_length
  refine ⟨?_, ?_, ?_, ?_, ?_⟩
  · rw [← h.n_nodes, ← hlen]; exact hw.count
  · obtain ⟨r, hr, hp⟩ := hw.root
    obtain ⟨r1, hr1, hs⟩ := h.shape_symm.shape_get hr
    exact ⟨r1, hr1, by rw [(shape_fields hs).1]; exact hp⟩
  · intro i nd hi hpos
    obtain ⟨nd0, h0, hs⟩ := h.shape_get hi
    rw [← (shape_fields hs).1]
    exact hw.parent_lt i nd0 h0 hpos
  · intro i nd hi hleaf
    obtain ⟨nd0, h0, hs⟩ := h.shape_get hi
    obtain ⟨e1, e2, e3, e4, e5, -⟩ := shape_fields hs
    obtain ⟨c1, c2, c3, l, r, hl, hr, pl, pr⟩ := hw.children i nd0 h0 (by rw [e4]; exact hleaf)
    obtain ⟨l1, hl1, hsl⟩ := h.shape_symm.shape_get hl
    obtain ⟨r1, hr1, hsr⟩ := h.shape_symm.shape_get hr
    refine ⟨by omega, by omega, by omega, l1, r1, ?_, ?_, ?_, ?_⟩
    · rw [← e2]; exact hl1
    · rw [← e3]; exact hr1
    · rw [(shape_fields hsl).1]; exact pl
    · rw [(shape_fields hsr).1]; exact pr
  · intro hit i nd hi
    obtain ⟨nd0, h0, hs⟩ := h.shape_get hi
    have := hw.width (by rw [h.iteration]; exact hit) i nd0 h0
    rw [← (shape_fields hs).2.2.2.2.2.2.1]; exact this

theorem OnChain.chain_congr {t t1 : TreeRegressor K} (h : SameShape t t1) {j i : Nat}
    (hc : OnChain t j i) : OnChain t1 j i := by
  induction hc with
  | here j => exact OnChain.here j
  | step j i nd hj hnd _ ih =>
    obtain ⟨nd1, h1, hs⟩ := h.shape_symm.shape_get hnd
    have hp : nd1.parent = nd.parent := (shape_fields hs).1
    exact OnChain.step j i nd1 hj h1 (by rw [hp]; exact ih)

theorem OnChain.tail {t : TreeRegressor K} {j c : Nat} {nd : NodeRegressor K}
    (hc : OnChain t j c) (h0 : c ≠ 0) (hnd : t.nodes[c]? = some nd) : OnChain t j nd.parent := by
  induction hc with
  | here j => exact OnChain.step j _ nd h0 hnd (OnChain.here _)
  | step j i nd1 hj hnd1 _ ih => exact OnChain.step j _ nd1 hj hnd1 (ih h0 hnd)

theorem OnChain.le {nf : Nat} {t : TreeRegressor K} (hw : Arena nf t) {j i : Nat}
    (hc : OnChain t j i) : i ≤ j := by
  induction hc with
  | here j => exact le_rfl
  | step j i nd hj hnd _ ih =>
    have := hw.parent_lt j nd hnd (Nat.pos_of_ne_zero hj)
    omega

theorem exists_get_of_lt {α : Type} {l : List α} {i : Nat} (h : i < l.length) :
    ∃ a, l[i]? = some a :=
  ⟨l[i], List.getElem?_eq_getElem h⟩

theorem update_downwards_shape (expf : K → K) (step : K) (n : NodeRegressor K) (x : List K)
    (y : K) : (n.update_downwards expf step x y).shape = n.shape := rfl

theorem update_downwards_weight_tree (expf : K → K) (step : K) (n : NodeRegressor K)
    (x : List K) (y : K) : (n.update_downwards expf step x y).weight_tree = n.weight_tree := rfl

theorem update_downwards_weight (expf : K → K) (step : K) (n : NodeRegressor K)
    (x : List K) (y : K) :
    (n.update_downwards expf step x y).weight = n.weight * expf (-step * n.loss y) := rfl

theorem get_set_node (t : TreeRegressor K) (i j : Nat) (nd : NodeRegressor K) :
    (t.set_node i nd).nodes[j]? =
      if i = j then (if j < t.nodes.length then some nd else none) else t.nodes[j]? := by
  unfold set_node
  by_cases h : i = j
  · subst h
    by_cases h2 : i < t.nodes.length
    · simp [h2]
    · simp [h2]; omega
  · simp [h, List.getElem?_set_ne h]

theorem get_set_node_self (t : TreeRegressor K) (i : Nat) (nd0 nd : NodeRegressor K)
    (h : t.nodes[i]? = some nd0) : (t.set_node i nd).nodes[i]? = some nd := by
  have hlt : i < t.nodes.length := by
    rcases List.getElem?_eq_some.1 h with ⟨h1, _⟩; exact h1
  rw [get_set_node]; simp [hlt]

theorem get_set_node_ne (t : TreeRegressor K) (i j : Nat) (nd : NodeRegressor K) (h : i ≠ j) :
    (t.set_node i nd).nodes[j]? = t.nodes[j]? := by
  rw [get_set_node]; simp [h]

theorem get_lt {t : TreeRegressor K} {i : Nat} {nd : NodeRegressor K}
    (h : t.nodes[i]? = some nd) : i < t.nodes.length := by
  rcases List.getElem?_eq_some.1 h with ⟨h1, _⟩; exact h1

/-- Writing back a node whose `weight_tree` is unchanged keeps the list of
`weight_tree` values. -/
theorem map_weight_tree_set_node (t : TreeRegressor K) (i : Nat) (nd nd1 : NodeRegressor K)
    (hi : t.nodes[i]? = some nd) (hs : nd1.weight_tree = nd.weight_tree) :
    (t.set_node i nd1).nodes.map NodeRegressor.weight_tree =
      t.nodes.map NodeRegressor.weight_tree := by
  unfold TreeRegressor.set_node
  apply List.ext_getElem?
  intro j
  simp only [List.getElem?_map]
  by_cases hj : i = j
  · subst hj
    rw [List.getElem?_set_self', hi]
    simp [hs]
  · rw [List.getElem?_set_ne hj]

theorem map_weight_tree_get {t t1 : TreeRegressor K}
    (h : t1.nodes.map NodeRegressor.weight_tree = t.nodes.map NodeRegressor.weight_tree)
    {i : Nat} {nd : NodeRegressor K} (hi : t.nodes[i]? = some nd) :
    ∃ nd1, t1.nodes[i]? = some nd1 ∧ nd1.weight_tree = nd.weight_tree := by
  have h1 : (t1.nodes.map NodeRegressor.weight_tree)[i]?
      = (t.nodes.map NodeRegressor.weight_tree)[i]? := by rw [h]
  rw [List.getElem?_map, List.getElem?_map, hi] at h1
  cases h0 : t1.nodes[i]? with
  | none => rw [h0] at h1; simp at h1
  | some nd0 =>
    rw [h0] at h1
    exact ⟨nd0, rfl, by simpa using h1⟩

/-- What one descent of `go_downwards` does: the shape of the tree is kept, the
index returned is a leaf below the start node, only nodes on the parent chain of
that leaf are written, no `weight_tree` is written, and in prediction mode
nothing is written. -/
theorem go_downwards_loop_spec (expf : K → K) (step : K) {nf : Nat} (fuel : Nat) :
    ∀ (t : TreeRegressor K) (s : Nat) (x : List K) (y : K) (p : Bool) (t1 : TreeRegressor K)
      (l : Nat), Arena nf t → go_downwards_loop expf step fuel t s x y p = some (t1, l) →
      SameShape t t1 ∧ (∃ nd, t1.nodes[l]? = some nd ∧ nd.is_leaf = true) ∧ OnChain t l s ∧
      (∀ i, ¬ OnChain t l i → t1.nodes[i]? = t.nodes[i]?) ∧
      t1.nodes.map NodeRegressor.weight_tree = t.nodes.map NodeRegressor.weight_tree ∧
      ((∀ a, 0 < expf a) → Pos t → Pos t1) ∧ (p = true → t1 = t) := by
  induction fuel with
  | zero => intro t s x y p t1 l _ h; simp [go_downwards_loop] at h
  | succ fuel ih =>
    intro t s x y p t1 l hw h
    unfold go_downwards_loop at h
    cases hn0 : t.node s with
    | none => rw [hn0] at h; simp at h
    | some n0 =>
      rw [hn0] at h
      have hn0' : t.nodes[s]? = some n0 := hn0
      simp only [Option.bind_eq_bind, Option.some_bind] at h
      -- the node and the tree after the optional downward update
      generalize hcur : (if p = true then n0 else n0.update_downwards expf step x y) = cur at h
      generalize ht2 : (if p = true then t else t.set_node s cur) = t2 at h
      have hshape : cur.shape = n0.shape := by
        rw [← hcur]; split
        · rfl
        · exact update_downwards_shape expf step n0 x y
      have hwt : cur.weight_tree = n0.weight_tree := by
        rw [← hcur]; split
        · rfl
        · rfl
      have hss : SameShape t t2 := by
        rw [← ht2]; split
        · exact SameShape.shape_refl t
        · exact SameShape.shape_set_node t s n0 cur hn0' hshape
      have hget : t2.nodes[s]? = some cur := by
        rw [← ht2]; split
        · rename_i hp; rw [← hcur]; simp [hp, hn0']
        · exact get_set_node_self t s n0 cur hn0'
      have hne : ∀ i, s ≠ i → t2.nodes[i]? = t.nodes[i]? := by
        intro i hi
        rw [← ht2]; split
        · rfl
        · exact get_set_node_ne t s i cur hi
      have hmap : t2.nodes.map NodeRegressor.weight_tree
          = t.nodes.map NodeRegressor.weight_tree := by
        rw [← ht2]; split
        · rfl
        · exact map_weight_tree_set_node t s n0 cur hn0' hwt
      have hpos : (∀ a, 0 < expf a) → Pos t → Pos t2 := by
        intro hexp hp i nd hi
        by_cases his : s = i
        · subst his
          rw [hget] at hi
          have hnd : nd = cur := by injection hi with h1; exact h1.symm
          have h0 := hp s n0 hn0'
          rw [hnd, hwt, ← hcur]
          refine ⟨?_, h0.2⟩
          split
          · exact h0.1
          · rw [update_downwards_weight]; exact mul_pos h0.1 (hexp _)
        · rw [hne i his] at hi; exact hp i nd hi
      have hpt : p = true → t2 = t := by
        intro hp; rw [← ht2]; simp [hp]
      have hw2 : Arena nf t2 := Arena.arena_congr hss hw
      by_cases hleaf : cur.is_leaf = true
      · rw [if_pos hleaf] at h
        injection h with h
        injection h with h1 h2
        subst h1; subst h2
        refine ⟨hss, ⟨cur, hget, hleaf⟩, OnChain.here _, ?_, hmap, hpos, hpt⟩
        intro i hi
        apply hne
        intro hsi
        apply hi; rw [hsi]; exact OnChain.here _
      · rw [if_neg hleaf] at h
        cases hxv : x[cur.feature]? with
        | none => rw [hxv] at h; simp at h
        | some xv =>
          rw [hxv] at h
          simp only [Option.bind_eq_bind, Option.some_bind] at h
          have hleaf0 : n0.is_leaf = false := by
            have := (shape_fields hshape).2.2.2.1
            rw [← this]; simpa using hleaf
          obtain ⟨c1, c2, c3, cl, cr, hcl, hcr, pl, pr⟩ := hw.children s n0 hn0' hleaf0
          have el : cur.left = n0.left := (shape_fields hshape).2.1
          have er : cur.right = n0.right := (shape_fields hshape).2.2.1
          -- common continuation for both children
          have key : ∀ (c : Nat) (cn : NodeRegressor K), t.nodes[c]? = some cn → cn.parent = s →
              s < c → go_downwards_loop expf step fuel t2 c x y p = some (t1, l) →
              SameShape t t1 ∧ (∃ nd, t1.nodes[l]? = some nd ∧ nd.is_leaf = true) ∧
              OnChain t l s ∧ (∀ i, ¬ OnChain t l i → t1.nodes[i]? = t.nodes[i]?) ∧
              t1.nodes.map NodeRegressor.weight_tree = t.nodes.map NodeRegressor.weight_tree ∧
              ((∀ a, 0 < expf a) → Pos t → Pos t1) ∧ (p = true → t1 = t) := by
            intro c cn hc hpar hsc hrec
            obtain ⟨r1, r2, r3, r4, r5, r6, r7⟩ := ih t2 c x y p t1 l hw2 hrec
            have hch : OnChain t l c := OnChain.chain_congr hss.shape_symm r3
            have hcs : OnChain t l s := by
              have := OnChain.tail hch (by omega) hc
              rw [hpar] at this; exact this
            refine ⟨hss.shape_trans r1, r2, hcs, ?_, r5.trans hmap, ?_, ?_⟩
            · intro i hi
              have h1 : ¬ OnChain t2 l i := fun hh => hi (OnChain.chain_congr hss.shape_symm hh)
              rw [r4 i h1]
              apply hne
              intro hsi; apply hi; rw [← hsi]; exact hcs
            · intro hexp hp; exact r6 hexp (hpos hexp hp)
            · intro hp; rw [r7 hp, hpt hp]
          by_cases hle : xv ≤ cur.threshold
          · rw [if_pos hle, el] at h
            exact key n0.left cl hcl pl c1 h
          · rw [if_neg hle, er] at h
            exact key n0.right cr hcr pr (by omega) h

/-- With fuel for every node from the start node on, `go_downwards` returns. -/
theorem go_downwards_loop_some (expf : K → K) (step : K) {nf : Nat} (fuel : Nat) :
    ∀ (t : TreeRegressor K) (s : Nat) (x : List K) (y : K) (p : Bool), Arena nf t →
      s < t.nodes.length → x.length = nf → t.nodes.length - s ≤ fuel →
      ∃ r, go_downwards_loop expf step fuel t s x y p = some r := by
  induction fuel with
  | zero => intro t s x y p _ hs _ hf; omega
  | succ fuel ih =>
    intro t s x y p hw hs hx hf
    unfold go_downwards_loop
    obtain ⟨n0, hn0⟩ := exists_get_of_lt hs
    have hn0' : t.node s = some n0 := hn0
    rw [hn0']
    simp only [Option.bind_eq_bind, Option.some_bind]
    generalize hcur : (if p = true then n0 else n0.update_downwards expf step x y) = cur
    generalize ht2 : (if p = true then t else t.set_node s cur) = t2
    have hshape : cur.shape = n0.shape := by
      rw [← hcur]; split
      · rfl
      · exact update_downwards_shape expf step n0 x y
    have hss : SameShape t t2 := by
      rw [← ht2]; split
      · exact SameShape.shape_refl t
      · exact SameShape.shape_set_node t s n0 cur hn0 hshape
    have hw2 : Arena nf t2 := Arena.arena_congr hss hw
    by_cases hleaf : cur.is_leaf = true
    · rw [if_pos hleaf]; exact ⟨_, rfl⟩
    · rw [if_neg hleaf]
      have hleaf0 : n0.is_leaf = false := by
        have := (shape_fields hshape).2.2.2.1
        rw [← this]; simpa using hleaf
      obtain ⟨c1, c2, c3, cl, cr, hcl, hcr, pl, pr⟩ := hw.children s n0 hn0 hleaf0
      have el : cur.left = n0.left := (shape_fields hshape).2.1
      have er : cur.right = n0.right := (shape_fields hshape).2.2.1
      have ef : cur.feature = n0.feature := (shape_fields hshape).2.2.2.2.1
      obtain ⟨xv, hxv⟩ : ∃ xv, x[cur.feature]? = some xv :=
        exists_get_of_lt (by omega)
      rw [hxv]
      simp only [Option.bind_eq_bind, Option.some_bind]
      have hl := get_lt hcl
      have hr := get_lt hcr
      have hlen := hss.shape_length
      by_cases hle : xv ≤ cur.threshold
      · rw [if_pos hle, el]
        exact ih t2 n0.left x y p hw2 (by omega) hx (by omega)
      · rw [if_neg hle, er]
        exact ih t2 n0.right x y p hw2 (by omega) hx (by omega)

theorem SameCore.core_refl (t : TreeRegressor K) : SameCore t t := ⟨rfl, rfl, rfl⟩

theorem SameCore.core_trans {t t1 t2 : TreeRegressor K} (h : SameCore t t1) (h1 : SameCore t1 t2) :
    SameCore t t2 :=
  ⟨h.cores.trans h1.cores, h.n_nodes.trans h1.n_nodes, h.iteration.trans h1.iteration⟩

theorem SameCore.core_symm {t t1 : TreeRegressor K} (h : SameCore t t1) : SameCore t1 t :=
  ⟨h.cores.symm, h.n_nodes.symm, h.iteration.symm⟩

theorem core_fields {a b : NodeRegressor K}
    (h : a.set_weight_tree 0 = b.set_weight_tree 0) :
    a.shape = b.shape ∧ a.n_samples = b.n_samples ∧ a.weight = b.weight ∧
      a.predict = b.predict := by
  have h1 := congrArg NodeRegressor.shape h
  have h2 := congrArg NodeRegressor.n_samples h
  have h3 := congrArg NodeRegressor.weight h
  have h4 := congrArg NodeRegressor.predict h
  exact ⟨h1, h2, h3, h4⟩

theorem SameCore.core_get {t t1 : TreeRegressor K} (h : SameCore t t1) {i : Nat}
    {nd : NodeRegressor K} (hi : t1.nodes[i]? = some nd) :
    ∃ nd0, t.nodes[i]? = some nd0 ∧ nd0.set_weight_tree 0 = nd.set_weight_tree 0 := by
  have h1 : (t.nodes.map (fun n => n.set_weight_tree 0))[i]?
      = (t1.nodes.map (fun n => n.set_weight_tree 0))[i]? := by rw [h.cores]
  rw [List.getElem?_map, List.getElem?_map, hi] at h1
  cases h0 : t.nodes[i]? with
  | none => rw [h0] at h1; simp at h1
  | some nd0 =>
    rw [h0] at h1
    exact ⟨nd0, rfl, by simpa using h1⟩

theorem SameCore.sameShape {t t1 : TreeRegressor K} (h : SameCore t t1) : SameShape t t1 := by
  refine ⟨?_, h.n_nodes, h.iteration⟩
  have := congrArg (List.map NodeRegressor.shape) h.cores
  simpa [List.map_map, Function.comp_def, NodeRegressor.shape,
    NodeRegressor.set_weight_tree] using this

theorem SameCore.core_set_node (t : TreeRegressor K) (i : Nat) (nd : NodeRegressor K) (v : K)
    (hi : t.nodes[i]? = some nd) : SameCore t (t.set_node i (nd.set_weight_tree v)) := by
  refine ⟨?_, rfl, rfl⟩
  unfold TreeRegressor.set_node
  apply List.ext_getElem?
  intro j
  simp only [List.getElem?_map]
  by_cases hj : i = j
  · subst hj
    rw [List.getElem?_set_self', hi]
    simp [NodeRegressor.set_weight_tree]
  · rw [List.getElem?_set_ne hj]

/-- The value `update_upwards` computes for a node. -/
theorem update_upwards_eq (t : TreeRegressor K) (nd : NodeRegressor K) :
    nd.update_upwards t.node =
      if nd.is_leaf = true then some (nd.set_weight_tree nd.weight)
      else (t.nodes[nd.left]?).bind (fun l => (t.nodes[nd.right]?).bind (fun r =>
        some (nd.set_weight_tree ((nd.weight + l.weight_tree * r.weight_tree) / 2)))) := rfl

theorem OnChain.zero {t : TreeRegressor K} {i : Nat} (h : OnChain t 0 i) : i = 0 := by
  cases h with
  | here => rfl
  | step _ _ nd hj _ _ => exact absurd rfl hj

/-- One `update_upwards` written back at node `j`: the facts used by the loop. -/
theorem update_step {nf : Nat} (t : TreeRegressor K) (j : Nat) (nd upd : NodeRegressor K)
    (hw : Arena nf t) (hnd : t.nodes[j]? = some nd) (hu : nd.update_upwards t.node = some upd) :
    SameCore t (t.set_node j upd) ∧ (t.set_node j upd).nodes[j]? = some upd ∧
      upd.parent = nd.parent ∧ LocalEq (t.set_node j upd) j ∧
      (Pos t → Pos (t.set_node j upd)) := by
  rw [update_upwards_eq] at hu
  have hself := get_set_node_self t j nd upd hnd
  by_cases hleaf : nd.is_leaf = true
  · rw [if_pos hleaf] at hu
    injection hu with hu
    subst hu
    refine ⟨SameCore.core_set_node t j nd _ hnd, hself, rfl, ?_, ?_⟩
    · intro nd1 h1
      rw [hself] at h1; injection h1 with h1; subst h1
      exact ⟨fun _ => rfl, fun h => by
        have : nd.is_leaf = false := h
        rw [hleaf] at this; exact absurd this (by simp)⟩
    · intro hp i nd1 h1
      by_cases hij : j = i
      · subst hij
        rw [hself] at h1; injection h1 with h1; subst h1
        exact ⟨(hp j nd hnd).1, (hp j nd hnd).1⟩
      · rw [get_set_node_ne t j i _ hij] at h1; exact hp i nd1 h1
  · rw [if_neg hleaf] at hu
    have hleaf0 : nd.is_leaf = false := by simpa using hleaf
    obtain ⟨c1, c2, c3, cl, cr, hcl, hcr, pl, pr⟩ := hw.children j nd hnd hleaf0
    rw [hcl, hcr] at hu
    simp only [Option.some_bind] at hu
    injection hu with hu
    subst hu
    refine ⟨SameCore.core_set_node t j nd _ hnd, hself, rfl, ?_, ?_⟩
    · intro nd1 h1
      rw [hself] at h1; injection h1 with h1; subst h1
      refine ⟨fun h => ?_, fun _ => ⟨cl, cr, ?_, ?_, rfl⟩⟩
      · have : nd.is_leaf = true := h
        exact absurd this hleaf
      · show (t.set_node j _).nodes[nd.left]? = some cl
        rw [get_set_node_ne t j nd.left _ (by omega)]; exact hcl
      · show (t.set_node j _).nodes[nd.right]? = some cr
        rw [get_set_node_ne t j nd.right _ (by omega)]; exact hcr
    · intro hp i nd1 h1
      by_cases hij : j = i
      · subst hij
        rw [hself] at h1; injection h1 with h1; subst h1
        refine ⟨(hp j nd hnd).1, ?_⟩
        show 0 < (nd.weight + cl.weight_tree * cr.weight_tree) / 2
        have h1 := (hp j nd hnd).1
        have h2 := (hp _ cl hcl).2
        have h3 := (hp _ cr hcr).2
        have := mul_pos h2 h3
        linarith
      · rw [get_set_node_ne t j i _ hij] at h1; exact hp i nd1 h1

/-- What `go_upwards` does: only `weight_tree` fields change, only on the parent
chain of the start node, and afterwards every node of that chain satisfies the
mixture-weight equation. -/
theorem go_upwards_spec {nf : Nat} (fuel : Nat) :
    ∀ (t : TreeRegressor K) (j : Nat) (t1 : TreeRegressor K), Arena nf t →
      go_upwards fuel t j = some t1 →
      SameCore t t1 ∧ (∀ i, ¬ OnChain t j i → t1.nodes[i]? = t.nodes[i]?) ∧
      (∀ i, OnChain t j i → LocalEq t1 i) ∧ (Pos t → Pos t1) := by
  induction fuel with
  | zero => intro t j t1 _ h; simp [go_upwards] at h
  | succ fuel ih =>
    intro t j t1 hw h
    unfold go_upwards at h
    cases hnd : t.node j with
    | none => rw [hnd] at h; simp at h
    | some nd =>
      rw [hnd] at h
      have hnd' : t.nodes[j]? = some nd := hnd
      simp only [Option.bind_eq_bind, Option.some_bind] at h
      cases hu : nd.update_upwards t.node with
      | none => rw [hu] at h; simp at h
      | some upd =>
        rw [hu] at h
        simp only [Option.some_bind] at h
        obtain ⟨s1, s2, s3, s4, s5⟩ := update_step t j nd upd hw hnd' hu
        have hne : ∀ i, j ≠ i → (t.set_node j upd).nodes[i]? = t.nodes[i]? :=
          fun i hi => get_set_node_ne t j i upd hi
        by_cases hj : j = 0
        · rw [if_pos hj] at h
          injection h with h
          subst h
          refine ⟨s1, ?_, ?_, s5⟩
          · intro i hi
            apply hne
            intro hji; apply hi; rw [hji]; exact OnChain.here _
          · intro i hi
            rw [hj] at hi
            have := OnChain.zero hi
            rw [this, ← hj]; exact s4
        · rw [if_neg hj] at h
          have hc : (t.set_node j upd).node j = some upd := s2
          rw [hc] at h
          simp only [Option.some_bind] at h
          rw [s3] at h
          have hw1 : Arena nf (t.set_node j upd) := Arena.arena_congr s1.sameShape hw
          obtain ⟨r1, r2, r3, r4⟩ := ih (t.set_node j upd) nd.parent t1 hw1 h
          have hplt : nd.parent < j := hw.parent_lt j nd hnd' (Nat.pos_of_ne_zero hj)
          refine ⟨s1.core_trans r1, ?_, ?_, fun hp => r4 (s5 hp)⟩
          · intro i hi
            have h1 : ¬ OnChain (t.set_node j upd) nd.parent i := by
              intro hh
              exact hi (OnChain.step j i nd hj hnd' (OnChain.chain_congr s1.sameShape.shape_symm hh))
            rw [r2 i h1]
            apply hne
            intro hji; apply hi; rw [hji]; exact OnChain.here _
          · intro i hi
            -- nodes above the parent are not written by the rest of the loop
            have hfr : ∀ k, nd.parent < k → t1.nodes[k]? = (t.set_node j upd).nodes[k]? := by
              intro k hk
              apply r2
              intro hh
              have := OnChain.le hw1 hh
              omega
            have hself : LocalEq t1 j := by
              intro nd1 h1
              rw [hfr j hplt, s2] at h1
              injection h1 with h1; subst h1
              obtain ⟨q1, q2⟩ := s4 upd s2
              refine ⟨q1, fun hl => ?_⟩
              obtain ⟨l, r, hl1, hr1, he⟩ := q2 hl
              obtain ⟨c1, c2, -⟩ := hw1.children j upd s2 hl
              refine ⟨l, r, ?_, ?_, he⟩
              · rw [hfr _ (by omega)]; exact hl1
              · rw [hfr _ (by omega)]; exact hr1
            cases hi with
            | here => exact hself
            | step _ _ nd0 _ hnd0 hrest =>
              rw [hnd'] at hnd0
              injection hnd0 with hnd0
              subst hnd0
              exact r3 i (OnChain.chain_congr s1.sameShape hrest)

/-- With fuel for every node from the start node up to the root, `go_upwards`
returns. -/
theorem go_upwards_some {nf : Nat} (fuel : Nat) :
    ∀ (t : TreeRegressor K) (j : Nat), Arena nf t → j < t.nodes.length → j + 1 ≤ fuel →
      ∃ t1, go_upwards fuel t j = some t1 := by
  induction fuel with
  | zero => intro t j _ _ hf; omega
  | succ fuel ih =>
    intro t j hw hj hf
    unfold go_upwards
    obtain ⟨nd, hnd⟩ := exists_get_of_lt hj
    have hnd' : t.node j = some nd := hnd
    rw [hnd']
    simp only [Option.bind_eq_bind, Option.some_bind]
    have hu : ∃ upd, nd.update_upwards t.node = some upd := by
      rw [update_upwards_eq]
      by_cases hleaf : nd.is_leaf = true
      · rw [if_pos hleaf]; exact ⟨_, rfl⟩
      · rw [if_neg hleaf]
        have hleaf0 : nd.is_leaf = false := by simpa using hleaf
        obtain ⟨c1, c2, c3, cl, cr, hcl, hcr, pl, pr⟩ := hw.children j nd hnd hleaf0
        rw [hcl, hcr]; exact ⟨_, rfl⟩
    obtain ⟨upd, hu⟩ := hu
    rw [hu]
    simp only [Option.some_bind]
    obtain ⟨s1, s2, s3, s4, s5⟩ := update_step t j nd upd hw hnd hu
    by_cases hj0 : j = 0
    · rw [if_pos hj0]; exact ⟨_, rfl⟩
    · rw [if_neg hj0]
      have hc : (t.set_node j upd).node j = some upd := s2
      rw [hc]
      simp only [Option.some_bind]
      rw [s3]
      have hw1 : Arena nf (t.set_node j upd) := Arena.arena_congr s1.sameShape hw
      have hplt : nd.parent < j := hw.parent_lt j nd hnd (Nat.pos_of_ne_zero hj0)
      have hlen : (t.set_node j upd).nodes.length = t.nodes.length := by
        simp [TreeRegressor.set_node]
      exact ih (t.set_node j upd) nd.parent hw1 (by omega) (by omega)

theorem data_node_is_leaf (expf : K → K) (step : K) (index : Nat) (x : List K) (y : K) :
    (data_node expf step index x y).is_leaf = true := rfl

theorem arena3_get_idx (base : List (NodeRegressor K)) (i : Nat) (v a b : NodeRegressor K)
    (h : i < base.length) : (arena3 base i v a b)[i]? = some v := by
  unfold arena3
  rw [List.getElem?_append_left (by simpa using h)]
  simp [h]

theorem arena3_get_fst (base : List (NodeRegressor K)) (i : Nat) (v a b : NodeRegressor K) :
    (arena3 base i v a b)[base.length]? = some a := by
  unfold arena3
  rw [List.getElem?_append_right (by simp)]
  simp

theorem arena3_get_snd (base : List (NodeRegressor K)) (i : Nat) (v a b : NodeRegressor K) :
    (arena3 base i v a b)[base.length + 1]? = some b := by
  unfold arena3
  rw [List.getElem?_append_right (by simp)]
  simp

theorem arena3_set_idx (base : List (NodeRegressor K)) (i : Nat) (v w a b : NodeRegressor K)
    (h : i < base.length) : (arena3 base i v a b).set i w = arena3 base i w a b := by
  unfold arena3
  rw [List.set_append_left _ _ (by simpa using h)]
  simp

theorem arena3_set_fst (base : List (NodeRegressor K)) (i : Nat) (v w a b : NodeRegressor K) :
    (arena3 base i v a b).set base.length w = arena3 base i v w b := by
  unfold arena3
  rw [List.set_append_right _ _ (by simp)]
  simp

theorem arena3_set_snd (base : List (NodeRegressor K)) (i : Nat) (v w a b : NodeRegressor K) :
    (arena3 base i v a b).set (base.length + 1) w = arena3 base i v a w := by
  unfold arena3
  rw [List.set_append_right _ _ (by simp)]
  simp

theorem arena3_init (base : List (NodeRegressor K)) (i : Nat) (v a b : NodeRegressor K)
    (h : base[i]? = some v) : base ++ [a] ++ [b] = arena3 base i v a b := by
  unfold arena3
  have : base.set i v = base := by
    apply List.ext_getElem?
    intro j
    by_cases hj : i = j
    · subst hj
      rw [List.getElem?_set_self']; simp [h]
    · rw [List.getElem?_set_ne hj]
  rw [this]; simp

theorem some_bind_eq {α β : Type} (a : α) (f : α → Option β) : (some a >>= f) = f a := rfl

theorem split_leaf_eq (expf : K → K) (step : K) (t : TreeRegressor K) (index : Nat) (x : List K)
    (y : K) (feature : Nat) (threshold : K) (nd : NodeRegressor K) (x1 x2 : K)
    (hn : t.n_nodes = t.nodes.length) (hnd : t.nodes[index]? = some nd)
    (hx1 : x[feature]? = some x1) (hx2 : nd.x_t[feature]? = some x2) :
    t.split_leaf expf step index x y feature threshold =
      some (⟨arena3 t.nodes index (split_node nd t.nodes.length feature threshold)
               (if x1 < x2 then data_node expf step index x y
                 else other_node expf step index nd.x_t nd.y_t)
               (if x1 < x2 then other_node expf step index nd.x_t nd.y_t
                 else data_node expf step index x y),
              t.nodes.length + 2, t.iteration⟩,
            if x1 < x2 then t.nodes.length else t.nodes.length + 1) := by
  have hlt : index < t.nodes.length := by
    rcases List.getElem?_eq_some.1 hnd with ⟨h, _⟩; exact h
  have hx2' : (nd.set_left t.nodes.length |>.set_right (t.nodes.length + 1)
      |>.set_is_leaf false).x_t[feature]? = some x2 := hx2
  have hup : ∀ (g : Nat → Option (NodeRegressor K)) (a : List K) (b : K),
      NodeRegressor.update_upwards g
        ((((NodeRegressor.create index : NodeRegressor K).set_x_t a).set_y_t b).update_downwards
          expf step a b) = some (other_node expf step index a b) := by
    intro g a b; rfl
  unfold split_leaf
  simp only [add_node, node, set_node, hn]
  rw [arena3_init t.nodes index nd _ _ hnd]
  by_cases hc : x1 < x2
  · rw [arena3_get_idx _ _ _ _ _ hlt, some_bind_eq, hx1, some_bind_eq,
      arena3_set_idx _ _ _ _ _ _ hlt, arena3_get_idx _ _ _ _ _ hlt, some_bind_eq,
      hx2', some_bind_eq]
    repeat rw [if_pos hc]
    rw [arena3_set_idx _ _ _ _ _ _ hlt, arena3_get_fst, some_bind_eq,
      arena3_set_fst, arena3_get_idx _ _ _ _ _ hlt, some_bind_eq, arena3_get_snd, some_bind_eq,
      arena3_set_snd, arena3_get_snd, some_bind_eq, arena3_get_idx _ _ _ _ _ hlt, some_bind_eq,
      arena3_set_snd, arena3_get_snd, some_bind_eq, hup, some_bind_eq, arena3_set_snd,
      arena3_get_fst, some_bind_eq, arena3_set_fst]
    rfl
  · rw [arena3_get_idx _ _ _ _ _ hlt, some_bind_eq, hx1, some_bind_eq,
      arena3_set_idx _ _ _ _ _ _ hlt, arena3_get_idx _ _ _ _ _ hlt, some_bind_eq,
      hx2', some_bind_eq]
    repeat rw [if_neg hc]
    rw [arena3_set_idx _ _ _ _ _ _ hlt, arena3_get_snd, some_bind_eq,
      arena3_set_snd, arena3_get_idx _ _ _ _ _ hlt, some_bind_eq, arena3_get_fst, some_bind_eq,
      arena3_set_fst, arena3_get_fst, some_bind_eq, arena3_get_idx _ _ _ _ _ hlt, some_bind_eq,
      arena3_set_fst, arena3_get_fst, some_bind_eq, hup, some_bind_eq, arena3_set_fst,
      arena3_get_snd, some_bind_eq, arena3_set_snd]
    rfl

theorem arena3_length (base : List (NodeRegressor K)) (i : Nat) (v a b : NodeRegressor K) :
    (arena3 base i v a b).length = base.length + 2 := by
  simp [arena3]

theorem arena3_get_old (base : List (NodeRegressor K)) (i j : Nat) (v a b : NodeRegressor K)
    (hj : j < base.length) (hij : i ≠ j) : (arena3 base i v a b)[j]? = base[j]? := by
  unfold arena3
  rw [List.getElem?_append_left (by simpa using hj), List.getElem?_set_ne hij]

/-- The nodes of an arena after a split, by cases on the index. -/
theorem arena3_cases (base : List (NodeRegressor K)) (i j : Nat) (v a b nd : NodeRegressor K)
    (hi : i < base.length) (h : (arena3 base i v a b)[j]? = some nd) :
    (j = i ∧ nd = v) ∨ (j ≠ i ∧ j < base.length ∧ base[j]? = some nd) ∨
      (j = base.length ∧ nd = a) ∨ (j = base.length + 1 ∧ nd = b) := by
  have hlt : j < base.length + 2 := by
    have := (List.getElem?_eq_some.1 h).1
    rw [arena3_length] at this; exact this
  by_cases h1 : j = i
  · subst h1
    rw [arena3_get_idx _ _ _ _ _ hi] at h
    injection h with h
    exact Or.inl ⟨rfl, h.symm⟩
  · by_cases h2 : j < base.length
    · rw [arena3_get_old _ _ _ _ _ _ h2 (fun e => h1 e.symm)] at h
      exact Or.inr (Or.inl ⟨h1, h2, h⟩)
    · by_cases h3 : j = base.length
      · subst h3
        rw [arena3_get_fst] at h
        injection h with h
        exact Or.inr (Or.inr (Or.inl ⟨rfl, h.symm⟩))
      · have h4 : j = base.length + 1 := by omega
        subst h4
        rw [arena3_get_snd] at h
        injection h with h
        exact Or.inr (Or.inr (Or.inr ⟨rfl, h.symm⟩))

/-- An old node is still there after a split, with the split node in place of the
old leaf. -/
theorem arena3_old (base : List (NodeRegressor K)) (i j : Nat) (v a b nd : NodeRegressor K)
    (h : base[j]? = some nd) :
    ∃ nd2, (arena3 base i v a b)[j]? = some nd2 ∧ (j = i → nd2 = v) ∧ (j ≠ i → nd2 = nd) := by
  have hj : j < base.length := (List.getElem?_eq_some.1 h).1
  by_cases h1 : j = i
  · subst h1
    exact ⟨v, arena3_get_idx _ _ _ _ _ hj, fun _ => rfl, fun e => absurd rfl e⟩
  · refine ⟨nd, ?_, fun e => absurd e h1, fun _ => rfl⟩
    rw [arena3_get_old _ _ _ _ _ _ hj (fun e => h1 e.symm)]; exact h

/-- The arena invariant after a split of the leaf `i` into two new leaves. -/
theorem Arena.split {nf : Nat} (t : TreeRegressor K) (i : Nat) (nd a b : NodeRegressor K)
    (feature : Nat) (threshold : K) (hw : Arena nf t) (hit : t.iteration ≠ 0)
    (hnd : t.nodes[i]? = some nd) (hf : feature < nf)
    (ha : a.parent = i ∧ a.is_leaf = true ∧ a.x_t.length = nf)
    (hb : b.parent = i ∧ b.is_leaf = true ∧ b.x_t.length = nf) :
    Arena nf ⟨arena3 t.nodes i (split_node nd t.nodes.length feature threshold) a b,
      t.nodes.length + 2, t.iteration⟩ := by
  have hi : i < t.nodes.length := get_lt hnd
  have hv : (split_node nd t.nodes.length feature threshold).parent = nd.parent := rfl
  refine ⟨?_, ?_, ?_, ?_, ?_⟩
  · show t.nodes.length + 2 = (arena3 _ _ _ _ _).length
    rw [arena3_length]
  · obtain ⟨r, hr, hp⟩ := hw.root
    obtain ⟨r2, h2, e1, e2⟩ := arena3_old t.nodes i 0
      (split_node nd t.nodes.length feature threshold) a b r hr
    refine ⟨r2, h2, ?_⟩
    by_cases h0 : 0 = i
    · rw [e1 h0, hv]
      subst h0
      rw [hr] at hnd; injection hnd with hnd; rw [← hnd]; exact hp
    · rw [e2 h0]; exact hp
  · intro j nd2 hj hpos
    rcases arena3_cases _ _ _ _ _ _ _ hi hj with ⟨e, e2⟩ | ⟨_, _, h2⟩ | ⟨e, e2⟩ | ⟨e, e2⟩
    · rw [e2, hv, e]; exact hw.parent_lt i nd hnd (by omega)
    · exact hw.parent_lt j nd2 h2 hpos
    · rw [e2, ha.1, e]; exact hi
    · rw [e2, hb.1, e]; omega
  · intro j nd2 hj hleaf
    rcases arena3_cases _ _ _ _ _ _ _ hi hj with ⟨e, e2⟩ | ⟨hne, _, h2⟩ | ⟨e, e2⟩ | ⟨e, e2⟩
    · subst e2
      refine ⟨by rw [e]; exact hi, rfl, hf, a, b, ?_, ?_, by rw [e]; exact ha.1,
        by rw [e]; exact hb.1⟩
      · exact arena3_get_fst _ _ _ _ _
      · exact arena3_get_snd _ _ _ _ _
    · obtain ⟨c1, c2, c3, l, r, hl, hr, pl, pr⟩ := hw.children j nd2 h2 hleaf
      obtain ⟨l2, hl2, el1, el2⟩ := arena3_old t.nodes i nd2.left
        (split_node nd t.nodes.length feature threshold) a b l hl
      obtain ⟨r2, hr2, er1, er2⟩ := arena3_old t.nodes i nd2.right
        (split_node nd t.nodes.length feature threshold) a b r hr
      refine ⟨c1, c2, c3, l2, r2, hl2, hr2, ?_, ?_⟩
      · by_cases h0 : nd2.left = i
        · rw [el1 h0, hv]
          rw [h0, hnd] at hl; injection hl with hl; rw [hl]; exact pl
        · rw [el2 h0]; exact pl
      · by_cases h0 : nd2.right = i
        · rw [er1 h0, hv]
          rw [h0, hnd] at hr; injection hr with hr; rw [hr]; exact pr
        · rw [er2 h0]; exact pr
    · rw [e2, ha.2.1] at hleaf; exact absurd hleaf (by simp)
    · rw [e2, hb.2.1] at hleaf; exact absurd hleaf (by simp)
  · intro _ j nd2 hj
    rcases arena3_cases _ _ _ _ _ _ _ hi hj with ⟨e, e2⟩ | ⟨_, _, h2⟩ | ⟨e, e2⟩ | ⟨e, e2⟩
    · rw [e2]; exact hw.width hit i nd hnd
    · exact hw.width hit j nd2 h2
    · rw [e2]; exact ha.2.2
    · rw [e2]; exact hb.2.2

theorem OnChain.mono {t t1 : TreeRegressor K}
    (h : ∀ (j : Nat) (nd : NodeRegressor K), t.nodes[j]? = some nd →
      ∃ nd2, t1.nodes[j]? = some nd2 ∧ nd2.parent = nd.parent)
    {a b : Nat} (hc : OnChain t a b) : OnChain t1 a b := by
  induction hc with
  | here j => exact OnChain.here j
  | step j i nd hj hnd _ ih =>
    obtain ⟨nd2, h2, hp⟩ := h j nd hnd
    exact OnChain.step j i nd2 hj h2 (by rw [hp]; exact ih)

/-- If the mixture-weight equation holds off the parent chain of `j`, then after
`go_upwards(j)` it holds at every node. -/
theorem go_upwards_restore {nf : Nat} (fuel : Nat) (t : TreeRegressor K) (j : Nat)
    (t1 : TreeRegressor K) (hw : Arena nf t) (h : go_upwards fuel t j = some t1)
    (hoff : ∀ i, ¬ OnChain t j i → LocalEq t i) : ∀ i, LocalEq t1 i := by
  obtain ⟨r1, r2, r3, _⟩ := go_upwards_spec fuel t j t1 hw h
  intro i
  by_cases hc : OnChain t j i
  · exact r3 i hc
  · intro nd hnd
    rw [r2 i hc] at hnd
    obtain ⟨q1, q2⟩ := hoff i hc nd hnd
    refine ⟨q1, fun hl => ?_⟩
    obtain ⟨l, r, hl1, hr1, he⟩ := q2 hl
    obtain ⟨c1, c2, c3, cl, cr, hcl, hcr, pl, pr⟩ := hw.children i nd hnd hl
    rw [hl1] at hcl; injection hcl with hcl; subst hcl
    rw [hr1] at hcr; injection hcr with hcr; subst hcr
    refine ⟨l, r, ?_, ?_, he⟩
    · rw [r2]; exact hl1
      intro hh
      have := OnChain.tail hh (by omega) hl1
      rw [pl] at this; exact hc this
    · rw [r2]; exact hr1
      intro hh
      have := OnChain.tail hh (by omega) hr1
      rw [pr] at this; exact hc this

theorem Arena.set_iteration {nf : Nat} {t : TreeRegressor K} (hw : Arena nf t)
    (hit : t.iteration ≠ 0) (k : Nat) : Arena nf { t with iteration := k } :=
  ⟨hw.count, hw.root, hw.parent_lt, hw.children, fun _ => hw.width hit⟩

theorem data_node_pos (expf : K → K) (step : K) (index : Nat) (x : List K) (y : K)
    (hexp : ∀ a, 0 < expf a) :
    0 < (data_node expf step index x y).weight ∧ 0 < (data_node expf step index x y).weight_tree := by
  constructor
  · show 0 < (1 : K) * expf _
    rw [one_mul]; exact hexp _
  · show 0 < (1 : K)
    exact one_pos

theorem other_node_pos (expf : K → K) (step : K) (index : Nat) (x : List K) (y : K)
    (hexp : ∀ a, 0 < expf a) :
    0 < (other_node expf step index x y).weight ∧
      0 < (other_node expf step index x y).weight_tree :=
  ⟨(data_node_pos expf step index x y hexp).1, (data_node_pos expf step index x y hexp).1⟩

/-- The first `fit` of a tree: the sample is stored in the root. -/
theorem fit_first (expf : K → K) (step : K) {nf : Nat} (fuel : Nat) (t : TreeRegressor K)
    (x : List K) (y : K) (feature : Nat) (threshold : K) (hw : WF nf t)
    (hit : t.iteration = 0) :
    ∃ r, t.nodes = [r] ∧ r.is_leaf = true ∧ r.parent = 0 ∧
      t.fit expf step fuel x y feature threshold =
        some ⟨[(r.set_x_t x).set_y_t y], t.n_nodes, 1⟩ := by
  obtain ⟨r, hr, hp⟩ := hw.arena.root
  have hlen : t.nodes.length = 1 := by rw [hw.size, hit]
  have hnodes : t.nodes = [r] := by
    cases hl : t.nodes with
    | nil => rw [hl] at hlen; simp at hlen
    | cons a tl =>
      rw [hl] at hlen hr
      have : tl = [] := by
        cases tl with
        | nil => rfl
        | cons b tl2 => simp at hlen
      subst this
      simp at hr
      rw [hr]
  have hleaf : r.is_leaf = true := by
    cases hl : r.is_leaf with
    | true => rfl
    | false =>
      obtain ⟨c1, -, -, l, -, hl1, -⟩ := hw.arena.children 0 r hr hl
      have := get_lt hl1
      omega
  refine ⟨r, hnodes, hleaf, hp, ?_⟩
  unfold fit
  rw [if_pos hit, hr]
  simp only [Option.bind_eq_bind, Option.some_bind, hnodes, hit]
  rfl

/-- A later `fit` of a tree, step by step: the descent reaches a leaf `l`, the
leaf is split, and the weights are propagated from the new data leaf. -/
theorem fit_later {nf : Nat} (expf : K → K) (step : K) (fuel : Nat) (t : TreeRegressor K)
    (x : List K) (y : K) (feature : Nat) (threshold : K) (t5 : TreeRegressor K)
    (hw : Arena nf t) (hit : t.iteration ≠ 0) (hx : x.length = nf) (hf : feature < nf)
    (h : t.fit expf step fuel x y feature threshold = some t5) :
    ∃ (t1 : TreeRegressor K) (l : Nat) (nd : NodeRegressor K) (x1 x2 : K)
      (t3 : TreeRegressor K),
      go_downwards_loop expf step fuel t 0 x y false = some (t1, l) ∧
      t1.nodes[l]? = some nd ∧ nd.is_leaf = true ∧ x[feature]? = some x1 ∧
      nd.x_t[feature]? = some x2 ∧
      go_upwards fuel (split_tree expf step t1 l nd x y feature threshold (decide (x1 < x2)))
        (if x1 < x2 then t1.nodes.length else t1.nodes.length + 1) = some t3 ∧
      t5 = { t3 with iteration := t3.iteration + 1 } := by
  unfold fit at h
  rw [if_neg hit] at h
  unfold go_downwards at h
  cases hd : go_downwards_loop expf step fuel t 0 x y false with
  | none => rw [hd] at h; simp at h
  | some d =>
    obtain ⟨t1, l⟩ := d
    rw [hd] at h
    simp only [Option.bind_eq_bind, Option.some_bind] at h
    obtain ⟨d1, ⟨nd, hnd, hleaf⟩, -, -, -, -, -⟩ :=
      go_downwards_loop_spec expf step fuel t 0 x y false t1 l hw hd
    have hw1 : Arena nf t1 := Arena.arena_congr d1 hw
    have hit1 : t1.iteration ≠ 0 := by rw [← d1.iteration]; exact hit
    obtain ⟨x1, hx1⟩ : ∃ x1, x[feature]? = some x1 := exists_get_of_lt (by omega)
    obtain ⟨x2, hx2⟩ : ∃ x2, nd.x_t[feature]? = some x2 :=
      exists_get_of_lt (by rw [hw1.width hit1 l nd hnd]; exact hf)
    rw [split_leaf_eq expf step t1 l x y feature threshold nd x1 x2 hw1.count hnd hx1 hx2] at h
    simp only [Option.some_bind] at h
    have hst : split_tree expf step t1 l nd x y feature threshold (decide (x1 < x2)) =
        ⟨arena3 t1.nodes l (split_node nd t1.nodes.length feature threshold)
          (if x1 < x2 then data_node expf step l x y else other_node expf step l nd.x_t nd.y_t)
          (if x1 < x2 then other_node expf step l nd.x_t nd.y_t else data_node expf step l x y),
          t1.nodes.length + 2, t1.iteration⟩ := by
      unfold split_tree
      by_cases hc : x1 < x2
      · simp [hc]
      · simp [hc]
    rw [← hst] at h
    cases hu : go_upwards fuel (split_tree expf step t1 l nd x y feature threshold
        (decide (x1 < x2))) (if x1 < x2 then t1.nodes.length else t1.nodes.length + 1) with
    | none => rw [hu] at h; simp at h
    | some t3 =>
      rw [hu] at h
      simp only [Option.some_bind] at h
      injection h with h
      exact ⟨t1, l, nd, x1, x2, t3, rfl, hnd, hleaf, hx1, hx2, hu, h.symm⟩

theorem split_tree_data (expf : K → K) (step : K) (t : TreeRegressor K) (l : Nat) (nd : NodeRegressor K)
    (x : List K) (y : K) (feature : Nat) (threshold : K) (c : Bool) :
    (split_tree expf step t l nd x y feature threshold c).nodes[data_index t c]? =
      some (data_node expf step l x y) := by
  cases c
  · exact arena3_get_snd _ _ _ _ _
  · exact arena3_get_fst _ _ _ _ _

theorem split_tree_other (expf : K → K) (step : K) (t : TreeRegressor K) (l : Nat) (nd : NodeRegressor K)
    (x : List K) (y : K) (feature : Nat) (threshold : K) (c : Bool) :
    (split_tree expf step t l nd x y feature threshold c).nodes[other_index t c]? =
      some (other_node expf step l nd.x_t nd.y_t) := by
  cases c
  · exact arena3_get_fst _ _ _ _ _
  · exact arena3_get_snd _ _ _ _ _

theorem split_tree_split (expf : K → K) (step : K) (t : TreeRegressor K) (l : Nat) (nd : NodeRegressor K)
    (x : List K) (y : K) (feature : Nat) (threshold : K) (c : Bool) (hl : l < t.nodes.length) :
    (split_tree expf step t l nd x y feature threshold c).nodes[l]? =
      some (split_node nd t.nodes.length feature threshold) :=
  arena3_get_idx _ _ _ _ _ hl

theorem split_tree_old (expf : K → K) (step : K) (t : TreeRegressor K) (l : Nat) (nd : NodeRegressor K)
    (x : List K) (y : K) (feature : Nat) (threshold : K) (c : Bool) (j : Nat) (hj : j < t.nodes.length) (hne : l ≠ j) :
    (split_tree expf step t l nd x y feature threshold c).nodes[j]? = t.nodes[j]? :=
  arena3_get_old _ _ _ _ _ _ hj hne

theorem split_tree_cases (expf : K → K) (step : K) (t : TreeRegressor K) (l : Nat) (nd : NodeRegressor K)
    (x : List K) (y : K) (feature : Nat) (threshold : K) (c : Bool) (hl : l < t.nodes.length) (j : Nat) (nd2 : NodeRegressor K)
    (h : (split_tree expf step t l nd x y feature threshold c).nodes[j]? = some nd2) :
    (j = l ∧ nd2 = split_node nd t.nodes.length feature threshold) ∨
    (j ≠ l ∧ j < t.nodes.length ∧ t.nodes[j]? = some nd2) ∨
    (j = data_index t c ∧ nd2 = data_node expf step l x y) ∨
    (j = other_index t c ∧ nd2 = other_node expf step l nd.x_t nd.y_t) := by
  rcases arena3_cases _ _ _ _ _ _ _ hl h with h1 | h1 | h1 | h1
  · exact Or.inl h1
  · exact Or.inr (Or.inl h1)
  · cases c
    · exact Or.inr (Or.inr (Or.inr h1))
    · exact Or.inr (Or.inr (Or.inl h1))
  · cases c
    · exact Or.inr (Or.inr (Or.inl h1))
    · exact Or.inr (Or.inr (Or.inr h1))

theorem split_tree_arena (expf : K → K) (step : K) (t : TreeRegressor K) (l : Nat) (nd : NodeRegressor K)
    (x : List K) (y : K) (feature : Nat) (threshold : K) (c : Bool) {nf : Nat} (hw : Arena nf t) (hit : t.iteration ≠ 0)
    (hnd : t.nodes[l]? = some nd) (hf : feature < nf) (hx : x.length = nf) :
    Arena nf (split_tree expf step t l nd x y feature threshold c) := by
  have hd : (data_node expf step l x y).parent = l ∧ (data_node expf step l x y).is_leaf = true ∧
      (data_node expf step l x y).x_t.length = nf := ⟨rfl, rfl, hx⟩
  have ho : (other_node expf step l nd.x_t nd.y_t).parent = l ∧
      (other_node expf step l nd.x_t nd.y_t).is_leaf = true ∧
      (other_node expf step l nd.x_t nd.y_t).x_t.length = nf :=
    ⟨rfl, rfl, hw.width hit l nd hnd⟩
  cases c
  · exact Arena.split t l nd _ _ feature threshold hw hit hnd hf ho hd
  · exact Arena.split t l nd _ _ feature threshold hw hit hnd hf hd ho

theorem split_tree_pos (expf : K → K) (step : K) (t : TreeRegressor K) (l : Nat) (nd : NodeRegressor K)
    (x : List K) (y : K) (feature : Nat) (threshold : K) (c : Bool) (hl : l < t.nodes.length) (hnd : t.nodes[l]? = some nd)
    (hexp : ∀ a, 0 < expf a) (hp : Pos t) :
    Pos (split_tree expf step t l nd x y feature threshold c) := by
  intro j nd2 h
  rcases split_tree_cases expf step t l nd x y feature threshold c hl j nd2 h with
    ⟨_, e⟩ | ⟨_, _, e⟩ | ⟨_, e⟩ | ⟨_, e⟩
  · rw [e]; exact hp l nd hnd
  · exact hp j nd2 e
  · rw [e]; exact data_node_pos expf step l x y hexp
  · rw [e]; exact other_node_pos expf step l _ _ hexp

/-- A `fit` keeps the tree invariant, increments `iteration`, and keeps the
mixture-weight invariant when `expf` is positive. -/
theorem fit_spec {nf : Nat} (expf : K → K) (step : K) (fuel : Nat) (t : TreeRegressor K)
    (x : List K) (y : K) (feature : Nat) (threshold : K) (t5 : TreeRegressor K)
    (hw : WF nf t) (hx : x.length = nf) (hf : feature < nf)
    (h : t.fit expf step fuel x y feature threshold = some t5) :
    WF nf t5 ∧ t5.iteration = t.iteration + 1 ∧ ((∀ a, 0 < expf a) → WInv t → WInv t5) := by
  by_cases hit : t.iteration = 0
  · obtain ⟨r, hnodes, hleaf, hp, he⟩ :=
      fit_first expf step fuel t x y feature threshold hw hit
    rw [he] at h
    injection h with h
    subst h
    have hcount : t.n_nodes = 1 := by rw [hw.arena.count, hnodes]; rfl
    have hget : ∀ (j : Nat) (nd : NodeRegressor K),
        ([(r.set_x_t x).set_y_t y] : List (NodeRegressor K))[j]? = some nd →
        j = 0 ∧ nd = (r.set_x_t x).set_y_t y := by
      intro j nd hj
      cases j with
      | zero => simp at hj; exact ⟨rfl, hj.symm⟩
      | succ k => simp at hj
    refine ⟨⟨⟨hcount, ⟨_, rfl, hp⟩, ?_, ?_, ?_⟩, rfl⟩, by rw [hit], ?_⟩
    · intro j nd hj hpos
      have := (hget j nd hj).1
      omega
    · intro j nd hj hl
      rw [(hget j nd hj).2] at hl
      have : r.is_leaf = false := hl
      rw [hleaf] at this; exact absurd this (by simp)
    · intro _ j nd hj
      rw [(hget j nd hj).2]; exact hx
    · intro _ hi
      have hr : t.nodes[0]? = some r := by rw [hnodes]; rfl
      constructor
      · intro j nd hj
        rw [(hget j nd hj).2]; exact hi.1 0 r hr
      · intro j nd hj
        obtain ⟨e1, e2⟩ := hget j nd hj
        subst e1
        rw [e2]
        refine ⟨fun _ => (hi.2 0 r hr).1 hleaf, fun hl => ?_⟩
        have : r.is_leaf = false := hl
        rw [hleaf] at this; exact absurd this (by simp)
  · obtain ⟨t1, l, nd, x1, x2, t3, hd, hnd, hleaf, hx1, hx2, hu, he⟩ :=
      fit_later expf step fuel t x y feature threshold t5 hw.arena hit hx hf h
    obtain ⟨d1, -, d3, d4, d5, d6, -⟩ :=
      go_downwards_loop_spec expf step fuel t 0 x y false t1 l hw.arena hd
    have hw1 : Arena nf t1 := Arena.arena_congr d1 hw.arena
    have hit1 : t1.iteration ≠ 0 := by rw [← d1.iteration]; exact hit
    have hl : l < t1.nodes.length := get_lt hnd
    have hlen : t.nodes.length = t1.nodes.length := d1.shape_length
    generalize hc : decide (x1 < x2) = c at hu
    have hdi : (if x1 < x2 then t1.nodes.length else t1.nodes.length + 1) = data_index t1 c := by
      unfold data_index
      rw [← hc]
      by_cases hlt : x1 < x2
      · simp [hlt]
      · simp [hlt]
    rw [hdi] at hu
    have hw2 := split_tree_arena expf step t1 l nd x y feature threshold c hw1 hit1 hnd hf hx
    obtain ⟨u1, u2, u3, u4⟩ := go_upwards_spec fuel _ _ t3 hw2 hu
    have hw3 : Arena nf t3 := Arena.arena_congr u1.sameShape hw2
    have hit3 : t3.iteration = t.iteration := by
      rw [← u1.iteration]; exact d1.iteration.symm
    have hlen3 : t3.nodes.length = t.nodes.length + 2 := by
      rw [← u1.sameShape.shape_length, hlen]
      exact arena3_length _ _ _ _ _
    subst he
    refine ⟨⟨Arena.set_iteration hw3 (by rw [hit3]; exact hit) _, ?_⟩, ?_, ?_⟩
    · show t3.nodes.length = 1 + 2 * (t3.iteration + 1 - 1)
      rw [hlen3, hit3, hw.size]; omega
    · show t3.iteration + 1 = t.iteration + 1
      rw [hit3]
    · intro hexp hi
      have hp1 : Pos t1 := d6 hexp hi.1
      have hp2 := split_tree_pos expf step t1 l nd x y feature threshold c hl hnd hexp hp1
      refine ⟨u4 hp2, ?_⟩
      apply go_upwards_restore fuel _ _ t3 hw2 hu
      intro i hoff
      -- the data leaf and the split node are on the chain
      have hdata := split_tree_data expf step t1 l nd x y feature threshold c
      have hdne : data_index t1 c ≠ 0 := by
        unfold data_index; split <;> omega
      have hchl : OnChain (split_tree expf step t1 l nd x y feature threshold c)
          (data_index t1 c) l :=
        OnChain.step _ _ _ hdne hdata (OnChain.here l)
      -- parents of old nodes are kept by the split
      have hpar : ∀ (j : Nat) (n0 : NodeRegressor K), t1.nodes[j]? = some n0 →
          ∃ n2, (split_tree expf step t1 l nd x y feature threshold c).nodes[j]? = some n2 ∧
            n2.parent = n0.parent ∧ n2.weight_tree = n0.weight_tree := by
        intro j n0 hj
        by_cases hjl : l = j
        · subst hjl
          rw [hnd] at hj; injection hj with hj; subst hj
          exact ⟨_, split_tree_split expf step t1 l nd x y feature threshold c hl, rfl, rfl⟩
        · refine ⟨n0, ?_, rfl, rfl⟩
          rw [split_tree_old expf step t1 l nd x y feature threshold c j (get_lt hj) hjl]
          exact hj
      intro n2 hn2
      rcases split_tree_cases expf step t1 l nd x y feature threshold c hl i n2 hn2 with
        ⟨e, _⟩ | ⟨hne, hlt, e⟩ | ⟨e, _⟩ | ⟨_, e⟩
      · rw [e] at hoff; exact absurd hchl hoff
      · -- an old node off the chain: unchanged since the start of the fit
        have hoff1 : ¬ OnChain t l i := by
          intro hh
          apply hoff
          have h1 : OnChain t1 l i := OnChain.chain_congr d1 hh
          have h2 := OnChain.mono (fun j n0 hj => by
            obtain ⟨n2, q1, q2, _⟩ := hpar j n0 hj
            exact ⟨n2, q1, q2⟩) h1
          exact OnChain.step _ _ _ hdne hdata h2
        have e0 : t.nodes[i]? = some n2 := by rw [← d4 i hoff1]; exact e
        obtain ⟨q1, q2⟩ := hi.2 i n2 e0
        refine ⟨q1, fun hlf => ?_⟩
        obtain ⟨cl, cr, hcl, hcr, heq⟩ := q2 hlf
        obtain ⟨cl1, hcl1, ewl⟩ := map_weight_tree_get d5 hcl
        obtain ⟨cr1, hcr1, ewr⟩ := map_weight_tree_get d5 hcr
        obtain ⟨cl2, hcl2, -, ewl2⟩ := hpar _ cl1 hcl1
        obtain ⟨cr2, hcr2, -, ewr2⟩ := hpar _ cr1 hcr1
        exact ⟨cl2, cr2, hcl2, hcr2, by rw [ewl2, ewr2, ewl, ewr]; exact heq⟩
      · rw [e] at hoff; exact absurd (OnChain.here _) hoff
      · rw [e]
        exact ⟨fun _ => rfl, fun hlf => absurd hlf (by simp [other_node, data_node_is_leaf])⟩

/-- With fuel for the arena after the split, a `fit` on well-formed input
returns. -/
theorem fit_some {nf : Nat} (expf : K → K) (step : K) (fuel : Nat) (t : TreeRegressor K)
    (x : List K) (y : K) (feature : Nat) (threshold : K) (hw : WF nf t) (hx : x.length = nf)
    (hf : feature < nf) (hfuel : t.nodes.length + 2 ≤ fuel) :
    ∃ t5, t.fit expf step fuel x y feature threshold = some t5 := by
  by_cases hit : t.iteration = 0
  · obtain ⟨r, -, -, -, he⟩ := fit_first expf step fuel t x y feature threshold hw hit
    exact ⟨_, he⟩
  · obtain ⟨r, hr, -⟩ := hw.arena.root
    obtain ⟨⟨t1, l⟩, hd⟩ := go_downwards_loop_some expf step fuel t 0 x y false hw.arena
      (get_lt hr) hx (by omega)
    obtain ⟨d1, ⟨nd, hnd, hleaf⟩, -, -, -, -, -⟩ :=
      go_downwards_loop_spec expf step fuel t 0 x y false t1 l hw.arena hd
    have hw1 : Arena nf t1 := Arena.arena_congr d1 hw.arena
    have hit1 : t1.iteration ≠ 0 := by rw [← d1.iteration]; exact hit
    have hlen : t.nodes.length = t1.nodes.length := d1.shape_length
    obtain ⟨x1, hx1⟩ : ∃ x1, x[feature]? = some x1 := exists_get_of_lt (by omega)
    obtain ⟨x2, hx2⟩ : ∃ x2, nd.x_t[feature]? = some x2 :=
      exists_get_of_lt (by rw [hw1.width hit1 l nd hnd]; exact hf)
    have hsp := split_leaf_eq expf step t1 l x y feature threshold nd x1 x2 hw1.count hnd hx1 hx2
    have hw2 := split_tree_arena expf step t1 l nd x y feature threshold (decide (x1 < x2))
      hw1 hit1 hnd hf hx
    have hst : split_tree expf step t1 l nd x y feature threshold (decide (x1 < x2)) =
        ⟨arena3 t1.nodes l (split_node nd t1.nodes.length feature threshold)
          (if x1 < x2 then data_node expf step l x y else other_node expf step l nd.x_t nd.y_t)
          (if x1 < x2 then other_node expf step l nd.x_t nd.y_t else data_node expf step l x y),
          t1.nodes.length + 2, t1.iteration⟩ := by
      unfold split_tree
      by_cases hc : x1 < x2
      · simp [hc]
      · simp [hc]
    rw [← hst] at hsp
    have hl2 : (split_tree expf step t1 l nd x y feature threshold (decide (x1 < x2))).nodes.length
        = t1.nodes.length + 2 := arena3_length _ _ _ _ _
    obtain ⟨t3, hu⟩ := go_upwards_some fuel
      (split_tree expf step t1 l nd x y feature threshold (decide (x1 < x2)))
      (if x1 < x2 then t1.nodes.length else t1.nodes.length + 1) hw2
      (by rw [hl2]; split <;> omega) (by split <;> omega)
    refine ⟨{ t3 with iteration := t3.iteration + 1 }, ?_⟩
    unfold fit
    rw [if_neg hit]
    unfold go_downwards
    rw [hd]
    simp only [Option.bind_eq_bind, Option.some_bind]
    rw [hsp]
    simp only [Option.some_bind]
    rw [hu]
    rfl

theorem create_wf (nf : Nat) : WF nf (create : TreeRegressor K) := by
  have hget : ∀ (j : Nat) (nd : NodeRegressor K),
      (create : TreeRegressor K).nodes[j]? = some nd → j = 0 ∧ nd = NodeRegressor.create 0 := by
    intro j nd hj
    cases j with
    | zero =>
      have : (create : TreeRegressor K).nodes[0]? = some (NodeRegressor.create 0) := rfl
      rw [this] at hj; injection hj with hj
      exact ⟨rfl, hj.symm⟩
    | succ k =>
      have : (create : TreeRegressor K).nodes[k + 1]? = none := rfl
      rw [this] at hj; exact absurd hj (by simp)
  refine ⟨⟨rfl, ⟨_, rfl, rfl⟩, ?_, ?_, ?_⟩, rfl⟩
  · intro j nd hj hpos
    have := (hget j nd hj).1
    omega
  · intro j nd hj hl
    rw [(hget j nd hj).2] at hl
    exact absurd hl (by simp [NodeRegressor.create])
  · intro h; exact absurd rfl h

theorem create_winv : WInv (create : TreeRegressor K) := by
  have hget : ∀ (j : Nat) (nd : NodeRegressor K),
      (create : TreeRegressor K).nodes[j]? = some nd → j = 0 ∧ nd = NodeRegressor.create 0 := by
    intro j nd hj
    cases j with
    | zero =>
      have : (create : TreeRegressor K).nodes[0]? = some (NodeRegressor.create 0) := rfl
      rw [this] at hj; injection hj with hj
      exact ⟨rfl, hj.symm⟩
    | succ k =>
      have : (create : TreeRegressor K).nodes[k + 1]? = none := rfl
      rw [this] at hj; exact absurd hj (by simp)
  constructor
  · intro j nd hj
    rw [(hget j nd hj).2]
    exact ⟨one_pos, one_pos⟩
  · intro j nd hj
    rw [(hget j nd hj).2]
    exact ⟨fun _ => rfl, fun hl => absurd hl (by simp [NodeRegressor.create])⟩

theorem fit_all_spec {nf : Nat} (expf : K → K) (step : K) (fuel : Nat)
    (calls : List (FitCall K)) :
    ∀ (t t5 : TreeRegressor K), WF nf t → Valid nf calls →
      fit_all expf step fuel t calls = some t5 →
      WF nf t5 ∧ t5.iteration = t.iteration + calls.length ∧
        ((∀ a, 0 < expf a) → WInv t → WInv t5) := by
  induction calls with
  | nil =>
    intro t t5 hw _ h
    simp only [fit_all] at h
    injection h with h
    subst h
    exact ⟨hw, rfl, fun _ hi => hi⟩
  | cons c cs ih =>
    intro t t5 hw hv h
    simp only [fit_all] at h
    cases hf : t.fit expf step fuel c.x_t c.y_t c.feature c.threshold with
    | none => rw [hf] at h; simp at h
    | some t1 =>
      rw [hf] at h
      simp only [Option.some_bind] at h
      have hc := hv c (List.mem_cons_self c cs)
      obtain ⟨w1, i1, p1⟩ := fit_spec expf step fuel t c.x_t c.y_t c.feature c.threshold t1 hw
        hc.1 hc.2 hf
      obtain ⟨w2, i2, p2⟩ := ih t1 t5 w1 (fun d hd => hv d (List.mem_cons_of_mem c hd)) h
      refine ⟨w2, ?_, fun hexp hi => p2 hexp (p1 hexp hi)⟩
      rw [i2, i1, List.length_cons]; omega

theorem fit_all_some {nf : Nat} (expf : K → K) (step : K) (fuel : Nat)
    (calls : List (FitCall K)) :
    ∀ (t : TreeRegressor K), WF nf t → Valid nf calls →
      t.nodes.length + 2 * calls.length ≤ fuel →
      ∃ t5, fit_all expf step fuel t calls = some t5 := by
  induction calls with
  | nil => intro t _ _ _; exact ⟨t, rfl⟩
  | cons c cs ih =>
    intro t hw hv hfuel
    rw [List.length_cons] at hfuel
    have hc := hv c (List.mem_cons_self c cs)
    obtain ⟨t1, hf⟩ := fit_some expf step fuel t c.x_t c.y_t c.feature c.threshold hw
      hc.1 hc.2 (by omega)
    obtain ⟨w1, i1, -⟩ := fit_spec expf step fuel t c.x_t c.y_t c.feature c.threshold t1 hw
      hc.1 hc.2 hf
    have hlen : t1.nodes.length ≤ t.nodes.length + 2 := by
      rw [w1.size, hw.size, i1]; omega
    obtain ⟨t5, h5⟩ := ih t1 w1 (fun d hd => hv d (List.mem_cons_of_mem c hd)) (by omega)
    refine ⟨t5, ?_⟩
    simp only [fit_all]
    rw [hf]
    exact h5

theorem Reachable.wf {nf : Nat} {expf : K → K} {step : K} {t : TreeRegressor K}
    (h : Reachable expf step nf t) : WF nf t := by
  obtain ⟨fuel, calls, hv, hf⟩ := h
  exact (fit_all_spec expf step fuel calls create t (create_wf nf) hv hf).1

theorem Reachable.winv {nf : Nat} {expf : K → K} {step : K} {t : TreeRegressor K}
    (h : Reachable expf step nf t) (hexp : ∀ a, 0 < expf a) : WInv t := by
  obtain ⟨fuel, calls, hv, hf⟩ := h
  exact (fit_all_spec expf step fuel calls create t (create_wf nf) hv hf).2.2 hexp create_winv

/-- In prediction mode `go_downwards` writes nothing and follows the routing rule. -/
theorem go_downwards_loop_predict (expf : K → K) (step : K) (fuel : Nat) :
    ∀ (t : TreeRegressor K) (s : Nat) (x : List K) (y : K),
      go_downwards_loop expf step fuel t s x y true = (route t x fuel s).map (fun l => (t, l)) := by
  induction fuel with
  | zero => intro t s x y; rfl
  | succ fuel ih =>
    intro t s x y
    unfold go_downwards_loop route
    show (t.nodes[s]?).bind _ = _
    cases hnd : t.nodes[s]? with
    | none => rfl
    | some nd =>
      simp only [Option.some_bind, if_true]
      by_cases hleaf : nd.is_leaf = true
      · simp [hleaf]
      · simp only [hleaf, if_false]
        cases hxv : x[nd.feature]? with
        | none => simp
        | some xv =>
          simp only [Option.bind_eq_bind, Option.some_bind]
          by_cases hle : xv ≤ nd.threshold
          · simp only [hle, if_true]; exact ih t nd.left x y
          · simp only [hle, if_false]; exact ih t nd.right x y

/-- The routing rule reads only the shape of the tree. -/
theorem route_congr {t t2 : TreeRegressor K} (h : SameShape t t2) (x : List K) (fuel : Nat) :
    ∀ s, route t x fuel s = route t2 x fuel s := by
  induction fuel with
  | zero => intro s; rfl
  | succ fuel ih =>
    intro s
    unfold route
    cases h2 : t2.nodes[s]? with
    | none =>
      have : t.nodes[s]? = none := by
        rw [List.getElem?_eq_none_iff] at h2 ⊢
        rw [h.shape_length]; exact h2
      rw [this]
    | some nd2 =>
      obtain ⟨nd, hnd, hs⟩ := h.shape_get h2
      rw [hnd]
      obtain ⟨-, e2, e3, e4, e5, e6, -⟩ := shape_fields hs
      simp only [e2, e3, e4, e5, e6, ih]

/-- A routing path starts at the start node. -/
theorem route_path_head (t : TreeRegressor K) (x : List K) (fuel s : Nat) (p : List Nat)
    (h : route_path t x fuel s = some p) : ∃ rest, p = s :: rest := by
  cases fuel with
  | zero => simp [route_path] at h
  | succ k =>
    unfold route_path at h
    cases hc : t.nodes[s]? with
    | none => rw [hc] at h; simp at h
    | some cn =>
      rw [hc] at h
      simp only at h
      by_cases hl : cn.is_leaf = true
      · simp only [hl, if_true] at h
        injection h with h
        exact ⟨[], h.symm⟩
      · simp only [hl, if_false] at h
        cases hx : x[cn.feature]? with
        | none => rw [hx] at h; simp at h
        | some xc =>
          rw [hx] at h
          simp only at h
          by_cases hle : xc ≤ cn.threshold
          · rw [if_pos hle] at h
            cases hq : route_path t x k cn.left with
            | none => rw [hq] at h; simp at h
            | some q =>
              rw [hq] at h
              simp only [Option.map_some'] at h
              injection h with h
              exact ⟨q, h.symm⟩
          · rw [if_neg hle] at h
            cases hq : route_path t x k cn.right with
            | none => rw [hq] at h; simp at h
            | some q =>
              rw [hq] at h
              simp only [Option.map_some'] at h
              injection h with h
              exact ⟨q, h.symm⟩

/-- The leaf of the routing rule is the last node of the routing path. -/
theorem route_eq_path (t : TreeRegressor K) (x : List K) (fuel : Nat) :
    ∀ s, route t x fuel s = (route_path t x fuel s).bind List.getLast? := by
  induction fuel with
  | zero => intro s; rfl
  | succ fuel ih =>
    intro s
    unfold route route_path
    cases hnd : t.nodes[s]? with
    | none => rfl
    | some nd =>
      simp only
      by_cases hleaf : nd.is_leaf = true
      · simp [hleaf]
      · simp only [hleaf, if_false]
        cases hxv : x[nd.feature]? with
        | none => rfl
        | some xv =>
          simp only
          have key : ∀ c, route t x fuel c
              = ((route_path t x fuel c).map (fun p => s :: p)).bind List.getLast? := by
            intro c
            rw [ih c]
            cases hp : route_path t x fuel c with
            | none => rfl
            | some p =>
              obtain ⟨rest, hr⟩ := route_path_head t x fuel c p hp
              subst hr
              simp [List.getLast?_cons_cons]
          by_cases hle : xv ≤ nd.threshold
          · simp only [hle, if_true]; exact key nd.left
          · simp only [hle, if_false]; exact key nd.right

/-- On a well-formed arena the routing rule returns a path, with fuel for every
node from the start node onwards. -/
theorem route_path_some {nf : Nat} (x : List K) (fuel : Nat) :
    ∀ (t : TreeRegressor K) (s : Nat), Arena nf t → s < t.nodes.length → x.length = nf →
      t.nodes.length - s ≤ fuel →
      ∃ p, route_path t x fuel s = some p ∧ p.length ≤ t.nodes.length - s := by
  induction fuel with
  | zero => intro t s _ hs _ hf; omega
  | succ fuel ih =>
    intro t s hw hs hx hf
    unfold route_path
    obtain ⟨nd, hnd⟩ := exists_get_of_lt hs
    rw [hnd]
    simp only
    by_cases hleaf : nd.is_leaf = true
    · rw [if_pos hleaf]
      exact ⟨[s], rfl, by simp; omega⟩
    · rw [if_neg hleaf]
      have hleaf0 : nd.is_leaf = false := by simpa using hleaf
      obtain ⟨c1, c2, c3, cl, cr, hcl, hcr, pl, pr⟩ := hw.children s nd hnd hleaf0
      obtain ⟨xv, hxv⟩ : ∃ xv, x[nd.feature]? = some xv := exists_get_of_lt (by omega)
      rw [hxv]
      simp only
      have hl := get_lt hcl
      have hr := get_lt hcr
      by_cases hle : xv ≤ nd.threshold
      · rw [if_pos hle]
        obtain ⟨p, hp, hlen⟩ := ih t nd.left hw hl hx (by omega)
        rw [hp]
        exact ⟨s :: p, rfl, by simp; omega⟩
      · rw [if_neg hle]
        obtain ⟨p, hp, hlen⟩ := ih t nd.right hw hr hx (by omega)
        rw [hp]
        exact ⟨s :: p, rfl, by simp; omega⟩

theorem weighted_sum_cons (c p : K) (cs ps : List K) :
    weighted_sum (c :: cs) (p :: ps) = c * p + weighted_sum cs ps := by
  simp [weighted_sum]

theorem weighted_sum_map_mul (k : K) (cs : List K) :
    ∀ ps : List K, weighted_sum (cs.map (fun a => k * a)) ps = k * weighted_sum cs ps := by
  induction cs with
  | nil => intro ps; simp [weighted_sum]
  | cons c cs ih =>
    intro ps
    cases ps with
    | nil => simp [weighted_sum]
    | cons p ps =>
      rw [List.map_cons, weighted_sum_cons, weighted_sum_cons, ih ps]
      ring

theorem sum_map_mul (k : K) (cs : List K) : (cs.map (fun a => k * a)).sum = k * cs.sum := by
  induction cs with
  | nil => simp
  | cons c cs ih => rw [List.map_cons, List.sum_cons, List.sum_cons, ih]; ring

/-- A weighted sum with non-negative coefficients is at least the sum of the
coefficients times a lower bound of the values. -/
theorem weighted_sum_lower (a : K) (cs : List K) :
    ∀ ps : List K, cs.length = ps.length → (∀ c ∈ cs, 0 ≤ c) → (∀ p ∈ ps, a ≤ p) →
      a * cs.sum ≤ weighted_sum cs ps := by
  induction cs with
  | nil => intro ps _ _ _; simp [weighted_sum]
  | cons c cs ih =>
    intro ps hlen hc hp
    cases ps with
    | nil => simp at hlen
    | cons p ps =>
      rw [weighted_sum_cons, List.sum_cons]
      have h1 := ih ps (by simpa using hlen) (fun d hd => hc d (List.mem_cons_of_mem c hd))
        (fun q hq => hp q (List.mem_cons_of_mem p hq))
      have h2 : 0 ≤ c := hc c (List.mem_cons_self c cs)
      have h3 : a ≤ p := hp p (List.mem_cons_self p ps)
      have h4 : c * a ≤ c * p := mul_le_mul_of_nonneg_left h3 h2
      linarith

/-- A weighted sum with non-negative coefficients is at most the sum of the
coefficients times an upper bound of the values. -/
theorem weighted_sum_upper (b : K) (cs : List K) :
    ∀ ps : List K, cs.length = ps.length → (∀ c ∈ cs, 0 ≤ c) → (∀ p ∈ ps, p ≤ b) →
      weighted_sum cs ps ≤ b * cs.sum := by
  induction cs with
  | nil => intro ps _ _ _; simp [weighted_sum]
  | cons c cs ih =>
    intro ps hlen hc hp
    cases ps with
    | nil => simp at hlen
    | cons p ps =>
      rw [weighted_sum_cons, List.sum_cons]
      have h1 := ih ps (by simpa using hlen) (fun d hd => hc d (List.mem_cons_of_mem c hd))
        (fun q hq => hp q (List.mem_cons_of_mem p hq))
      have h2 : 0 ≤ c := hc c (List.mem_cons_self c cs)
      have h3 : p ≤ b := hp p (List.mem_cons_self p ps)
      have h4 : c * p ≤ c * b := mul_le_mul_of_nonneg_left h3 h2
      linarith

theorem exists_least (ps : List K) (h : ps ≠ []) : ∃ a ∈ ps, ∀ p ∈ ps, a ≤ p := by
  induction ps with
  | nil => exact absurd rfl h
  | cons p ps ih =>
    by_cases hps : ps = []
    · subst hps
      exact ⟨p, List.mem_cons_self p [], fun q hq => by simp at hq; rw [hq]⟩
    · obtain ⟨a, ha, hmin⟩ := ih hps
      by_cases hpa : p ≤ a
      · refine ⟨p, List.mem_cons_self p ps, fun q hq => ?_⟩
        rcases List.mem_cons.1 hq with e | e
        · rw [e]
        · exact le_trans hpa (hmin q e)
      · refine ⟨a, List.mem_cons_of_mem p ha, fun q hq => ?_⟩
        rcases List.mem_cons.1 hq with e | e
        · rw [e]; exact le_of_lt (lt_of_not_le hpa)
        · exact hmin q e

theorem exists_greatest (ps : List K) (h : ps ≠ []) : ∃ b ∈ ps, ∀ p ∈ ps, p ≤ b := by
  induction ps with
  | nil => exact absurd rfl h
  | cons p ps ih =>
    by_cases hps : ps = []
    · subst hps
      exact ⟨p, List.mem_cons_self p [], fun q hq => by simp at hq; rw [hq]⟩
    · obtain ⟨b, hb, hmax⟩ := ih hps
      by_cases hpb : b ≤ p
      · refine ⟨p, List.mem_cons_self p ps, fun q hq => ?_⟩
        rcases List.mem_cons.1 hq with e | e
        · rw [e]
        · exact le_trans (hmax q e) hpb
      · refine ⟨b, List.mem_cons_of_mem p hb, fun q hq => ?_⟩
        rcases List.mem_cons.1 hq with e | e
        · rw [e]; exact le_of_lt (lt_of_not_le hpb)
        · exact hmax q e

/-- A convex combination lies between the least and the greatest of its values. -/
theorem weighted_sum_between (cs ps : List K) (hlen : cs.length = ps.length)
    (hc : ∀ c ∈ cs, 0 ≤ c) (hsum : cs.sum = 1) (hne : ps ≠ []) :
    ∃ a ∈ ps, ∃ b ∈ ps, a ≤ weighted_sum cs ps ∧ weighted_sum cs ps ≤ b := by
  obtain ⟨a, ha, hmin⟩ := exists_least ps hne
  obtain ⟨b, hb, hmax⟩ := exists_greatest ps hne
  refine ⟨a, ha, b, hb, ?_, ?_⟩
  · have := weighted_sum_lower a cs ps hlen hc hmin
    rw [hsum, mul_one] at this; exact this
  · have := weighted_sum_upper b cs ps hlen hc hmax
    rw [hsum, mul_one] at this; exact this

theorem node_predict_eq {t : TreeRegressor K} {i : Nat} {nd : NodeRegressor K}
    (h : t.nodes[i]? = some nd) : node_predict t i = nd.predict := by
  simp [node_predict, h]

/-- One iteration of the loop of `TreeRegressor::predict` at a leaf. -/
theorem predict_loop_leaf (t : TreeRegressor K) (fuel s o : Nat) (w : K) (nd : NodeRegressor K)
    (hnd : t.nodes[s]? = some nd) (hleaf : nd.is_leaf = true) :
    predict_loop (fuel + 1) t s o w = predict_after t fuel s (nd.weight * nd.predict) := by
  have hn : t.node s = some nd := hnd
  unfold predict_loop predict_after
  rw [hn]
  simp only [Option.bind_eq_bind, Option.some_bind, hleaf, if_true]

/-- One iteration of the loop of `TreeRegressor::predict` at an internal node. -/
theorem predict_loop_internal (t : TreeRegressor K) (fuel s o : Nat) (w : K)
    (nd sn : NodeRegressor K) (hnd : t.nodes[s]? = some nd) (hleaf : nd.is_leaf = false)
    (hsn0 : t.nodes[o]? = some sn) :
    predict_loop (fuel + 1) t s o w =
      predict_after t fuel s (1 / 2 * nd.weight * nd.predict + 1 / 2 * sn.weight_tree * w) := by
  have hn : t.node s = some nd := hnd
  have ho : t.node o = some sn := hsn0
  unfold predict_loop predict_after
  rw [hn]
  simp only [Option.bind_eq_bind, Option.some_bind, hleaf, ho]
  rfl

/-- The upward loop of `TreeRegressor::predict`, started at the leaf of a routing
path, reaches the top node `s` of the path with `weight` a weighted sum of the
`predict` values of the path; under the mixture-weight invariant the coefficients
are non-negative and add up to `weight_tree(s)`. -/
theorem predict_loop_path {nf : Nat} (x : List K) (t : TreeRegressor K) (hw : Arena nf t)
    (fuelp : Nat) :
    ∀ (s : Nat) (p : List Nat), route_path t x fuelp s = some p →
      ∃ (cs : List K) (nds : NodeRegressor K) (l : Nat),
        t.nodes[s]? = some nds ∧ p.getLast? = some l ∧ cs.length = p.length ∧
        (WInv t → (∀ a ∈ cs, 0 ≤ a) ∧ cs.sum = nds.weight_tree) ∧
        ∀ (f o0 : Nat) (w0 : K), predict_loop (f + p.length) t l o0 w0 =
          predict_after t f s (weighted_sum cs (p.map (node_predict t))) := by
  induction fuelp with
  | zero => intro s p h; simp [route_path] at h
  | succ fuelp ih =>
    intro s p h
    unfold route_path at h
    cases hnd : t.nodes[s]? with
    | none => rw [hnd] at h; simp at h
    | some nd =>
      rw [hnd] at h
      simp only at h
      by_cases hleaf : nd.is_leaf = true
      · rw [if_pos hleaf] at h
        injection h with h
        subst h
        refine ⟨[nd.weight], nd, s, rfl, rfl, rfl, ?_, ?_⟩
        · intro hi
          constructor
          · intro a ha
            simp at ha
            rw [ha]; exact le_of_lt (hi.1 s nd hnd).1
          · simp; exact ((hi.2 s nd hnd).1 hleaf).symm
        · intro f o0 w0
          rw [List.length_singleton, predict_loop_leaf t f s o0 w0 nd hnd hleaf]
          simp [weighted_sum, node_predict_eq hnd]
      · rw [if_neg hleaf] at h
        have hleaf0 : nd.is_leaf = false := by simpa using hleaf
        obtain ⟨c1, c2, c3, cl, cr, hcl, hcr, pl, pr⟩ := hw.children s nd hnd hleaf0
        have heq : WInv t →
            nd.weight_tree = (nd.weight + cl.weight_tree * cr.weight_tree) / 2 := by
          intro hi
          obtain ⟨l0, r0, hl0, hr0, heq⟩ := (hi.2 s nd hnd).2 hleaf0
          rw [hcl] at hl0; injection hl0 with hl0; subst hl0
          rw [hcr] at hr0; injection hr0 with hr0; subst hr0
          exact heq
        -- the step from a child `c` (node `cn`) with sibling `o` (node `sn`)
        have key : ∀ (c o : Nat) (cn sn : NodeRegressor K) (q : List Nat),
            t.nodes[c]? = some cn → t.nodes[o]? = some sn → cn.parent = s → s < c →
            (if nd.left = c then nd.right else nd.left) = o →
            (WInv t → nd.weight_tree = (nd.weight + cn.weight_tree * sn.weight_tree) / 2) →
            route_path t x fuelp c = some q →
            ∃ (cs : List K) (nds : NodeRegressor K) (l : Nat),
              some nd = some nds ∧ (s :: q).getLast? = some l ∧ cs.length = (s :: q).length ∧
              (WInv t → (∀ a ∈ cs, 0 ≤ a) ∧ cs.sum = nds.weight_tree) ∧
              ∀ (f o0 : Nat) (w0 : K), predict_loop (f + (s :: q).length) t l o0 w0 =
                predict_after t f s (weighted_sum cs ((s :: q).map (node_predict t))) := by
          intro c o cn sn q hc ho hpar hsc hsib hwt hq
          obtain ⟨cs1, cn1, l, g1, g2, g3, g4, g6⟩ := ih c q hq
          rw [hc] at g1; injection g1 with g1; subst g1
          obtain ⟨rest, hrest⟩ := route_path_head t x fuelp c q hq
          refine ⟨(1 / 2 * nd.weight) :: cs1.map (fun a => 1 / 2 * sn.weight_tree * a), nd, l,
            rfl, ?_, ?_, ?_, ?_⟩
          · rw [hrest, List.getLast?_cons_cons, ← hrest]; exact g2
          · simp [g3]
          · intro hi
            have hpos := (hi.1 o sn ho).2
            constructor
            · intro a ha
              rcases List.mem_cons.1 ha with e | e
              · rw [e]
                have := (hi.1 s nd hnd).1
                positivity
              · obtain ⟨b, hb, hab⟩ := List.mem_map.1 e
                rw [← hab]
                have := (g4 hi).1 b hb
                positivity
            · rw [List.sum_cons, sum_map_mul, (g4 hi).2, hwt hi]; ring
          · intro f o0 w0
            have e1 : f + (s :: q).length = (f + 1) + q.length := by
              rw [List.length_cons]; omega
            rw [e1, g6 (f + 1) o0 w0]
            have hcn : t.node c = some cn := hc
            have hsn : t.node s = some nd := hnd
            have hstep : predict_after t (f + 1) c (weighted_sum cs1 (q.map (node_predict t)))
                = predict_loop (f + 1) t s o (weighted_sum cs1 (q.map (node_predict t))) := by
              unfold predict_after
              rw [hcn]
              simp only [Option.some_bind, hpar, hsn]
              rw [if_neg (by omega), hsib]
            rw [hstep, predict_loop_internal t f s o _ nd sn hnd hleaf0 ho]
            rw [List.map_cons, weighted_sum_cons, weighted_sum_map_mul, node_predict_eq hnd]
        cases hxv : x[nd.feature]? with
        | none => rw [hxv] at h; simp at h
        | some xv =>
          rw [hxv] at h
          simp only at h
          by_cases hle : xv ≤ nd.threshold
          · rw [if_pos hle] at h
            cases hq : route_path t x fuelp nd.left with
            | none => rw [hq] at h; simp at h
            | some q =>
              rw [hq] at h
              simp only [Option.map_some'] at h
              injection h with h
              subst h
              exact key nd.left nd.right cl cr q hcl hcr pl c1 (by simp) heq hq
          · rw [if_neg hle] at h
            cases hq : route_path t x fuelp nd.right with
            | none => rw [hq] at h; simp at h
            | some q =>
              rw [hq] at h
              simp only [Option.map_some'] at h
              injection h with h
              subst h
              exact key nd.right nd.left cr cl q hcr hcl pr (by omega)
                (by rw [if_neg (by omega)]) (fun hi => by rw [heq hi]; ring) hq

/-- Prediction without aggregation on a well-formed arena: the routing rule
returns a leaf and `predict` returns its retained label, leaving the tree as it
is. -/
theorem predict_plain {nf : Nat} (expf : K → K) (step : K) (t : TreeRegressor K) (x : List K)
    (fuel : Nat) (hw : Arena nf t) (hx : x.length = nf) (hfuel : t.nodes.length ≤ fuel) :
    ∃ (l : Nat) (nd : NodeRegressor K), route t x fuel 0 = some l ∧ t.nodes[l]? = some nd ∧
      nd.is_leaf = true ∧ go_downwards expf step fuel t x 0 true = some (t, l) ∧
      t.predict expf step fuel x false = some (t, nd.y_t) := by
  obtain ⟨r, hr, -⟩ := hw.root
  obtain ⟨⟨t1, l⟩, hd⟩ := go_downwards_loop_some expf step fuel t 0 x 0 true hw (get_lt hr) hx
    (by omega)
  obtain ⟨-, ⟨nd, hnd, hleaf⟩, -, -, -, -, d7⟩ :=
    go_downwards_loop_spec expf step fuel t 0 x 0 true t1 l hw hd
  have ht : t1 = t := d7 rfl
  subst ht
  have hroute : route t1 x fuel 0 = some l := by
    have := go_downwards_loop_predict expf step fuel t1 0 x 0
    rw [hd] at this
    cases hq : route t1 x fuel 0 with
    | none => rw [hq] at this; simp at this
    | some l2 =>
      rw [hq] at this
      simp only [Option.map_some'] at this
      injection this with this
      injection this with _ h2
      rw [h2]
  refine ⟨l, nd, hroute, hnd, hleaf, hd, ?_⟩
  have hn : t1.node l = some nd := hnd
  unfold predict go_downwards
  rw [hd]
  simp [hn]

/-- Prediction with aggregation on a well-formed arena: `predict` returns a
weighted sum of the `predict` values of the nodes of the routing path, divided by
`weight_tree(root)`, and leaves the tree as it is; under the mixture-weight
invariant the coefficients are non-negative and add up to `weight_tree(root)`,
which is positive. -/
theorem predict_mixture {nf : Nat} (expf : K → K) (step : K) (t : TreeRegressor K) (x : List K)
    (fuel : Nat) (hw : Arena nf t) (hx : x.length = nf) (hfuel : t.nodes.length ≤ fuel) :
    ∃ (path : List Nat) (cs : List K) (r : NodeRegressor K),
      route_path t x fuel 0 = some path ∧ t.nodes[0]? = some r ∧ path ≠ [] ∧
      t.predict expf step fuel x true =
        some (t, weighted_sum cs (path.map (node_predict t)) / r.weight_tree) ∧
      cs.length = path.length ∧
      (WInv t → (∀ c ∈ cs, 0 ≤ c) ∧ cs.sum = r.weight_tree ∧ 0 < r.weight_tree) := by
  obtain ⟨l, nd, hroute, hnd, hleaf, hd, -⟩ := predict_plain expf step t x fuel hw hx hfuel
  obtain ⟨r, hr, hrp⟩ := hw.root
  obtain ⟨p, hp, hplen⟩ := route_path_some x fuel t 0 hw (get_lt hr) hx (by omega)
  obtain ⟨cs, nds, l2, g1, g2, g3, g4, g6⟩ := predict_loop_path x t hw fuel 0 p hp
  rw [hr] at g1; injection g1 with g1; subst g1
  have hl2 : l2 = l := by
    have := route_eq_path t x fuel 0
    rw [hroute, hp] at this
    simp only [Option.some_bind] at this
    rw [g2] at this
    injection this with this
    exact this.symm
  subst hl2
  have hloop : predict_loop fuel t l2 0 0 = some (weighted_sum cs (p.map (node_predict t))) := by
    have e : fuel = (fuel - p.length) + p.length := by omega
    rw [e, g6 (fuel - p.length) 0 0]
    have hn : t.node 0 = some r := hr
    unfold predict_after
    rw [hn]
    simp only [Option.some_bind, hrp, hn, if_true]
  have hne : p ≠ [] := by
    obtain ⟨rest, hrest⟩ := route_path_head t x fuel 0 p hp
    rw [hrest]; simp
  refine ⟨p, cs, r, hp, hr, hne, ?_, g3, fun hi => ⟨(g4 hi).1, (g4 hi).2, (hi.1 0 r hr).2⟩⟩
  unfold predict
  rw [hd]
  simp only [Option.bind_eq_bind, Option.some_bind, Bool.not_true]
  rw [hloop]
  simp [hr]

/-- Claim C1: for every sequence of `k` calls of `fit` on a freshly constructed
tree (samples of `nf` entries, every sampled feature in `[0, nf)`, every sampled
threshold), the calls return and the tree then has `n_nodes = 1 + 2 * (k - 1)`,
which is also the size of its arena: the first call adds no node and every later
call adds two. (For `k = 0` the subtraction is truncated and the count is the `1`
of the fresh tree.) -/
theorem fit_node_count (expf : K → K) (step : K) (nf : Nat) (calls : List (FitCall K))
    (fuel : Nat) (hv : Valid nf calls) (hfuel : 2 * calls.length + 1 ≤ fuel) :
    ∃ t, fit_all expf step fuel create calls = some t ∧
      t.n_nodes = 1 + 2 * (calls.length - 1) ∧ t.nodes.length = t.n_nodes := by
  have hw0 : WF nf (create : TreeRegressor K) := create_wf nf
  have hlen0 : (create : TreeRegressor K).nodes.length = 1 := rfl
  obtain ⟨t, ht⟩ := fit_all_some expf step fuel calls create hw0 hv (by rw [hlen0]; omega)
  obtain ⟨w, hit, -⟩ := fit_all_spec expf step fuel calls create t hw0 hv ht
  refine ⟨t, ht, ?_, w.arena.count.symm⟩
  rw [w.arena.count, w.size, hit]
  have : (create : TreeRegressor K).iteration = 0 := rfl
  rw [this, Nat.zero_add]

theorem fit_node_count_witness :
    Valid 2 sample_calls ∧ 2 * sample_calls.length + 1 ≤ 5 ∧
      ∃ t, fit_all (fun _ => (1 : ℚ)) 0 5 create sample_calls = some t ∧
        t.n_nodes = 1 + 2 * (sample_calls.length - 1) ∧ t.nodes.length = t.n_nodes :=
  ⟨by unfold Valid; decide, by decide,
    fit_node_count (fun _ => 1) 0 2 sample_calls 5 (by unfold Valid; decide) (by decide)⟩

/-- Claim C2: on every reachable tree and for every query `x` (of `nf` entries),
`predict(x, use_aggregation = false)` returns the retained label `y_t` of the leaf
that the routing rule reaches from node `0`; every tree with the same shape (the
same links, split rules and retained samples, whatever its `weight`,
`weight_tree`, `predict` and `n_samples` fields, its `step` and its `exp`) returns
the same label. -/
theorem predict_no_aggregation (expf : K → K) (step : K) (nf : Nat) (t : TreeRegressor K)
    (x : List K) (fuel : Nat) (hr : Reachable expf step nf t) (hx : x.length = nf)
    (hfuel : t.n_nodes ≤ fuel) :
    ∃ (l : Nat) (nd : NodeRegressor K), route t x fuel 0 = some l ∧ t.nodes[l]? = some nd ∧
      nd.is_leaf = true ∧ t.predict expf step fuel x false = some (t, nd.y_t) ∧
      ∀ (t2 : TreeRegressor K) (expf2 : K → K) (step2 : K), SameShape t t2 →
        t2.predict expf2 step2 fuel x false = some (t2, nd.y_t) := by
  have hw := hr.wf.arena
  have hf : t.nodes.length ≤ fuel := by rw [← hw.count]; exact hfuel
  obtain ⟨l, nd, h1, h2, h3, -, h5⟩ := predict_plain expf step t x fuel hw hx hf
  refine ⟨l, nd, h1, h2, h3, h5, ?_⟩
  intro t2 expf2 step2 hs
  have hw2 : Arena nf t2 := Arena.arena_congr hs hw
  obtain ⟨l2, nd2, g1, g2, -, -, g5⟩ := predict_plain expf2 step2 t2 x fuel hw2 hx
    (by rw [← hs.shape_length]; exact hf)
  rw [← route_congr hs x fuel 0, h1] at g1
  injection g1 with g1
  subst g1
  obtain ⟨nd0, e0, es⟩ := hs.shape_get g2
  rw [h2] at e0; injection e0 with e0; subst e0
  rw [g5, (shape_fields es).2.2.2.2.2.2.2]

theorem predict_no_aggregation_witness :
    Reachable (fun _ => (1 : ℚ)) 0 2 sample_tree ∧
      ∃ (l : Nat) (nd : NodeRegressor ℚ), route sample_tree [1, 0] 5 0 = some l ∧
        sample_tree.nodes[l]? = some nd ∧ nd.is_leaf = true ∧
        sample_tree.predict (fun _ => 1) 0 5 [1, 0] false = some (sample_tree, nd.y_t) ∧
        ∀ (t2 : TreeRegressor ℚ) (expf2 : ℚ → ℚ) (step2 : ℚ), SameShape sample_tree t2 →
          t2.predict expf2 step2 5 [1, 0] false = some (t2, nd.y_t) :=
  ⟨⟨5, sample_calls, by unfold Valid; decide, by rfl⟩,
    predict_no_aggregation (fun _ => 1) 0 2 sample_tree [1, 0] 5
      ⟨5, sample_calls, by unfold Valid; decide, by rfl⟩ (by rfl) (by decide)⟩

/-- Claim C3: the scenario of the two points `(x = [0, 0], y = 1)` and
`(x = [1, 0], y = 2)`, evaluated when the second `fit` samples feature `1`, on
which the two points agree, and `sample_threshold(0, 0)` returns `0`: the root is
a leaf after the first `fit`, the tree has `3` nodes after the second, and
`predict(x = [1, 0], use_aggregation = false)` returns `1`, the label of the
first point, not `2`. -/
theorem two_points_degenerate_feature :
    ((fit_all (fun _ => (1 : ℚ)) 0 5 create (degenerate_calls.take 1)).map
        (fun t => t.nodes.map NodeRegressor.is_leaf)) = some [true] ∧
      ((fit_all (fun _ => (1 : ℚ)) 0 5 create degenerate_calls).map
        (fun t => t.n_nodes)) = some 3 ∧
      ((fit_all (fun _ => (1 : ℚ)) 0 5 create degenerate_calls).bind
        (fun t => (t.predict (fun _ => 1) 0 5 [1, 0] false).map Prod.snd)) = some 1 := by
  decide

/-- Claim C8: in exact arithmetic (any ordered field, any positive `exp`), for
every reachable tree and every query `x`, `predict(x, use_aggregation = true)`
returns a convex combination of the `predict` values of the nodes on the
root-to-leaf path of `x`: the coefficients are non-negative and add up to `1`, so
the value lies between two of those `predict` values. -/
theorem predict_aggregation_convex (expf : K → K) (step : K) (nf : Nat) (t : TreeRegressor K)
    (x : List K) (fuel : Nat) (hexp : ∀ a, 0 < expf a) (hr : Reachable expf step nf t)
    (hx : x.length = nf) (hfuel : t.n_nodes ≤ fuel) :
    ∃ (path : List Nat) (cs : List K) (v : K),
      route_path t x fuel 0 = some path ∧
      t.predict expf step fuel x true = some (t, v) ∧
      cs.length = path.length ∧ (∀ c ∈ cs, 0 ≤ c) ∧ cs.sum = 1 ∧
      v = weighted_sum cs (path.map (node_predict t)) ∧
      (∃ a ∈ path.map (node_predict t), ∃ b ∈ path.map (node_predict t), a ≤ v ∧ v ≤ b) := by
  have hw := hr.wf.arena
  obtain ⟨p, cs, r, h1, h2, h3, h4, h5, h6⟩ := predict_mixture expf step t x fuel hw hx
    (by rw [← hw.count]; exact hfuel)
  obtain ⟨g1, g2, g3⟩ := h6 (hr.winv hexp)
  have hcs : ∀ c ∈ cs.map (fun a => 1 / r.weight_tree * a), 0 ≤ c := by
    intro c hc
    obtain ⟨b, hb, hbc⟩ := List.mem_map.1 hc
    rw [← hbc]
    have := g1 b hb
    positivity
  have hsum : (cs.map (fun a => 1 / r.weight_tree * a)).sum = 1 := by
    rw [sum_map_mul, g2]
    field_simp
  have hval : weighted_sum cs (p.map (node_predict t)) / r.weight_tree =
      weighted_sum (cs.map (fun a => 1 / r.weight_tree * a)) (p.map (node_predict t)) := by
    rw [weighted_sum_map_mul]; ring
  refine ⟨p, cs.map (fun a => 1 / r.weight_tree * a), _, h1, h4, by simp [h5], hcs, hsum, hval,
    ?_⟩
  rw [hval]
  exact weighted_sum_between _ _ (by simp [h5]) hcs hsum (by simpa using h3)

theorem predict_aggregation_convex_witness :
    (∀ a : ℚ, 0 < (fun _ : ℚ => (1 : ℚ)) a) ∧ Reachable (fun _ => (1 : ℚ)) 0 2 sample_tree ∧
      ∃ (path : List Nat) (cs : List ℚ) (v : ℚ),
        route_path sample_tree [1, 0] 5 0 = some path ∧
        sample_tree.predict (fun _ => 1) 0 5 [1, 0] true = some (sample_tree, v) ∧
        cs.length = path.length ∧ (∀ c ∈ cs, 0 ≤ c) ∧ cs.sum = 1 ∧
        v = weighted_sum cs (path.map (node_predict sample_tree)) ∧
        (∃ a ∈ path.map (node_predict sample_tree),
          ∃ b ∈ path.map (node_predict sample_tree), a ≤ v ∧ v ≤ b) :=
  ⟨fun _ => one_pos, ⟨5, sample_calls, by unfold Valid; decide, by rfl⟩,
    predict_aggregation_convex (fun _ => 1) 0 2 sample_tree [1, 0] 5 (fun _ => one_pos)
      ⟨5, sample_calls, by unfold Valid; decide, by rfl⟩ (by rfl) (by decide)⟩

theorem mid_fit_tree_eq :
    mid_fit_tree = split_tree (fun _ => 2) 0
      ⟨[(((NodeRegressor.create 0).set_x_t [0, 0]).set_y_t 1).update_downwards
        (fun _ => 2) 0 [1, 0] 2], 1, 1⟩ 0
      ((((NodeRegressor.create 0).set_x_t [0, 0]).set_y_t 1).update_downwards
        (fun _ => 2) 0 [1, 0] 2) [1, 0] 2 0 0 false := by
  rfl

theorem mid_fit_tree_arena : Arena 2 mid_fit_tree := by
  rw [mid_fit_tree_eq]
  have hw1 : WF 2 (root_tree ([0, 0] : List ℚ) 1) :=
    (fit_spec (fun _ => (2 : ℚ)) 0 5 create [0, 0] 1 0 0 _ (create_wf 2) rfl (by decide)
      rfl).1
  have hs := SameShape.shape_set_node (root_tree ([0, 0] : List ℚ) 1) 0
    (((NodeRegressor.create 0).set_x_t [0, 0]).set_y_t 1)
    ((((NodeRegressor.create 0).set_x_t [0, 0]).set_y_t 1).update_downwards
      (fun _ => 2) 0 [1, 0] 2) rfl rfl
  have hw2 := Arena.arena_congr hs hw1.arena
  exact split_tree_arena (fun _ => 2) 0 _ 0 _ [1, 0] 2 0 0 false hw2
    (by show (1 : Nat) ≠ 0; omega) rfl (by decide) rfl

/-- Before `go_upwards` the root of `mid_fit_tree` does not satisfy the
mixture-weight equation: its `weight_tree` is still `1`, while
`(weight + weight_tree(left) * weight_tree(right)) / 2` is `2`. -/
theorem mid_fit_tree_stale : ¬ LocalEq mid_fit_tree 0 := by
  intro h
  obtain ⟨-, h2⟩ := h _ (rfl : mid_fit_tree.nodes[0]? = some
    (split_node ((((NodeRegressor.create 0).set_x_t [0, 0]).set_y_t 1).update_downwards
      (fun _ => 2) 0 [1, 0] 2) 1 0 0))
  obtain ⟨l, r, hl, hr, he⟩ := h2 rfl
  have el : mid_fit_tree.nodes[1]? = some (other_node (fun _ => 2) 0 0 [0, 0] 1) := rfl
  have er : mid_fit_tree.nodes[2]? = some (data_node (fun _ => 2) 0 0 [1, 0] 2) := rfl
  have hl1 : mid_fit_tree.nodes[1]? = some l := hl
  have hr1 : mid_fit_tree.nodes[2]? = some r := hr
  rw [el] at hl1
  rw [er] at hr1
  injection hl1 with hl1
  injection hr1 with hr1
  subst hl1
  subst hr1
  have h3 : (1 : ℚ) = (1 * 2 + 1 * 2 * 1) / 2 := he
  norm_num at h3

/-- The root lies on the parent chain of every node. -/
theorem OnChain.root_mem {nf : Nat} {t : TreeRegressor K} (hw : Arena nf t) :
    ∀ (n i : Nat), i ≤ n → i < t.nodes.length → OnChain t i 0 := by
  intro n
  induction n with
  | zero =>
    intro i hi _
    have : i = 0 := by omega
    subst this
    exact OnChain.here 0
  | succ n ih =>
    intro i hi hlt
    by_cases h0 : i = 0
    · subst h0; exact OnChain.here 0
    · obtain ⟨nd, hnd⟩ := exists_get_of_lt hlt
      have hp := hw.parent_lt i nd hnd (by omega)
      exact OnChain.step i 0 nd h0 hnd (ih nd.parent (by omega) (by omega))

/-- Claim C9: on every tree that satisfies the arena invariant, which every
reachable tree does and so does the tree in the middle of a `fit`, between
`split_leaf` and `go_upwards`, where the equation does not hold yet, and for
every node index `i` of it, `go_upwards(i)` returns, and in the tree it leaves
every node `v` on the parent chain from `i` to the root, root included, satisfies
the mixture-weight equation: `weight_tree = weight` if `v` is a leaf and
`weight_tree = (weight + weight_tree(left) * weight_tree(right)) / 2` otherwise.
The call writes `weight_tree` fields only, and only on that chain. -/
theorem go_upwards_chain (nf : Nat) (t : TreeRegressor K) (i : Nat)
    (fuel : Nat) (hw : Arena nf t) (hi : i < t.n_nodes) (hfuel : i + 1 ≤ fuel) :
    ∃ t1, t.go_upwards fuel i = some t1 ∧ OnChain t i i ∧ OnChain t i 0 ∧
      (∀ v, OnChain t i v → LocalEq t1 v) ∧ SameCore t t1 ∧
      ∀ v, ¬ OnChain t i v → t1.nodes[v]? = t.nodes[v]? := by
  have hlt : i < t.nodes.length := by rw [← hw.count]; exact hi
  obtain ⟨t1, h1⟩ := go_upwards_some fuel t i hw hlt hfuel
  obtain ⟨s1, s2, s3, -⟩ := go_upwards_spec fuel t i t1 hw h1
  exact ⟨t1, h1, OnChain.here i, OnChain.root_mem hw i i (le_refl i) hlt, s3, s1, s2⟩

theorem go_upwards_chain_witness :
    Arena 2 mid_fit_tree ∧ ¬ LocalEq mid_fit_tree 0 ∧ 2 < mid_fit_tree.n_nodes ∧
      ∃ t1, mid_fit_tree.go_upwards 5 2 = some t1 ∧ OnChain mid_fit_tree 2 2 ∧
        OnChain mid_fit_tree 2 0 ∧
        (∀ v, OnChain mid_fit_tree 2 v → LocalEq t1 v) ∧ SameCore mid_fit_tree t1 ∧
        ∀ v, ¬ OnChain mid_fit_tree 2 v → t1.nodes[v]? = mid_fit_tree.nodes[v]? :=
  ⟨mid_fit_tree_arena, mid_fit_tree_stale, by decide,
    go_upwards_chain 2 mid_fit_tree 2 5 mid_fit_tree_arena (by decide) (by decide)⟩

/-- Claim C10: inference is read-only. On every reachable tree, for every `x` (of
`nf` entries) and `y`, `go_downwards(x, y, predict = true)` returns the tree it was
given, and so does `predict(x, use_aggregation)` for both values of
`use_aggregation`: no field of any node and no counter changes. -/
theorem predict_read_only (expf : K → K) (step : K) (nf : Nat) (t : TreeRegressor K)
    (x : List K) (y : K) (fuel : Nat) (hr : Reachable expf step nf t)
    (hx : x.length = nf) (hfuel : t.n_nodes ≤ fuel) :
    (∃ l, t.go_downwards expf step fuel x y true = some (t, l)) ∧
      ∀ use_aggregation, ∃ v, t.predict expf step fuel x use_aggregation = some (t, v) := by
  have hw := hr.wf.arena
  have hf : t.nodes.length ≤ fuel := by rw [← hw.count]; exact hfuel
  constructor
  · obtain ⟨r, hr0, -⟩ := hw.root
    obtain ⟨⟨t1, l⟩, hd⟩ := go_downwards_loop_some expf step fuel t 0 x y true hw (get_lt hr0) hx
      (by omega)
    have ht : t1 = t :=
      (go_downwards_loop_spec expf step fuel t 0 x y true t1 l hw hd).2.2.2.2.2.2 rfl
    subst ht
    exact ⟨l, hd⟩
  · intro use_aggregation
    cases use_aggregation
    · obtain ⟨l, nd, -, -, -, -, h5⟩ := predict_plain expf step t x fuel hw hx hf
      exact ⟨_, h5⟩
    · obtain ⟨_, _, _, -, -, -, h2, -⟩ := predict_mixture expf step t x fuel hw hx hf
      exact ⟨_, h2⟩

theorem predict_read_only_witness :
    Reachable (fun _ => (1 : ℚ)) 0 2 sample_tree ∧
      (∃ l, sample_tree.go_downwards (fun _ => 1) 0 5 [1, 0] 3 true = some (sample_tree, l)) ∧
      ∀ use_aggregation, ∃ v,
        sample_tree.predict (fun _ => 1) 0 5 [1, 0] use_aggregation = some (sample_tree, v) :=
  ⟨⟨5, sample_calls, by unfold Valid; decide, by rfl⟩,
    predict_read_only (fun _ => 1) 0 2 sample_tree [1, 0] 3 5
      ⟨5, sample_calls, by unfold Valid; decide, by rfl⟩ (by rfl) (by decide)⟩

end TreeRegressor

namespace OnlineForestRegressor

variable {K : Type} [LinearOrderedField K] {Criterion : Type}

/-- The constructor creates `10` trees, each a single root leaf, whatever its
argument `n_trees`. -/
theorem create_trees_eq (n_trees : Nat) (step : K) (criterion : Criterion) (n_threads : Int)
    (seed : Int) (verbose : Bool) :
    (create n_trees step criterion n_threads seed verbose).n_trees = 10 ∧
      (create n_trees step criterion n_threads seed verbose).trees =
        List.replicate 10 (TreeRegressor.create : TreeRegressor K) ∧
      (create n_trees step criterion n_threads seed verbose).iteration = 0 ∧
      (create n_trees step criterion n_threads seed verbose).step = step :=
  ⟨rfl, rfl, rfl, rfl⟩

theorem create_finv (nf : Nat) (n_trees : Nat) (step : K) (criterion : Criterion)
    (n_threads : Int) (seed : Int) (verbose : Bool) :
    FInv nf (create n_trees step criterion n_threads seed verbose) := by
  refine ⟨rfl, ?_⟩
  intro tree ht
  have h1 : (create n_trees step criterion n_threads seed verbose).trees =
      List.replicate 10 (TreeRegressor.create : TreeRegressor K) := rfl
  rw [h1] at ht
  have := List.eq_of_mem_replicate ht
  subst this
  exact ⟨TreeRegressor.create_wf nf, rfl⟩

/-- One row of `fit`: every tree fits the row and stays well formed. -/
theorem fit_trees_spec {nf : Nat} (expf : K → K) (step : K) (fuel : Nat) (draw : Nat → Draw K)
    (labels : List K) (i : Nat) (x : List K) (y : K) (it : Nat) (hy : labels[i]? = some y)
    (hx : x.length = nf) (hdraw : ∀ j, (draw j).feature < nf) (hfuel : 2 * it + 3 ≤ fuel) :
    ∀ (trees : List (TreeRegressor K)) (j : Nat),
      (∀ tree ∈ trees, TreeRegressor.WF nf tree ∧ tree.iteration = it) →
      ∃ trees1, fit_trees expf step fuel draw labels i x j trees = some trees1 ∧
        trees1.length = trees.length ∧
        ∀ tree ∈ trees1, TreeRegressor.WF nf tree ∧ tree.iteration = it + 1 := by
  intro trees
  induction trees with
  | nil => intro j _; exact ⟨[], rfl, rfl, fun _ h => absurd h (List.not_mem_nil _)⟩
  | cons tree rest ih =>
    intro j h
    obtain ⟨hw, hit⟩ := h tree (List.mem_cons_self tree rest)
    have hlen : tree.nodes.length + 2 ≤ fuel := by
      rw [hw.size, hit]; omega
    obtain ⟨t1, h1⟩ := TreeRegressor.fit_some expf step fuel tree x y (draw j).feature
      (draw j).threshold hw hx (hdraw j) hlen
    obtain ⟨w1, i1, -⟩ := TreeRegressor.fit_spec expf step fuel tree x y (draw j).feature
      (draw j).threshold t1 hw hx (hdraw j) h1
    obtain ⟨rest1, h2, l2, p2⟩ := ih (j + 1) (fun t ht => h t (List.mem_cons_of_mem tree ht))
    refine ⟨t1 :: rest1, ?_, by simp [l2], ?_⟩
    · unfold fit_trees
      rw [hy]
      simp only [Option.bind_eq_bind, Option.some_bind]
      rw [h1]
      simp only [Option.some_bind]
      rw [h2]
      rfl
    · intro t ht
      rcases List.mem_cons.1 ht with e | e
      · rw [e]; exact ⟨w1, by rw [i1, hit]⟩
      · exact p2 t e

/-- The rows of `fit`: with well-formed rows, labels and draws, every row is
fitted by every tree and the forest iteration counter advances once per row. -/
theorem fit_rows_spec {nf : Nat} (expf : K → K) (fuel : Nat) (draws : Nat → Nat → Draw K)
    (labels : List K) (hdraw : ∀ i j, (draws i j).feature < nf) :
    ∀ (rows : List (List K)) (i0 : Nat) (f : OnlineForestRegressor K Criterion), FInv nf f →
      (∀ x ∈ rows, x.length = nf) → i0 + rows.length ≤ labels.length →
      2 * (f.iteration + rows.length) + 1 ≤ fuel →
      ∃ f1, fit_rows expf fuel draws labels i0 rows f = .ok f1 ∧ FInv nf f1 ∧
        f1.iteration = f.iteration + rows.length ∧ f1.n_trees = f.n_trees ∧
        f1.step = f.step := by
  intro rows
  induction rows with
  | nil => intro i0 f hf _ _ _; exact ⟨f, rfl, hf, rfl, rfl, rfl⟩
  | cons x rest ih =>
    intro i0 f hf hrows hlab hfuel
    rw [List.length_cons] at hlab hfuel
    obtain ⟨y, hy⟩ : ∃ y, labels[i0]? = some y := TreeRegressor.exists_get_of_lt (by omega)
    obtain ⟨trees1, h1, l1, p1⟩ := fit_trees_spec expf f.step fuel (draws i0) labels i0 x y
      f.iteration hy (hrows x (List.mem_cons_self x rest)) (hdraw i0) (by omega) f.trees 0
      hf.trees
    have hf1 : FInv nf { f with trees := trees1, iteration := f.iteration + 1 } :=
      ⟨by rw [← hf.count]; exact l1, p1⟩
    obtain ⟨f2, h2, hf2, i2, n2, s2⟩ := ih (i0 + 1)
      { f with trees := trees1, iteration := f.iteration + 1 } hf1
      (fun z hz => hrows z (List.mem_cons_of_mem x hz)) (by omega)
      (by show 2 * (f.iteration + 1 + rest.length) + 1 ≤ fuel; omega)
    refine ⟨f2, ?_, hf2, ?_, n2, s2⟩
    · unfold fit_rows
      rw [h1]
      exact h2
    · rw [i2]
      show f.iteration + 1 + rest.length = f.iteration + (rest.length + 1)
      omega

/-- The loop over the trees of `predict`: when every tree returns a value and
itself, the loop returns the trees as they are and adds the values to the
accumulator. -/
theorem predict_trees_spec (expf : K → K) (step : K) (fuel : Nat) (x : List K)
    (use_aggregation : Bool) :
    ∀ (trees : List (TreeRegressor K)) (y0 : K),
      (∀ tree ∈ trees, ∃ v, tree.predict expf step fuel x use_aggregation = some (tree, v)) →
      predict_trees expf step fuel x use_aggregation trees y0 =
        some (trees, y0 + (trees.map (tree_value expf step fuel x use_aggregation)).sum) := by
  intro trees
  induction trees with
  | nil => intro y0 _; simp [predict_trees]
  | cons tree rest ih =>
    intro y0 h
    obtain ⟨v, hv⟩ := h tree (List.mem_cons_self tree rest)
    have hval : tree_value expf step fuel x use_aggregation tree = v := by
      simp [tree_value, hv]
    unfold predict_trees
    rw [hv]
    simp only [Option.bind_eq_bind, Option.some_bind]
    rw [ih (y0 + v) (fun t ht => h t (List.mem_cons_of_mem tree ht))]
    simp only [Option.some_bind, List.map_cons, List.sum_cons, hval]
    rw [add_assoc]

/-- Every tree of a forest that satisfies the invariant returns a prediction, and
itself, for a row of `nf` entries. -/
theorem tree_predict_some {nf : Nat} (expf : K → K) (fuel : Nat)
    (f : OnlineForestRegressor K Criterion) (hf : FInv nf f) (x : List K) (hx : x.length = nf)
    (hfuel : 2 * f.iteration + 1 ≤ fuel) (use_aggregation : Bool) :
    ∀ tree ∈ f.trees, ∃ v, tree.predict expf f.step fuel x use_aggregation = some (tree, v) := by
  intro tree ht
  obtain ⟨hw, hit⟩ := hf.trees tree ht
  have hlen : tree.nodes.length ≤ fuel := by rw [hw.size, hit]; omega
  cases use_aggregation
  · obtain ⟨l, nd, -, -, -, -, h5⟩ :=
      TreeRegressor.predict_plain expf f.step tree x fuel hw.arena hx hlen
    exact ⟨_, h5⟩
  · obtain ⟨_, _, _, -, -, -, h2, -⟩ :=
      TreeRegressor.predict_mixture expf f.step tree x fuel hw.arena hx hlen
    exact ⟨_, h2⟩

/-- The rows of `predict` on a forest that satisfies the invariant: the forest is
left as it is, no error is raised, and entry `i0 + k` of the predictions vector
receives the mean of the trees for row `k`; the other entries are kept. -/
theorem predict_rows_spec {nf : Nat} (expf : K → K) (fuel : Nat) (use_aggregation : Bool)
    (f : OnlineForestRegressor K Criterion) (hf : FInv nf f)
    (hfuel : 2 * f.iteration + 1 ≤ fuel) :
    ∀ (rows : List (List K)) (i0 : Nat) (predictions : List K),
      (∀ x ∈ rows, x.length = nf) → i0 + rows.length ≤ predictions.length →
      ∃ preds, predict_rows expf fuel use_aggregation i0 rows f predictions =
          ((f, preds), .ok ()) ∧ preds.length = predictions.length ∧
        ∀ j, preds[j]? =
          if i0 ≤ j ∧ j < i0 + rows.length then
            (rows[j - i0]?).map (fun x => forest_mean expf fuel f x use_aggregation)
          else predictions[j]? := by
  intro rows
  induction rows with
  | nil =>
    intro i0 predictions _ _
    refine ⟨predictions, rfl, rfl, ?_⟩
    intro j
    rw [if_neg]
    simp
  | cons x rest ih =>
    intro i0 predictions hrows hlen
    rw [List.length_cons] at hlen
    have hx := hrows x (List.mem_cons_self x rest)
    have hp := predict_trees_spec expf f.step fuel x use_aggregation f.trees 0
      (tree_predict_some expf fuel f hf x hx hfuel use_aggregation)
    have hsame : ({ f with trees := f.trees } : OnlineForestRegressor K Criterion) = f := rfl
    obtain ⟨preds, h1, h2, h3⟩ := ih (i0 + 1)
      (predictions.set i0 ((0 + (f.trees.map (tree_value expf f.step fuel x
        use_aggregation)).sum) / (f.n_trees : K)))
      (fun z hz => hrows z (List.mem_cons_of_mem x hz)) (by rw [List.length_set]; omega)
    refine ⟨preds, ?_, by rw [h2, List.length_set], ?_⟩
    · unfold predict_rows
      rw [hp]
      simp only
      rw [if_pos (by omega), hsame]
      exact h1
    · intro j
      rw [h3 j]
      have hl : (x :: rest).length = rest.length + 1 := List.length_cons x rest
      have hls := List.length_set predictions i0 ((0 + (f.trees.map (tree_value expf f.step fuel x
        use_aggregation)).sum) / (f.n_trees : K))
      by_cases hj : j = i0
      · subst hj
        rw [if_neg (by omega), if_pos (by omega)]
        rw [List.getElem?_set_self (by omega)]
        simp [forest_mean, hf.count]
      · by_cases hin : i0 + 1 ≤ j ∧ j < i0 + 1 + rest.length
        · rw [if_pos hin, if_pos (by omega)]
          have e : j - i0 = (j - (i0 + 1)) + 1 := by omega
          rw [e, List.getElem?_cons_succ]
        · rw [if_neg hin, if_neg (by omega)]
          rw [List.getElem?_set_ne (fun e => hj e.symm)]

/-- A `fit` of a batch of well-formed rows on a freshly constructed forest
returns, and the forest then satisfies the invariant, with one iteration per
row. -/
theorem fit_fresh (expf : K → K) (n_trees : Nat) (step : K) (criterion : Criterion)
    (n_threads : Int) (seed : Int) (verbose : Bool) (fuel : Nat) (draws : Nat → Nat → Draw K)
    (features : SArrayDouble2d K) (labels : List K)
    (hw : ∀ x ∈ features.rows, x.length = features.n_cols)
    (hlab : features.rows.length ≤ labels.length)
    (hdraw : ∀ i j, (draws i j).feature < features.n_cols)
    (hfuel : 2 * features.rows.length + 1 ≤ fuel) :
    ∃ f1, fit expf fuel draws (create n_trees step criterion n_threads seed verbose) features
        labels = .ok f1 ∧ FInv features.n_cols f1 ∧ f1.iteration = features.rows.length ∧
      f1.trees.length = 10 := by
  have hf0 := create_finv (K := K) features.n_cols n_trees step criterion n_threads seed verbose
  have hset : (create n_trees step criterion n_threads seed verbose).set_n_features
      features.n_cols = .ok { create n_trees step criterion n_threads seed verbose with
        n_features := features.n_cols } := rfl
  have hf1 : FInv features.n_cols { create n_trees step criterion n_threads seed verbose with
      n_features := features.n_cols } := ⟨hf0.count, hf0.trees⟩
  obtain ⟨f1, h1, h2, h3, h4, -⟩ := fit_rows_spec expf fuel draws labels hdraw features.rows 0 _
    hf1 hw (by omega) (by show 2 * (0 + features.rows.length) + 1 ≤ fuel; omega)
  refine ⟨f1, ?_, h2, ?_, ?_⟩
  · unfold fit
    rw [hset]
    exact h1
  · rw [h3]; show 0 + features.rows.length = features.rows.length; omega
  · rw [h2.count, h4]; rfl

/-- Claim C4: on every forest whose iteration counter is `0` (no sample has been
fitted), `predict` reports the error "You must call ``fit`` before ``predict``."
and leaves the forest and every entry of the predictions vector as they are. -/
theorem predict_before_fit (expf : K → K) (fuel : Nat) (f : OnlineForestRegressor K Criterion)
    (features : SArrayDouble2d K) (predictions : List K) (use_aggregation : Bool)
    (h : f.iteration = 0) :
    predict expf fuel f features predictions use_aggregation =
      ((f, predictions), .error (.tick_error "You must call ``fit`` before ``predict``.")) := by
  unfold predict
  rw [if_neg (by omega)]

theorem predict_before_fit_witness :
    sample_forest.iteration = 0 ∧
      predict (fun _ => (1 : ℚ)) 5 sample_forest sample_queries [7] false =
        ((sample_forest, [7]),
          .error (.tick_error "You must call ``fit`` before ``predict``.")) :=
  ⟨rfl, predict_before_fit (fun _ => 1) 5 sample_forest sample_queries [7] false rfl⟩

/-- Claim C5, as stated, fails: after a call of `fit` with a batch of zero rows
on a freshly constructed forest, `predict` raises the untrained-model error and
writes no prediction. -/
theorem predict_after_empty_fit :
    ∃ f1, fit (fun _ => (1 : ℚ)) 5 sample_draws sample_forest empty_features [] = .ok f1 ∧
      predict (fun _ => (1 : ℚ)) 5 f1 sample_queries [7] false =
        ((f1, [7]), .error (.tick_error "You must call ``fit`` before ``predict``.")) :=
  ⟨_, rfl, rfl⟩

/-- Claim C5, amended: `predict` requires that a prior `fit` processed at least
one row. After a call of `fit` with a batch of at least one row on a freshly
constructed forest, `predict` raises no error, leaves the forest as it is, and
fills one prediction for each input row: entry `i` of the predictions vector
receives the value computed for row `i`, and the entries beyond the rows are
kept. -/
theorem predict_after_fit (expf : K → K) (n_trees : Nat) (step : K) (criterion : Criterion)
    (n_threads : Int) (seed : Int) (verbose : Bool) (fuel : Nat) (draws : Nat → Nat → Draw K)
    (features : SArrayDouble2d K) (labels : List K) (queries : SArrayDouble2d K)
    (predictions : List K) (use_aggregation : Bool)
    (hrows : features.rows ≠ [])
    (hw : ∀ x ∈ features.rows, x.length = features.n_cols)
    (hlab : features.rows.length ≤ labels.length)
    (hdraw : ∀ i j, (draws i j).feature < features.n_cols)
    (hq : ∀ x ∈ queries.rows, x.length = features.n_cols)
    (hpred : queries.rows.length ≤ predictions.length)
    (hfuel : 2 * features.rows.length + 1 ≤ fuel) :
    ∃ f1 preds, fit expf fuel draws (create n_trees step criterion n_threads seed verbose)
        features labels = .ok f1 ∧
      predict expf fuel f1 queries predictions use_aggregation = ((f1, preds), .ok ()) ∧
      preds.length = predictions.length ∧
      (∀ (i : Nat) (x : List K), queries.rows[i]? = some x →
        preds[i]? = some (forest_mean expf fuel f1 x use_aggregation)) ∧
      (∀ i : Nat, queries.rows.length ≤ i → preds[i]? = predictions[i]?) := by
  obtain ⟨f1, h1, h2, h3, -⟩ := fit_fresh expf n_trees step criterion n_threads seed verbose fuel
    draws features labels hw hlab hdraw hfuel
  have hpos : 0 < features.rows.length := List.length_pos.2 hrows
  obtain ⟨preds, p1, p2, p3⟩ := predict_rows_spec expf fuel use_aggregation f1 h2
    (by rw [h3]; exact hfuel) queries.rows 0 predictions hq (by omega)
  refine ⟨f1, preds, h1, ?_, p2, ?_, ?_⟩
  · unfold predict
    rw [if_pos (by omega)]
    exact p1
  · intro i x hi
    have hi2 : i < queries.rows.length := (List.getElem?_eq_some.1 hi).1
    rw [p3 i, if_pos ⟨Nat.zero_le i, by omega⟩, Nat.sub_zero, hi]
    rfl
  · intro i hi
    rw [p3 i, if_neg (by omega)]

theorem predict_after_fit_witness :
    sample_features.rows ≠ [] ∧ sample_queries.rows.length ≤ [(7 : ℚ)].length ∧
      ∃ f1 preds, fit (fun _ => (1 : ℚ)) 5 sample_draws sample_forest sample_features
          sample_labels = .ok f1 ∧
        predict (fun _ => (1 : ℚ)) 5 f1 sample_queries [7] true = ((f1, preds), .ok ()) ∧
        preds.length = [(7 : ℚ)].length ∧
        (∀ (i : Nat) (x : List ℚ), sample_queries.rows[i]? = some x →
          preds[i]? = some (forest_mean (fun _ => 1) 5 f1 x true)) ∧
        (∀ i : Nat, sample_queries.rows.length ≤ i → preds[i]? = [(7 : ℚ)][i]?) :=
  ⟨by decide, by decide,
    predict_after_fit (fun _ => 1) 10 0 () 1 0 false 5 sample_draws sample_features
      sample_labels sample_queries [7] true (by decide) (by decide) (by decide)
      (fun _ _ => Nat.zero_lt_two) (by decide) (by decide) (by decide)⟩

/-- The loop over the trees of `predict`, in the order of the code: when every
tree returns a value and itself, the loop returns the trees as they are and the
accumulator to which the values have been added from left to right. -/
theorem predict_trees_fold (expf : K → K) (step : K) (fuel : Nat) (x : List K)
    (use_aggregation : Bool) :
    ∀ (trees : List (TreeRegressor K)) (y0 : K),
      (∀ tree ∈ trees, ∃ v, tree.predict expf step fuel x use_aggregation = some (tree, v)) →
      predict_trees expf step fuel x use_aggregation trees y0 =
        some (trees, trees.foldl
          (fun y_pred tree => y_pred + tree_value expf step fuel x use_aggregation tree) y0) := by
  intro trees
  induction trees with
  | nil => intro y0 _; rfl
  | cons tree rest ih =>
    intro y0 h
    obtain ⟨v, hv⟩ := h tree (List.mem_cons_self tree rest)
    have hval : tree_value expf step fuel x use_aggregation tree = v := by
      unfold tree_value
      rw [hv]
      rfl
    unfold predict_trees
    rw [hv]
    simp only [Option.bind_eq_bind, Option.some_bind]
    rw [ih (y0 + v) (fun t ht => h t (List.mem_cons_of_mem tree ht))]
    simp only [Option.some_bind, List.foldl_cons, hval]

/-- The rows of `predict` on a forest that satisfies the invariant, in the order
of the code: the forest is left as it is, no error is raised, and entry `i0 + k`
of the predictions vector receives the accumulated value of row `k`; the other
entries are kept. -/
theorem predict_rows_fold {nf : Nat} (expf : K → K) (fuel : Nat) (use_aggregation : Bool)
    (f : OnlineForestRegressor K Criterion) (hf : FInv nf f)
    (hfuel : 2 * f.iteration + 1 ≤ fuel) :
    ∀ (rows : List (List K)) (i0 : Nat) (predictions : List K),
      (∀ x ∈ rows, x.length = nf) → i0 + rows.length ≤ predictions.length →
      ∃ preds, predict_rows expf fuel use_aggregation i0 rows f predictions =
          ((f, preds), .ok ()) ∧ preds.length = predictions.length ∧
        ∀ j, preds[j]? =
          if i0 ≤ j ∧ j < i0 + rows.length then
            (rows[j - i0]?).map (fun x => forest_accumulated expf fuel f x use_aggregation)
          else predictions[j]? := by
  intro rows
  induction rows with
  | nil =>
    intro i0 predictions _ _
    refine ⟨predictions, rfl, rfl, ?_⟩
    intro j
    rw [if_neg]
    simp
  | cons x rest ih =>
    intro i0 predictions hrows hlen
    rw [List.length_cons] at hlen
    have hx := hrows x (List.mem_cons_self x rest)
    have hp := predict_trees_fold expf f.step fuel x use_aggregation f.trees 0
      (tree_predict_some expf fuel f hf x hx hfuel use_aggregation)
    have hsame : ({ f with trees := f.trees } : OnlineForestRegressor K Criterion) = f := rfl
    obtain ⟨preds, h1, h2, h3⟩ := ih (i0 + 1)
      (predictions.set i0 (forest_accumulated expf fuel f x use_aggregation))
      (fun z hz => hrows z (List.mem_cons_of_mem x hz)) (by rw [List.length_set]; omega)
    refine ⟨preds, ?_, by rw [h2, List.length_set], ?_⟩
    · unfold predict_rows
      rw [hp]
      simp only
      rw [if_pos (by omega), hsame]
      exact h1
    · intro j
      rw [h3 j]
      have hl : (x :: rest).length = rest.length + 1 := List.length_cons x rest
      have hls := List.length_set predictions i0
        (forest_accumulated expf fuel f x use_aggregation)
      by_cases hj : j = i0
      · subst hj
        rw [if_neg (by omega), if_pos (by omega)]
        rw [List.getElem?_set_self (by omega)]
        simp
      · by_cases hin : i0 + 1 ≤ j ∧ j < i0 + 1 + rest.length
        · rw [if_pos hin, if_pos (by omega)]
          have e : j - i0 = (j - (i0 + 1)) + 1 := by omega
          rw [e, List.getElem?_cons_succ]
        · rw [if_neg hin, if_neg (by omega)]
          rw [List.getElem?_set_ne (fun e => hj e.symm)]

/-- Claim C6: for every forest fitted with a batch of at least one row (whatever
the constructor argument `n_trees`), every input row `i` and either value of
`use_aggregation`, every tree returns a prediction for the row, `_n_trees` is the
number of trees, and the value `predict` stores in `predictions[i]` is the mean
as the code computes it: the predictions of the trees added to `0` one after the
other, from left to right in the order of the trees, and the result divided by
the number of trees. The statement keeps the order of the operations of the
code; it does not rest on the addition being associative. -/
theorem forest_predict_mean (expf : K → K) (n_trees : Nat) (step : K) (criterion : Criterion)
    (n_threads : Int) (seed : Int) (verbose : Bool) (fuel : Nat) (draws : Nat → Nat → Draw K)
    (features : SArrayDouble2d K) (labels : List K) (queries : SArrayDouble2d K)
    (predictions : List K) (use_aggregation : Bool)
    (hrows : features.rows ≠ [])
    (hw : ∀ x ∈ features.rows, x.length = features.n_cols)
    (hlab : features.rows.length ≤ labels.length)
    (hdraw : ∀ i j, (draws i j).feature < features.n_cols)
    (hq : ∀ x ∈ queries.rows, x.length = features.n_cols)
    (hpred : queries.rows.length ≤ predictions.length)
    (hfuel : 2 * features.rows.length + 1 ≤ fuel) :
    ∃ f1 preds, fit expf fuel draws (create n_trees step criterion n_threads seed verbose)
        features labels = .ok f1 ∧
      predict expf fuel f1 queries predictions use_aggregation = ((f1, preds), .ok ()) ∧
      1 ≤ f1.trees.length ∧ f1.n_trees = f1.trees.length ∧
      ∀ (i : Nat) (x : List K), queries.rows[i]? = some x →
        (∀ tree ∈ f1.trees, tree.predict expf f1.step fuel x use_aggregation =
          some (tree, tree_value expf f1.step fuel x use_aggregation tree)) ∧
        preds[i]? = some
          (f1.trees.foldl
            (fun y_pred tree => y_pred + tree_value expf f1.step fuel x use_aggregation tree) 0 /
            (f1.trees.length : K)) := by
  obtain ⟨f1, h1, h2, h3, h4⟩ := fit_fresh expf n_trees step criterion n_threads seed verbose
    fuel draws features labels hw hlab hdraw hfuel
  have hpos : 0 < features.rows.length := List.length_pos.2 hrows
  obtain ⟨preds, p1, p2, p3⟩ := predict_rows_fold expf fuel use_aggregation f1 h2
    (by rw [h3]; exact hfuel) queries.rows 0 predictions hq (by omega)
  refine ⟨f1, preds, h1, ?_, by omega, h2.count.symm, ?_⟩
  · unfold predict
    rw [if_pos (by omega)]
    exact p1
  · intro i x hi
    have hi2 : i < queries.rows.length := (List.getElem?_eq_some.1 hi).1
    constructor
    · intro tree ht
      obtain ⟨v, hv⟩ := tree_predict_some expf fuel f1 h2 x (hq x (List.getElem?_mem hi))
        (by rw [h3]; exact hfuel) use_aggregation tree ht
      rw [hv]
      simp [tree_value, hv]
    · rw [p3 i, if_pos ⟨Nat.zero_le i, by omega⟩, Nat.sub_zero, hi]
      show some (forest_accumulated expf fuel f1 x use_aggregation) = _
      unfold forest_accumulated
      rw [h2.count]

theorem forest_predict_mean_witness :
    sample_features.rows ≠ [] ∧ sample_queries.rows.length ≤ [(7 : ℚ)].length ∧
      ∃ f1 preds, fit (fun _ => (1 : ℚ)) 5 sample_draws sample_forest sample_features
          sample_labels = .ok f1 ∧
        predict (fun _ => (1 : ℚ)) 5 f1 sample_queries [7] false = ((f1, preds), .ok ()) ∧
        1 ≤ f1.trees.length ∧ f1.n_trees = f1.trees.length ∧
        ∀ (i : Nat) (x : List ℚ), sample_queries.rows[i]? = some x →
          (∀ tree ∈ f1.trees, tree.predict (fun _ => 1) f1.step 5 x false =
            some (tree, tree_value (fun _ => 1) f1.step 5 x false tree)) ∧
          preds[i]? = some
            (f1.trees.foldl
              (fun y_pred tree => y_pred + tree_value (fun _ => 1) f1.step 5 x false tree) 0 /
              (f1.trees.length : ℚ)) :=
  ⟨by decide, by decide,
    forest_predict_mean (fun _ => 1) 10 0 () 1 0 false 5 sample_draws sample_features
      sample_labels sample_queries [7] false (by decide) (by decide) (by decide)
      (fun _ _ => Nat.zero_lt_two) (by decide) (by decide) (by decide)⟩

/-- In exact arithmetic the accumulated value is the sum of the predictions of
the trees divided by `_n_trees`. -/
theorem forest_accumulated_exact (expf : K → K) (fuel : Nat)
    (f : OnlineForestRegressor K Criterion) (x : List K) (use_aggregation : Bool) :
    forest_accumulated expf fuel f x use_aggregation =
      (f.trees.map (tree_value expf f.step fuel x use_aggregation)).sum / (f.n_trees : K) := by
  have key : ∀ (trees : List (TreeRegressor K)) (y0 : K),
      trees.foldl
        (fun y_pred tree => y_pred + tree_value expf f.step fuel x use_aggregation tree) y0 =
        y0 + (trees.map (tree_value expf f.step fuel x use_aggregation)).sum := by
    intro trees
    induction trees with
    | nil => intro y0; simp
    | cons tree rest ih =>
      intro y0
      rw [List.foldl_cons, ih, List.map_cons, List.sum_cons, add_assoc]
  unfold forest_accumulated
  rw [key, zero_add]

/-- Claim C7, evaluated on the code: the constructor called with `n_trees = 1`
sets `_n_trees` to `10` and creates `10` trees; for every argument `n_trees` the
forest has `10` trees, each of them a single root leaf. -/
theorem constructor_ignores_n_trees (step : K) (criterion : Criterion) (n_threads : Int)
    (seed : Int) (verbose : Bool) :
    (create 1 step criterion n_threads seed verbose).n_trees = 10 ∧
      (create 1 step criterion n_threads seed verbose).trees.length = 10 ∧
      ∀ n_trees : Nat,
        (create n_trees step criterion n_threads seed verbose).n_trees = 10 ∧
        (create n_trees step criterion n_threads seed verbose).trees.length = 10 ∧
        ∀ tree ∈ (create n_trees step criterion n_threads seed verbose).trees,
          tree.n_nodes = 1 ∧ tree.nodes = [(NodeRegressor.create 0 : NodeRegressor K)] ∧
            (NodeRegressor.create 0 : NodeRegressor K).is_leaf = true := by
  refine ⟨rfl, rfl, fun n_trees => ⟨rfl, rfl, ?_⟩⟩
  intro tree ht
  have h1 : (create n_trees step criterion n_threads seed verbose).trees =
      List.replicate 10 (TreeRegressor.create : TreeRegressor K) := rfl
  rw [h1] at ht
  have := List.eq_of_mem_replicate ht
  subst this
  exact ⟨rfl, rfl, rfl⟩

end OnlineForestRegressor

namespace TreeRegressor

variable {K : Type} [LinearOrderedField K]

/-- The routing rule at an internal node whose child on the side of `x` is a
leaf: two steps of `route`. -/
theorem route_two (t : TreeRegressor K) (x : List K) (i c : Nat) (nd cn : NodeRegressor K)
    (xv : K) (hnd : t.nodes[i]? = some nd) (hleaf : nd.is_leaf = false)
    (hx : x[nd.feature]? = some xv)
    (hc : (if xv ≤ nd.threshold then nd.left else nd.right) = c)
    (hcn : t.nodes[c]? = some cn) (hcl : cn.is_leaf = true) :
    route t x 2 i = some c := by
  have h1 : route t x 1 c = some c := by
    unfold route
    rw [hcn]
    simp [hcl]
  unfold route
  rw [hnd]
  simp only [hleaf, hx]
  by_cases hle : xv ≤ nd.threshold
  · rw [if_pos hle] at hc
    simp only [hle, if_true, Bool.false_eq_true, if_false]
    rw [hc]; exact h1
  · rw [if_neg hle] at hc
    simp only [hle, if_false, Bool.false_eq_true]
    rw [hc]; exact h1

/-- Claim C11: for every `split_leaf(index, x, y)` in which the sampled feature
`j` has `x[j] ≠ leaf.x_t[j]` and the sampled threshold lies in
`[min(x[j], leaf.x_t[j]), max(x[j], leaf.x_t[j]))`, the split node becomes
internal with the sampled feature and threshold, the routing rule sends `x` from
the split node to the returned `data_leaf`, which stores `(x, y)`, and sends the
old retained `x_t` to the other child, which stores the old `(x_t, y_t)`. -/
theorem split_leaf_sides (expf : K → K) (step : K) (t : TreeRegressor K) (index : Nat)
    (x : List K) (y : K) (feature : Nat) (threshold : K) (nd : NodeRegressor K) (x1 x2 : K)
    (hn : t.n_nodes = t.nodes.length) (hnd : t.nodes[index]? = some nd)
    (hx1 : x[feature]? = some x1) (hx2 : nd.x_t[feature]? = some x2) (hne : x1 ≠ x2)
    (hlo : min x1 x2 ≤ threshold) (hhi : threshold < max x1 x2) :
    ∃ (t2 : TreeRegressor K) (d o : Nat) (sp dn sn : NodeRegressor K),
      t.split_leaf expf step index x y feature threshold = some (t2, d) ∧
      t2.nodes[index]? = some sp ∧ sp.is_leaf = false ∧ sp.feature = feature ∧
      sp.threshold = threshold ∧
      ((sp.left = d ∧ sp.right = o) ∨ (sp.left = o ∧ sp.right = d)) ∧ o ≠ d ∧
      route t2 x 2 index = some d ∧
      t2.nodes[d]? = some dn ∧ dn.is_leaf = true ∧ dn.x_t = x ∧ dn.y_t = y ∧
      route t2 nd.x_t 2 index = some o ∧
      t2.nodes[o]? = some sn ∧ sn.is_leaf = true ∧ sn.x_t = nd.x_t ∧ sn.y_t = nd.y_t := by
  have hlt : index < t.nodes.length := get_lt hnd
  rw [split_leaf_eq expf step t index x y feature threshold nd x1 x2 hn hnd hx1 hx2]
  have hsp : ∀ a b : NodeRegressor K,
      (⟨arena3 t.nodes index (split_node nd t.nodes.length feature threshold) a b,
        t.nodes.length + 2, t.iteration⟩ : TreeRegressor K).nodes[index]? =
        some (split_node nd t.nodes.length feature threshold) :=
    fun a b => arena3_get_idx _ _ _ _ _ hlt
  by_cases hc : x1 < x2
  · rw [min_eq_left (le_of_lt hc)] at hlo
    rw [max_eq_right (le_of_lt hc)] at hhi
    simp only [if_pos hc]
    refine ⟨_, t.nodes.length, t.nodes.length + 1, _, _, _, rfl, hsp _ _, rfl, rfl, rfl,
      Or.inl ⟨rfl, rfl⟩, by omega, ?_, arena3_get_fst _ _ _ _ _, rfl, rfl, rfl, ?_,
      arena3_get_snd _ _ _ _ _, rfl, rfl, rfl⟩
    · exact route_two _ x index _ _ _ x1 (hsp _ _) rfl hx1 (if_pos hlo)
        (arena3_get_fst _ _ _ _ _) rfl
    · exact route_two _ nd.x_t index _ _ _ x2 (hsp _ _) rfl hx2 (if_neg (not_le.2 hhi))
        (arena3_get_snd _ _ _ _ _) rfl
  · have hc2 : x2 < x1 := lt_of_le_of_ne (not_lt.1 hc) (fun e => hne e.symm)
    rw [min_eq_right (le_of_lt hc2)] at hlo
    rw [max_eq_left (le_of_lt hc2)] at hhi
    simp only [if_neg hc]
    refine ⟨_, t.nodes.length + 1, t.nodes.length, _, _, _, rfl, hsp _ _, rfl, rfl, rfl,
      Or.inr ⟨rfl, rfl⟩, by omega, ?_, arena3_get_snd _ _ _ _ _, rfl, rfl, rfl, ?_,
      arena3_get_fst _ _ _ _ _, rfl, rfl, rfl⟩
    · exact route_two _ x index _ _ _ x1 (hsp _ _) rfl hx1 (if_neg (not_le.2 hhi))
        (arena3_get_snd _ _ _ _ _) rfl
    · exact route_two _ nd.x_t index _ _ _ x2 (hsp _ _) rfl hx2 (if_pos hlo)
        (arena3_get_fst _ _ _ _ _) rfl

end TreeRegressor
namespace NodeRegressor

variable {K : Type} [LinearOrderedField K]

theorem update_downwards_n_samples (expf : K → K) (step : K) (n : NodeRegressor K)
    (x : List K) (y : K) : (n.update_downwards expf step x y).n_samples = n.n_samples + 1 := rfl

theorem update_downwards_predict (expf : K → K) (step : K) (n : NodeRegressor K)
    (x : List K) (y : K) :
    (n.update_downwards expf step x y).predict =
      ((n.n_samples : K) * n.predict + y) / ((n.n_samples : K) + 1) := by
  show (((n.n_samples + 1 - 1 : Nat) : K) * n.predict + y) / ((n.n_samples + 1 : Nat) : K) = _
  rw [Nat.add_sub_cancel]
  push_cast
  rfl

/-- The running sum kept by `update_downwards`: `predict * n_samples` grows by the
label. -/
theorem update_downwards_sum (expf : K → K) (step : K) (n : NodeRegressor K)
    (x : List K) (y : K) :
    (n.update_downwards expf step x y).predict *
        ((n.update_downwards expf step x y).n_samples : K) =
      n.predict * (n.n_samples : K) + y := by
  rw [update_downwards_predict, update_downwards_n_samples]
  have h : ((n.n_samples : K) + 1) ≠ 0 := by
    have : (0 : K) ≤ (n.n_samples : K) := Nat.cast_nonneg _
    linarith
  push_cast
  field_simp
  ring

theorem update_downwards_all_spec (expf : K → K) (step : K) (samples : List (List K × K)) :
    ∀ n : NodeRegressor K,
      (update_downwards_all expf step n samples).n_samples = n.n_samples + samples.length ∧
      (update_downwards_all expf step n samples).predict *
          ((update_downwards_all expf step n samples).n_samples : K) =
        n.predict * (n.n_samples : K) + (samples.map Prod.snd).sum := by
  induction samples with
  | nil => intro n; simp [update_downwards_all]
  | cons s rest ih =>
    intro n
    obtain ⟨h1, h2⟩ := ih (n.update_downwards expf step s.1 s.2)
    simp only [update_downwards_all]
    refine ⟨?_, ?_⟩
    · rw [h1, update_downwards_n_samples, List.length_cons]; omega
    · rw [h2, update_downwards_sum, List.map_cons, List.sum_cons]; ring

/-- Claim C14: in exact arithmetic, for every freshly constructed node and every
sequence of samples passed to `update_downwards`, with labels `y_1 .. y_n`,
afterwards `n_samples = n` and `predict` is the arithmetic mean
`(y_1 + ... + y_n) / n` (for `n = 0` both sides are `0`); and each single call, on
any node, multiplies `weight` by `exp(-step * (p - y)^2 / 2)`, where `p` is the
`predict` of the node before the call. -/
theorem update_downwards_running_mean (expf : K → K) (step : K) (parent : Nat)
    (samples : List (List K × K)) :
    (update_downwards_all expf step (create parent) samples).n_samples = samples.length ∧
      (update_downwards_all expf step (create parent) samples).predict =
        (samples.map Prod.snd).sum / (samples.length : K) ∧
      ∀ (n : NodeRegressor K) (x : List K) (y : K),
        (n.update_downwards expf step x y).weight =
          n.weight * expf (-step * ((n.predict - y) * (n.predict - y) / 2)) := by
  obtain ⟨h1, h2⟩ := update_downwards_all_spec expf step samples (create parent : NodeRegressor K)
  have h0 : (create parent : NodeRegressor K).n_samples = 0 := rfl
  have hp : (create parent : NodeRegressor K).predict = 0 := rfl
  rw [h0, Nat.zero_add] at h1
  rw [h1, hp, zero_mul, zero_add] at h2
  refine ⟨h1, ?_, fun n x y => rfl⟩
  cases samples with
  | nil => simp [update_downwards_all, hp]
  | cons s rest =>
    have hne : ((List.length (s :: rest) : Nat) : K) ≠ 0 := by
      rw [List.length_cons]
      have h0 : (0 : K) ≤ (rest.length : K) := Nat.cast_nonneg _
      push_cast
      linarith
    rw [eq_div_iff hne]
    exact h2

end NodeRegressor

namespace TreeRegressor

variable {K : Type} [LinearOrderedField K]

theorem data_node_stats (expf : K → K) (step : K) (index : Nat) (x : List K) (y : K) :
    (data_node expf step index x y).n_samples = 1 ∧
      (data_node expf step index x y).weight =
        expf (-step * (NodeRegressor.create index : NodeRegressor K).loss y) ∧
      (data_node expf step index x y).predict = y ∧
      (data_node expf step index x y).x_t = x ∧ (data_node expf step index x y).y_t = y ∧
      (data_node expf step index x y).is_leaf = true ∧
      (data_node expf step index x y).parent = index := by
  refine ⟨rfl, ?_, ?_, rfl, rfl, rfl, rfl⟩
  · show (1 : K) * expf _ = _
    rw [one_mul]; rfl
  · have := NodeRegressor.update_downwards_predict expf step
      (((NodeRegressor.create index : NodeRegressor K).set_x_t x).set_y_t y) x y
    unfold data_node
    rw [this]
    show (((0 : Nat) : K) * 0 + y) / (((0 : Nat) : K) + 1) = y
    simp

theorem other_node_stats (expf : K → K) (step : K) (index : Nat) (x : List K) (y : K) :
    (other_node expf step index x y).n_samples = 1 ∧
      (other_node expf step index x y).weight =
        expf (-step * (NodeRegressor.create index : NodeRegressor K).loss y) ∧
      (other_node expf step index x y).predict = y ∧
      (other_node expf step index x y).x_t = x ∧ (other_node expf step index x y).y_t = y ∧
      (other_node expf step index x y).is_leaf = true ∧
      (other_node expf step index x y).parent = index := by
  obtain ⟨h1, h2, h3, h4, h5, h6, h7⟩ := data_node_stats expf step index x y
  exact ⟨h1, h2, h3, h4, h5, h6, h7⟩

/-- Claim C12, amended: immediately after `split_leaf` the two new children are
the nodes `n_nodes` and `n_nodes + 1` of the old count; each has `n_samples = 1`
and `weight = exp(-step * loss)`, where the loss `(predict - y_t)^2 / 2` of its
retained sample is evaluated against the child's initial `predict`, which is the
`0` of the constructor, so that `weight = exp(-step * y_t^2 / 2)`; after the call
its `predict` equals the retained label `y_t`. -/
theorem split_leaf_children (expf : K → K) (step : K) (t : TreeRegressor K) (index : Nat)
    (x : List K) (y : K) (feature : Nat) (threshold : K) (nd : NodeRegressor K) (x1 x2 : K)
    (hn : t.n_nodes = t.nodes.length) (hnd : t.nodes[index]? = some nd)
    (hx1 : x[feature]? = some x1) (hx2 : nd.x_t[feature]? = some x2) :
    ∃ (t2 : TreeRegressor K) (d o : Nat) (dn sn : NodeRegressor K),
      t.split_leaf expf step index x y feature threshold = some (t2, d) ∧
      ((d = t.n_nodes ∧ o = t.n_nodes + 1) ∨ (d = t.n_nodes + 1 ∧ o = t.n_nodes)) ∧
      t2.n_nodes = t.n_nodes + 2 ∧
      t2.nodes[d]? = some dn ∧ dn.x_t = x ∧ dn.y_t = y ∧
      t2.nodes[o]? = some sn ∧ sn.x_t = nd.x_t ∧ sn.y_t = nd.y_t ∧
      (NodeRegressor.create index : NodeRegressor K).predict = 0 ∧
      dn.n_samples = 1 ∧
      dn.weight = expf (-step * (NodeRegressor.create index : NodeRegressor K).loss dn.y_t) ∧
      dn.weight = expf (-step * (dn.y_t * dn.y_t / 2)) ∧ dn.predict = dn.y_t ∧
      sn.n_samples = 1 ∧
      sn.weight = expf (-step * (NodeRegressor.create index : NodeRegressor K).loss sn.y_t) ∧
      sn.weight = expf (-step * (sn.y_t * sn.y_t / 2)) ∧ sn.predict = sn.y_t := by
  rw [split_leaf_eq expf step t index x y feature threshold nd x1 x2 hn hnd hx1 hx2]
  obtain ⟨a1, a2, a3, a4, a5, _, _⟩ := data_node_stats expf step index x y
  obtain ⟨b1, b2, b3, b4, b5, _, _⟩ := other_node_stats expf step index nd.x_t nd.y_t
  have hloss : ∀ v : K, (NodeRegressor.create index : NodeRegressor K).loss v = v * v / 2 := by
    intro v
    show (0 - v) * (0 - v) / 2 = v * v / 2
    ring
  by_cases hc : x1 < x2
  · simp only [if_pos hc]
    refine ⟨_, t.nodes.length, t.nodes.length + 1, _, _, rfl, Or.inl ⟨hn.symm, by rw [hn]⟩,
      by rw [hn], arena3_get_fst _ _ _ _ _, a4, a5, arena3_get_snd _ _ _ _ _, b4, b5, rfl,
      a1, by rw [a5]; exact a2, by rw [a2, a5, hloss], by rw [a5]; exact a3,
      b1, by rw [b5]; exact b2, by rw [b2, b5, hloss], by rw [b5]; exact b3⟩
  · simp only [if_neg hc]
    refine ⟨_, t.nodes.length + 1, t.nodes.length, _, _, rfl, Or.inr ⟨by rw [hn], hn.symm⟩,
      by rw [hn], arena3_get_snd _ _ _ _ _, a4, a5, arena3_get_fst _ _ _ _ _, b4, b5, rfl,
      a1, by rw [a5]; exact a2, by rw [a2, a5, hloss], by rw [a5]; exact a3,
      b1, by rw [b5]; exact b2, by rw [b2, b5, hloss], by rw [b5]; exact b3⟩

end TreeRegressor
namespace TreeRegressor

variable {K : Type} [LinearOrderedField K]

/-- The first `fit` of a fresh tree returns `root_tree`. -/
theorem fit_create (expf : K → K) (step : K) (fuel : Nat) (x : List K) (y : K) (feature : Nat)
    (threshold : K) :
    (create : TreeRegressor K).fit expf step fuel x y feature threshold =
      some (root_tree x y) := rfl

/-- Claim C12, as stated, fails. In the second `fit` of the scenario
`(x = [0, 0], y = 1)`, `(x = [1, 0], y = 2)` with `step = 1`, sampled feature `0`
and threshold `1 / 2`, the child that receives the old sample has `y_t = 1`, while
its initial `predict` is the `0` of the constructor, not `y_t`; its weight is
`exp(-1 / 2)`, not the `exp(0)` that a loss evaluated against `y_t` would give. -/
theorem split_leaf_initial_predict :
    ∃ (t1 : TreeRegressor ℝ) (l : Nat) (t2 : TreeRegressor ℝ) (d : Nat) (sn : NodeRegressor ℝ),
      (create : TreeRegressor ℝ).fit Real.exp 1 1 [0, 0] 1 0 0 = some (root_tree [0, 0] 1) ∧
      (root_tree [0, 0] 1).go_downwards Real.exp 1 1 [1, 0] 2 false = some (t1, l) ∧
      t1.split_leaf Real.exp 1 l [1, 0] 2 0 (1 / 2) = some (t2, d) ∧
      t2.nodes[1]? = some sn ∧ sn.x_t = [0, 0] ∧ sn.y_t = 1 ∧ sn.n_samples = 1 ∧
      (NodeRegressor.create l : NodeRegressor ℝ).predict ≠ sn.y_t ∧
      sn.weight = Real.exp (-(1 / 2)) ∧
      sn.weight ≠ Real.exp (-1 * ((sn.y_t - sn.y_t) * (sn.y_t - sn.y_t) / 2)) := by
  have hd : (root_tree [0, 0] 1 : TreeRegressor ℝ).go_downwards Real.exp 1 1 [1, 0] 2 false =
      some ((root_tree [0, 0] 1).set_node 0
        ((((NodeRegressor.create 0).set_x_t [0, 0]).set_y_t 1).update_downwards Real.exp 1
          [1, 0] 2), 0) := rfl
  have hs := split_leaf_eq Real.exp 1 ((root_tree [0, 0] 1 : TreeRegressor ℝ).set_node 0
      ((((NodeRegressor.create 0).set_x_t [0, 0]).set_y_t 1).update_downwards Real.exp 1
        [1, 0] 2)) 0 [1, 0] 2 0 (1 / 2) _ 1 0 rfl rfl rfl rfl
  have hlt : ¬ ((1 : ℝ) < 0) := by norm_num
  simp only [if_neg hlt] at hs
  have hw : (other_node Real.exp 1 0 [0, 0] (1 : ℝ)).weight = Real.exp (-(1 / 2)) := by
    rw [(other_node_stats Real.exp 1 0 [0, 0] (1 : ℝ)).2.1]
    congr 1
    show -1 * ((0 - 1) * (0 - 1) / 2) = -(1 / 2 : ℝ)
    norm_num
  refine ⟨_, 0, _, _, other_node Real.exp 1 0 [0, 0] 1, rfl, hd, hs, arena3_get_fst _ _ _ _ _,
    rfl, rfl, rfl, ?_, hw, ?_⟩
  · show (0 : ℝ) ≠ 1
    norm_num
  · rw [hw]
    have h1 : (other_node Real.exp 1 0 [0, 0] (1 : ℝ)).y_t = 1 := rfl
    rw [h1]
    intro h
    have := Real.exp_injective h
    norm_num at this

end TreeRegressor
namespace TreeRegressor

variable {K : Type} [LinearOrderedField K]

/-- A `fit` keeps the links of every node that was already internal, and keeps it
internal. -/
theorem fit_keeps_internal {nf : Nat} (expf : K → K) (step : K) (fuel : Nat)
    (t : TreeRegressor K) (x : List K) (y : K) (feature : Nat) (threshold : K)
    (t5 : TreeRegressor K) (hw : WF nf t) (hx : x.length = nf) (hf : feature < nf)
    (h : t.fit expf step fuel x y feature threshold = some t5) :
    ∀ (i : Nat) (nd : NodeRegressor K), t.nodes[i]? = some nd → nd.is_leaf = false →
      ∃ nd5, t5.nodes[i]? = some nd5 ∧ nd5.left = nd.left ∧ nd5.right = nd.right ∧
        nd5.parent = nd.parent ∧ nd5.is_leaf = false := by
  intro i nd hi hleaf
  by_cases hit : t.iteration = 0
  · obtain ⟨r, hnodes, hrl, -, -⟩ := fit_first expf step fuel t x y feature threshold hw hit
    rw [hnodes] at hi
    cases i with
    | zero =>
      simp at hi
      rw [← hi, hrl] at hleaf
      exact absurd hleaf (by simp)
    | succ k => simp at hi
  · obtain ⟨t1, l, ndl, x1, x2, t3, hd, hndl, hlleaf, hx1, hx2, hu, he⟩ :=
      fit_later expf step fuel t x y feature threshold t5 hw.arena hit hx hf h
    obtain ⟨d1, -, -, -, -, -, -⟩ :=
      go_downwards_loop_spec expf step fuel t 0 x y false t1 l hw.arena hd
    have hw1 : Arena nf t1 := Arena.arena_congr d1 hw.arena
    have hit1 : t1.iteration ≠ 0 := by rw [← d1.iteration]; exact hit
    obtain ⟨nd1, h1, hs1⟩ := d1.shape_symm.shape_get hi
    obtain ⟨e1, e2, e3, e4, -⟩ := shape_fields hs1
    have hil : l ≠ i := by
      intro e
      subst e
      rw [hndl] at h1
      injection h1 with h1
      rw [h1, e4, hleaf] at hlleaf
      exact absurd hlleaf (by simp)
    have h2 : (split_tree expf step t1 l ndl x y feature threshold (decide (x1 < x2))).nodes[i]?
        = some nd1 := by
      rw [split_tree_old expf step t1 l ndl x y feature threshold _ i (get_lt h1) hil]
      exact h1
    have hw2 := split_tree_arena expf step t1 l ndl x y feature threshold (decide (x1 < x2))
      hw1 hit1 hndl hf hx
    obtain ⟨u1, -, -, -⟩ := go_upwards_spec fuel _ _ t3 hw2 hu
    obtain ⟨nd3, h3, hs3⟩ := u1.sameShape.shape_symm.shape_get h2
    obtain ⟨g1, g2, g3, g4, -⟩ := shape_fields hs3
    subst he
    exact ⟨nd3, h3, by rw [g2, e2], by rw [g3, e3], by rw [g1, e1], by rw [g4, e4, hleaf]⟩

/-- Claim C13: the topology invariant of every tree reachable by `fit` calls.
Every internal node `i` has `left` and `right` two distinct indices below
`n_nodes`, with `right = left + 1` (the two nodes appended together at its split),
and both children have `parent = i`; a further `fit` changes neither `left`,
`right` nor `parent` of a node that was internal, and leaves it internal; and
such a `fit` returns, with fuel for `n_nodes + 2` steps. -/
theorem topology_invariant (expf : K → K) (step : K) (nf : Nat) (t : TreeRegressor K)
    (hr : Reachable expf step nf t) :
    (∀ (i : Nat) (nd : NodeRegressor K), t.nodes[i]? = some nd → nd.is_leaf = false →
      nd.left ≠ nd.right ∧ nd.left < t.n_nodes ∧ nd.right < t.n_nodes ∧
      nd.right = nd.left + 1 ∧
      ∃ l r : NodeRegressor K, t.nodes[nd.left]? = some l ∧ t.nodes[nd.right]? = some r ∧
        l.parent = i ∧ r.parent = i) ∧
    (∀ (fuel : Nat) (x : List K) (y : K) (feature : Nat) (threshold : K)
      (t5 : TreeRegressor K), x.length = nf → feature < nf →
      t.fit expf step fuel x y feature threshold = some t5 →
      ∀ (i : Nat) (nd : NodeRegressor K), t.nodes[i]? = some nd → nd.is_leaf = false →
        ∃ nd5, t5.nodes[i]? = some nd5 ∧ nd5.left = nd.left ∧ nd5.right = nd.right ∧
          nd5.parent = nd.parent ∧ nd5.is_leaf = false) ∧
    ∀ (fuel : Nat) (x : List K) (y : K) (feature : Nat) (threshold : K), x.length = nf →
      feature < nf → t.n_nodes + 2 ≤ fuel →
      ∃ t5, t.fit expf step fuel x y feature threshold = some t5 := by
  have hw := hr.wf
  refine ⟨?_, ?_, ?_⟩
  · intro i nd hi hleaf
    obtain ⟨c1, c2, c3, l, r, hl, hr1, pl, pr⟩ := hw.arena.children i nd hi hleaf
    have h1 := get_lt hl
    have h2 := get_lt hr1
    rw [← hw.arena.count] at h1 h2
    exact ⟨by omega, h1, h2, c2, l, r, hl, hr1, pl, pr⟩
  · intro fuel x y feature threshold t5 hx hf h
    exact fit_keeps_internal expf step fuel t x y feature threshold t5 hw hx hf h
  · intro fuel x y feature threshold hx hf hfuel
    exact fit_some expf step fuel t x y feature threshold hw hx hf
      (by rw [← hw.arena.count]; exact hfuel)

/-- Claim C19: traversals terminate on every tree reachable by `fit` calls. The
parent of every non-root node has a smaller index, the children of every internal
node have larger indices below `n_nodes`; so with fuel for `n_nodes` steps
`go_downwards` returns a leaf, for every `x` of `nf` entries, every `y` and both
modes, and `go_upwards(i)` returns, having reached index `0`, for every
`i < n_nodes`; a result means that every access was in bounds. -/
theorem traversals_terminate (expf : K → K) (step : K) (nf : Nat) (t : TreeRegressor K)
    (hr : Reachable expf step nf t) :
    (∀ (i : Nat) (nd : NodeRegressor K), t.nodes[i]? = some nd → 0 < i → nd.parent < i) ∧
    (∀ (i : Nat) (nd : NodeRegressor K), t.nodes[i]? = some nd → nd.is_leaf = false →
      i < nd.left ∧ nd.left < t.n_nodes ∧ i < nd.right ∧ nd.right < t.n_nodes) ∧
    (∀ (x : List K) (y : K) (predict : Bool), x.length = nf →
      ∃ (t1 : TreeRegressor K) (l : Nat) (nd : NodeRegressor K),
        t.go_downwards expf step t.n_nodes x y predict = some (t1, l) ∧
        t1.nodes[l]? = some nd ∧ nd.is_leaf = true) ∧
    ∀ i : Nat, i < t.n_nodes → ∃ t1, t.go_upwards t.n_nodes i = some t1 := by
  have hw := hr.wf.arena
  refine ⟨hw.parent_lt, ?_, ?_, ?_⟩
  · intro i nd hi hleaf
    obtain ⟨c1, c2, c3, l, r, hl, hr1, pl, pr⟩ := hw.children i nd hi hleaf
    have h1 := get_lt hl
    have h2 := get_lt hr1
    rw [← hw.count] at h1 h2
    exact ⟨c1, h1, by omega, h2⟩
  · intro x y predict hx
    obtain ⟨r, hr0, -⟩ := hw.root
    obtain ⟨⟨t1, l⟩, hd⟩ := go_downwards_loop_some expf step t.n_nodes t 0 x y predict hw
      (get_lt hr0) hx (by rw [hw.count]; omega)
    obtain ⟨-, ⟨nd, hnd, hleaf⟩, -⟩ :=
      go_downwards_loop_spec expf step t.n_nodes t 0 x y predict t1 l hw hd
    exact ⟨t1, l, nd, hd, hnd, hleaf⟩
  · intro i hi
    exact go_upwards_some t.n_nodes t i hw (by rw [← hw.count]; exact hi) (by omega)

end TreeRegressor
namespace TreeRegressor

variable {K : Type} [LinearOrderedField K]

/-- A `fit` restores the mixture-weight equation at every node, for every `exp`. -/
theorem fit_local_eq {nf : Nat} (expf : K → K) (step : K) (fuel : Nat) (t : TreeRegressor K)
    (x : List K) (y : K) (feature : Nat) (threshold : K) (t5 : TreeRegressor K)
    (hw : WF nf t) (hx : x.length = nf) (hf : feature < nf)
    (h : t.fit expf step fuel x y feature threshold = some t5)
    (hi : ∀ i, LocalEq t i) : ∀ i, LocalEq t5 i := by
  by_cases hit : t.iteration = 0
  · obtain ⟨r, hnodes, hleaf, hp, he⟩ :=
      fit_first expf step fuel t x y feature threshold hw hit
    rw [he] at h
    injection h with h
    subst h
    have hr : t.nodes[0]? = some r := by rw [hnodes]; rfl
    intro j nd hj
    cases j with
    | zero =>
      simp at hj
      rw [← hj]
      refine ⟨fun _ => (hi 0 r hr).1 hleaf, fun hl => ?_⟩
      have : r.is_leaf = false := hl
      rw [hleaf] at this; exact absurd this (by simp)
    | succ k => simp at hj
  · obtain ⟨t1, l, nd, x1, x2, t3, hd, hnd, hleaf, hx1, hx2, hu, he⟩ :=
      fit_later expf step fuel t x y feature threshold t5 hw.arena hit hx hf h
    obtain ⟨d1, -, d3, d4, d5, -, -⟩ :=
      go_downwards_loop_spec expf step fuel t 0 x y false t1 l hw.arena hd
    have hw1 : Arena nf t1 := Arena.arena_congr d1 hw.arena
    have hit1 : t1.iteration ≠ 0 := by rw [← d1.iteration]; exact hit
    have hl : l < t1.nodes.length := get_lt hnd
    generalize hc : decide (x1 < x2) = c at hu
    have hdi : (if x1 < x2 then t1.nodes.length else t1.nodes.length + 1) = data_index t1 c := by
      unfold data_index
      rw [← hc]
      by_cases hlt : x1 < x2
      · simp [hlt]
      · simp [hlt]
    rw [hdi] at hu
    have hw2 := split_tree_arena expf step t1 l nd x y feature threshold c hw1 hit1 hnd hf hx
    subst he
    show ∀ i, LocalEq t3 i
    apply go_upwards_restore fuel _ _ t3 hw2 hu
    intro i hoff
    have hdata := split_tree_data expf step t1 l nd x y feature threshold c
    have hdne : data_index t1 c ≠ 0 := by
      unfold data_index; split <;> omega
    have hchl : OnChain (split_tree expf step t1 l nd x y feature threshold c)
        (data_index t1 c) l :=
      OnChain.step _ _ _ hdne hdata (OnChain.here l)
    have hpar : ∀ (j : Nat) (n0 : NodeRegressor K), t1.nodes[j]? = some n0 →
        ∃ n2, (split_tree expf step t1 l nd x y feature threshold c).nodes[j]? = some n2 ∧
          n2.parent = n0.parent ∧ n2.weight_tree = n0.weight_tree := by
      intro j n0 hj
      by_cases hjl : l = j
      · subst hjl
        rw [hnd] at hj; injection hj with hj; subst hj
        exact ⟨_, split_tree_split expf step t1 l nd x y feature threshold c hl, rfl, rfl⟩
      · refine ⟨n0, ?_, rfl, rfl⟩
        rw [split_tree_old expf step t1 l nd x y feature threshold c j (get_lt hj) hjl]
        exact hj
    intro n2 hn2
    rcases split_tree_cases expf step t1 l nd x y feature threshold c hl i n2 hn2 with
      ⟨e, _⟩ | ⟨hne, hlt, e⟩ | ⟨e, _⟩ | ⟨_, e⟩
    · rw [e] at hoff; exact absurd hchl hoff
    · have hoff1 : ¬ OnChain t l i := by
        intro hh
        apply hoff
        have h1 : OnChain t1 l i := OnChain.chain_congr d1 hh
        have h2 := OnChain.mono (fun j n0 hj => by
          obtain ⟨n2, q1, q2, _⟩ := hpar j n0 hj
          exact ⟨n2, q1, q2⟩) h1
        exact OnChain.step _ _ _ hdne hdata h2
      have e0 : t.nodes[i]? = some n2 := by rw [← d4 i hoff1]; exact e
      obtain ⟨q1, q2⟩ := hi i n2 e0
      refine ⟨q1, fun hlf => ?_⟩
      obtain ⟨cl, cr, hcl, hcr, heq⟩ := q2 hlf
      obtain ⟨cl1, hcl1, ewl⟩ := map_weight_tree_get d5 hcl
      obtain ⟨cr1, hcr1, ewr⟩ := map_weight_tree_get d5 hcr
      obtain ⟨cl2, hcl2, -, ewl2⟩ := hpar _ cl1 hcl1
      obtain ⟨cr2, hcr2, -, ewr2⟩ := hpar _ cr1 hcr1
      exact ⟨cl2, cr2, hcl2, hcr2, by rw [ewl2, ewr2, ewl, ewr]; exact heq⟩
    · rw [e] at hoff; exact absurd (OnChain.here _) hoff
    · rw [e]
      exact ⟨fun _ => rfl, fun hlf => absurd hlf (by simp [other_node, data_node_is_leaf])⟩

theorem fit_all_local_eq {nf : Nat} (expf : K → K) (step : K) (fuel : Nat)
    (calls : List (FitCall K)) :
    ∀ (t t5 : TreeRegressor K), WF nf t → Valid nf calls →
      fit_all expf step fuel t calls = some t5 → (∀ i, LocalEq t i) → ∀ i, LocalEq t5 i := by
  induction calls with
  | nil =>
    intro t t5 _ _ h hi
    simp only [fit_all] at h
    injection h with h
    subst h
    exact hi
  | cons c cs ih =>
    intro t t5 hw hv h hi
    simp only [fit_all] at h
    cases hf : t.fit expf step fuel c.x_t c.y_t c.feature c.threshold with
    | none => rw [hf] at h; simp at h
    | some t1 =>
      rw [hf] at h
      simp only [Option.some_bind] at h
      have hc := hv c (List.mem_cons_self c cs)
      obtain ⟨w1, -, -⟩ := fit_spec expf step fuel t c.x_t c.y_t c.feature c.threshold t1 hw
        hc.1 hc.2 hf
      exact ih t1 t5 w1 (fun d hd => hv d (List.mem_cons_of_mem c hd)) h
        (fit_local_eq expf step fuel t c.x_t c.y_t c.feature c.threshold t1 hw hc.1 hc.2 hf hi)

/-- Claim C17: the global mixture-weight invariant. For every sequence of calls of
`fit` on a fresh tree and every sampler outcome, the calls return and afterwards
every node of the tree, on or off the path just visited, has
`weight_tree = weight` if it is a leaf and
`weight_tree = (weight + weight_tree(left) * weight_tree(right)) / 2` if it is
internal. -/
theorem global_weight_invariant (expf : K → K) (step : K) (nf : Nat)
    (calls : List (FitCall K)) (fuel : Nat) (hv : Valid nf calls)
    (hfuel : 2 * calls.length + 1 ≤ fuel) :
    ∃ t, fit_all expf step fuel create calls = some t ∧ ∀ i, LocalEq t i := by
  have hw0 : WF nf (create : TreeRegressor K) := create_wf nf
  have hlen0 : (create : TreeRegressor K).nodes.length = 1 := rfl
  obtain ⟨t, ht⟩ := fit_all_some expf step fuel calls create hw0 hv (by rw [hlen0]; omega)
  exact ⟨t, ht, fit_all_local_eq expf step fuel calls create t hw0 hv ht create_winv.2⟩

end TreeRegressor
namespace TreeRegressor

variable {K : Type} [LinearOrderedField K]

/-- In fitting mode `go_downwards` applies `update_downwards` to its start node
and writes no node of smaller index. -/
theorem go_downwards_loop_start (expf : K → K) (step : K) {nf : Nat} (fuel : Nat) :
    ∀ (t : TreeRegressor K) (s : Nat) (x : List K) (y : K) (t1 : TreeRegressor K) (l : Nat),
      Arena nf t → go_downwards_loop expf step fuel t s x y false = some (t1, l) →
      (∃ nd, t.nodes[s]? = some nd ∧
        t1.nodes[s]? = some (nd.update_downwards expf step x y)) ∧
      ∀ i, i < s → t1.nodes[i]? = t.nodes[i]? := by
  induction fuel with
  | zero => intro t s x y t1 l _ h; simp [go_downwards_loop] at h
  | succ fuel ih =>
    intro t s x y t1 l hw h
    unfold go_downwards_loop at h
    cases hn0 : t.node s with
    | none => rw [hn0] at h; simp at h
    | some n0 =>
      rw [hn0] at h
      have hn0' : t.nodes[s]? = some n0 := hn0
      simp only [Option.bind_eq_bind, Option.some_bind, Bool.false_eq_true, if_false] at h
      have hss : SameShape t (t.set_node s (n0.update_downwards expf step x y)) :=
        SameShape.shape_set_node t s n0 _ hn0' (update_downwards_shape expf step n0 x y)
      have hw2 := Arena.arena_congr hss hw
      have hget := get_set_node_self t s n0 (n0.update_downwards expf step x y) hn0'
      by_cases hleaf : (n0.update_downwards expf step x y).is_leaf = true
      · rw [if_pos hleaf] at h
        injection h with h
        injection h with h1 h2
        subst h1
        exact ⟨⟨n0, hn0', hget⟩, fun i hi => get_set_node_ne t s i _ (by omega)⟩
      · rw [if_neg hleaf] at h
        cases hxv : x[(n0.update_downwards expf step x y).feature]? with
        | none => rw [hxv] at h; simp at h
        | some xv =>
          rw [hxv] at h
          simp only [Option.bind_eq_bind, Option.some_bind] at h
          have hleaf0 : n0.is_leaf = false := by
            have : (n0.update_downwards expf step x y).is_leaf = n0.is_leaf := rfl
            rw [← this]; simpa using hleaf
          obtain ⟨c1, c2, -⟩ := hw.children s n0 hn0' hleaf0
          have key : ∀ c, s < c →
              go_downwards_loop expf step fuel (t.set_node s (n0.update_downwards expf step x y))
                c x y false = some (t1, l) →
              (∃ nd, t.nodes[s]? = some nd ∧
                t1.nodes[s]? = some (nd.update_downwards expf step x y)) ∧
              ∀ i, i < s → t1.nodes[i]? = t.nodes[i]? := by
            intro c hc hrec
            obtain ⟨-, r2⟩ := ih _ c x y t1 l hw2 hrec
            refine ⟨⟨n0, hn0', ?_⟩, ?_⟩
            · rw [r2 s hc]; exact hget
            · intro i hi
              rw [r2 i (by omega)]
              exact get_set_node_ne t s i _ (by omega)
          have el : (n0.update_downwards expf step x y).left = n0.left := rfl
          have er : (n0.update_downwards expf step x y).right = n0.right := rfl
          by_cases hle : xv ≤ (n0.update_downwards expf step x y).threshold
          · rw [if_pos hle, el] at h
            exact key n0.left c1 h
          · rw [if_neg hle, er] at h
            exact key n0.right (by omega) h

/-- A later `fit` counts its sample in the root: `n_samples` grows by one and the
running sum `predict * n_samples` grows by the label. -/
theorem fit_root_stats {nf : Nat} (expf : K → K) (step : K) (fuel : Nat) (t : TreeRegressor K)
    (x : List K) (y : K) (feature : Nat) (threshold : K) (t5 : TreeRegressor K)
    (hw : WF nf t) (hit : t.iteration ≠ 0) (hx : x.length = nf) (hf : feature < nf)
    (h : t.fit expf step fuel x y feature threshold = some t5) :
    ∃ r r5 : NodeRegressor K, t.nodes[0]? = some r ∧ t5.nodes[0]? = some r5 ∧
      r5.n_samples = r.n_samples + 1 ∧
      r5.predict * (r5.n_samples : K) = r.predict * (r.n_samples : K) + y := by
  obtain ⟨t1, l, nd, x1, x2, t3, hd, hnd, hleaf, hx1, hx2, hu, he⟩ :=
    fit_later expf step fuel t x y feature threshold t5 hw.arena hit hx hf h
  obtain ⟨d1, -⟩ := go_downwards_loop_spec expf step fuel t 0 x y false t1 l hw.arena hd
  obtain ⟨⟨r, hr, hr1⟩, -⟩ := go_downwards_loop_start expf step fuel t 0 x y t1 l hw.arena hd
  have hw1 : Arena nf t1 := Arena.arena_congr d1 hw.arena
  have hit1 : t1.iteration ≠ 0 := by rw [← d1.iteration]; exact hit
  have hl : l < t1.nodes.length := get_lt hnd
  have hw2 := split_tree_arena expf step t1 l nd x y feature threshold (decide (x1 < x2))
    hw1 hit1 hnd hf hx
  obtain ⟨u1, -, -, -⟩ := go_upwards_spec fuel _ _ t3 hw2 hu
  -- the root after the split keeps the statistics of the root after the descent
  have h2 : ∃ r2, (split_tree expf step t1 l nd x y feature threshold
      (decide (x1 < x2))).nodes[0]? = some r2 ∧
      r2.n_samples = (r.update_downwards expf step x y).n_samples ∧
      r2.predict = (r.update_downwards expf step x y).predict := by
    by_cases hl0 : l = 0
    · subst hl0
      rw [hnd] at hr1
      injection hr1 with hr1
      refine ⟨_, split_tree_split expf step t1 0 nd x y feature threshold _ hl, ?_, ?_⟩
      · rw [← hr1]; rfl
      · rw [← hr1]; rfl
    · refine ⟨_, ?_, rfl, rfl⟩
      rw [split_tree_old expf step t1 l nd x y feature threshold _ 0 (by omega) hl0]
      exact hr1
  obtain ⟨r2, hr2, e1, e2⟩ := h2
  obtain ⟨r3, hr3, hc3⟩ := u1.core_symm.core_get hr2
  obtain ⟨-, g2, -, g4⟩ := core_fields hc3
  subst he
  refine ⟨r, r3, hr, hr3, ?_, ?_⟩
  · rw [g2, e1]; rfl
  · rw [g2, g4, e1, e2]
    exact NodeRegressor.update_downwards_sum expf step r x y

theorem fit_all_root_stats {nf : Nat} (expf : K → K) (step : K) (fuel : Nat)
    (calls : List (FitCall K)) :
    ∀ (t t5 : TreeRegressor K) (r : NodeRegressor K), WF nf t → t.iteration ≠ 0 →
      Valid nf calls → t.nodes[0]? = some r →
      fit_all expf step fuel t calls = some t5 →
      ∃ r5 : NodeRegressor K, t5.nodes[0]? = some r5 ∧
        r5.n_samples = r.n_samples + calls.length ∧
        r5.predict * (r5.n_samples : K) =
          r.predict * (r.n_samples : K) + (calls.map FitCall.y_t).sum := by
  induction calls with
  | nil =>
    intro t t5 r _ _ _ hr h
    simp only [fit_all] at h
    injection h with h
    subst h
    exact ⟨r, hr, rfl, by simp⟩
  | cons c cs ih =>
    intro t t5 r hw hit hv hr h
    simp only [fit_all] at h
    cases hf : t.fit expf step fuel c.x_t c.y_t c.feature c.threshold with
    | none => rw [hf] at h; simp at h
    | some t1 =>
      rw [hf] at h
      simp only [Option.some_bind] at h
      have hc := hv c (List.mem_cons_self c cs)
      obtain ⟨w1, i1, -⟩ := fit_spec expf step fuel t c.x_t c.y_t c.feature c.threshold t1 hw
        hc.1 hc.2 hf
      obtain ⟨r0, r1, h0, h1, e1, e2⟩ := fit_root_stats expf step fuel t c.x_t c.y_t c.feature
        c.threshold t1 hw hit hc.1 hc.2 hf
      rw [hr] at h0; injection h0 with h0; subst h0
      obtain ⟨r5, h5, g1, g2⟩ := ih t1 t5 r1 w1 (by rw [i1]; omega)
        (fun d hd => hv d (List.mem_cons_of_mem c hd)) h1 h
      refine ⟨r5, h5, ?_, ?_⟩
      · rw [g1, e1, List.length_cons]; omega
      · rw [g2, e2, List.map_cons, List.sum_cons]; ring

/-- On a tree fitted with a single sample, prediction with aggregation returns
`0`. -/
theorem predict_root_tree (expf : K → K) (step : K) (fuel : Nat) (x0 : List K) (y0 : K)
    (x : List K) :
    (root_tree x0 y0).predict expf step (fuel + 1) x true = some (root_tree x0 y0, 0) := by
  have h1 : (root_tree x0 y0).go_downwards expf step (fuel + 1) x 0 true =
      some (root_tree x0 y0, 0) := rfl
  have h2 : predict_loop (fuel + 1) (root_tree x0 y0) 0 0 0 = some ((1 : K) * 0) := rfl
  have h3 : (root_tree x0 y0).nodes[0]? =
      some (((NodeRegressor.create 0).set_x_t x0).set_y_t y0) := rfl
  unfold predict
  rw [h1]
  simp only [Option.bind_eq_bind, Option.some_bind, Bool.not_true, Bool.false_eq_true, if_false]
  rw [h2, h3]
  simp

/-- Claim C20: the first fitted sample is never counted in the statistics of the
root. After `k ≥ 1` calls of `fit` with labels `y_1 .. y_k` on a fresh tree, the
root has `n_samples = k - 1` and, in exact arithmetic, `predict` equal to
`(y_2 + ... + y_k) / (k - 1)`, which is `0` for `k = 1`; and on a tree fitted with
a single sample `predict(x, use_aggregation = true)` returns `0` for every `x`,
whatever `y_1` is. -/
theorem root_skips_first_sample (expf : K → K) (step : K) (nf : Nat) (calls : List (FitCall K))
    (fuel : Nat) (hne : calls ≠ []) (hv : Valid nf calls)
    (hfuel : 2 * calls.length + 1 ≤ fuel) :
    ∃ (t : TreeRegressor K) (root : NodeRegressor K),
      fit_all expf step fuel create calls = some t ∧ t.nodes[0]? = some root ∧
      root.n_samples = calls.length - 1 ∧
      root.predict = (calls.tail.map FitCall.y_t).sum / ((calls.length - 1 : Nat) : K) ∧
      (calls.length = 1 →
        root.predict = 0 ∧ ∀ x : List K, t.predict expf step fuel x true = some (t, 0)) := by
  have hw0 : WF nf (create : TreeRegressor K) := create_wf nf
  have hlen0 : (create : TreeRegressor K).nodes.length = 1 := rfl
  obtain ⟨t, ht⟩ := fit_all_some expf step fuel calls create hw0 hv (by rw [hlen0]; omega)
  cases calls with
  | nil => exact absurd rfl hne
  | cons c cs =>
    have ht2 := ht
    simp only [fit_all, fit_create, Option.some_bind] at ht2
    have hc := hv c (List.mem_cons_self c cs)
    have hw1 : WF nf (root_tree c.x_t c.y_t) :=
      (fit_spec expf step fuel create c.x_t c.y_t c.feature c.threshold _ hw0 hc.1 hc.2
        (fit_create expf step fuel c.x_t c.y_t c.feature c.threshold)).1
    obtain ⟨r5, h5, g1, g2⟩ := fit_all_root_stats expf step fuel cs (root_tree c.x_t c.y_t) t
      (((NodeRegressor.create 0).set_x_t c.x_t).set_y_t c.y_t) hw1 (by show (1 : Nat) ≠ 0; omega)
      (fun d hd => hv d (List.mem_cons_of_mem c hd)) rfl ht2
    have e1 : (((NodeRegressor.create 0 : NodeRegressor K).set_x_t c.x_t).set_y_t c.y_t).n_samples
        = 0 := rfl
    have e2 : (((NodeRegressor.create 0 : NodeRegressor K).set_x_t c.x_t).set_y_t c.y_t).predict
        = 0 := rfl
    rw [e1, Nat.zero_add] at g1
    rw [e1, e2, zero_mul, zero_add, g1] at g2
    have hlen : (c :: cs).length - 1 = cs.length := by simp
    refine ⟨t, r5, ht, h5, by rw [g1, hlen], ?_, ?_⟩
    · rw [hlen, List.tail_cons]
      cases cs with
      | nil =>
        simp only [fit_all] at ht2
        injection ht2 with ht2
        subst ht2
        have : (root_tree c.x_t c.y_t).nodes[0]? =
            some (((NodeRegressor.create 0).set_x_t c.x_t).set_y_t c.y_t) := rfl
        rw [this] at h5
        injection h5 with h5
        rw [← h5, e2]
        simp
      | cons c2 cs2 =>
        have hne2 : ((List.length (c2 :: cs2) : Nat) : K) ≠ 0 := by
          rw [List.length_cons]
          have h0 : (0 : K) ≤ (cs2.length : K) := Nat.cast_nonneg _
          push_cast
          linarith
        rw [eq_div_iff hne2]
        exact g2
    · intro hk
      have hcs : cs = [] := by
        cases cs with
        | nil => rfl
        | cons c2 cs2 => simp at hk
      subst hcs
      simp only [fit_all] at ht2
      injection ht2 with ht2
      subst ht2
      have : (root_tree c.x_t c.y_t).nodes[0]? =
          some (((NodeRegressor.create 0).set_x_t c.x_t).set_y_t c.y_t) := rfl
      rw [this] at h5
      injection h5 with h5
      refine ⟨by rw [← h5, e2], fun x => ?_⟩
      obtain ⟨f, hf⟩ : ∃ f, fuel = f + 1 := ⟨fuel - 1, by simp at hfuel; omega⟩
      rw [hf]
      exact predict_root_tree expf step f c.x_t c.y_t x

end TreeRegressor
namespace TreeRegressor

/-- Claim C15: the feature sampler does not avoid the degenerate split. In the
forest over two features, `sample_feature` draws from the range `[0, 1]`; when
the second `fit`, of `x = [1, 0]`, draws feature `1`, the leaf reached retains
`x_t = [0, 0]`, so `x[1] = leaf.x_t[1] = 0`, and `split_leaf` calls
`sample_threshold(0, 0)`, with equal lower and upper bounds. -/
theorem sample_feature_degenerate_bounds :
    (OnlineForestRegressor.sample_feature_range
        { OnlineForestRegressor.sample_forest with n_features := 2 }) = (0, 1) ∧
      fit_all (fun _ => (1 : ℚ)) 0 5 create (degenerate_calls.take 1) =
        some (root_tree [0, 0] 1) ∧
      go_downwards (fun _ => (1 : ℚ)) 0 5 (root_tree [0, 0] 1) [1, 0] 2 false =
        some (⟨[(((NodeRegressor.create 0).set_x_t [0, 0]).set_y_t 1).update_downwards
          (fun _ => 1) 0 [1, 0] 2], 1, 1⟩, 0) ∧
      ([1, 0] : List ℚ)[1]? = ([0, 0] : List ℚ)[1]? ∧
      fit_bounds (fun _ => (1 : ℚ)) 0 5 (root_tree [0, 0] 1) [1, 0] 2 1 = some (0, 0) :=
  ⟨by rfl, by rfl, by rfl, by rfl, by decide⟩

end TreeRegressor
namespace TreeRegressor

variable {K : Type} [LinearOrderedField K]

/-- The leaves of an arena, with their retained pairs and their number, depend
only on the shapes of the nodes. -/
theorem leaves_of_shapes :
    ∀ (xs ys : List (NodeRegressor K)), xs.map NodeRegressor.shape = ys.map NodeRegressor.shape →
      (xs.filter (fun n => n.is_leaf)).map (fun n => (n.x_t, n.y_t)) =
        (ys.filter (fun n => n.is_leaf)).map (fun n => (n.x_t, n.y_t)) ∧
      xs.countP (fun n => n.is_leaf) = ys.countP (fun n => n.is_leaf) ∧
      xs.countP (fun n => !n.is_leaf) = ys.countP (fun n => !n.is_leaf) := by
  intro xs
  induction xs with
  | nil =>
    intro ys h
    cases ys with
    | nil => exact ⟨rfl, rfl, rfl⟩
    | cons b ys => simp at h
  | cons a xs ih =>
    intro ys h
    cases ys with
    | nil => simp at h
    | cons b ys =>
      simp only [List.map_cons, List.cons.injEq] at h
      obtain ⟨-, -, -, e4, -, -, e7, e8⟩ := shape_fields h.1
      obtain ⟨i1, i2, i3⟩ := ih ys h.2
      simp only [List.filter_cons, List.countP_cons, e4]
      refine ⟨?_, by rw [i2], by rw [i3]⟩
      cases hb : b.is_leaf
      · simpa using i1
      · simp [i1, e7, e8]

theorem leaves_congr {t t1 : TreeRegressor K} (h : SameShape t t1) :
    leaf_samples t = leaf_samples t1 ∧ n_leaves t = n_leaves t1 ∧
      n_internal t = n_internal t1 :=
  leaves_of_shapes t.nodes t1.nodes h.shapes

/-- Replacing a leaf of an arena by an internal node removes its retained pair
from the leaves. -/
theorem leaves_set (sp : NodeRegressor K) (hsp : sp.is_leaf = false) :
    ∀ (xs : List (NodeRegressor K)) (l : Nat) (nd : NodeRegressor K), xs[l]? = some nd →
      nd.is_leaf = true →
      List.Perm ((xs.filter (fun n => n.is_leaf)).map (fun n => (n.x_t, n.y_t)))
        ((nd.x_t, nd.y_t) ::
          ((xs.set l sp).filter (fun n => n.is_leaf)).map (fun n => (n.x_t, n.y_t))) ∧
      xs.countP (fun n => n.is_leaf) = (xs.set l sp).countP (fun n => n.is_leaf) + 1 ∧
      (xs.set l sp).countP (fun n => !n.is_leaf) = xs.countP (fun n => !n.is_leaf) + 1 := by
  intro xs
  induction xs with
  | nil => intro l nd h; simp at h
  | cons a xs ih =>
    intro l nd h hleaf
    cases l with
    | zero =>
      simp only [List.getElem?_cons_zero, Option.some.injEq] at h
      subst h
      simp [List.filter_cons, List.countP_cons, hleaf, hsp]
    | succ l =>
      simp only [List.getElem?_cons_succ] at h
      obtain ⟨i1, i2, i3⟩ := ih l nd h hleaf
      simp only [List.set_cons_succ, List.filter_cons, List.countP_cons]
      cases ha : a.is_leaf
      · simp only [Bool.false_eq_true, if_false, Bool.not_false, if_true]
        exact ⟨i1, i2, by omega⟩
      · simp only [if_true, List.map_cons, Bool.not_true, Bool.false_eq_true, if_false]
        refine ⟨?_, by omega, by omega⟩
        exact (List.Perm.cons _ i1).trans (List.Perm.swap _ _ _)

/-- A split adds the new sample to the leaves and turns one leaf into an internal
node. -/
theorem split_tree_leaves (expf : K → K) (step : K) (t : TreeRegressor K) (l : Nat)
    (nd : NodeRegressor K) (x : List K) (y : K) (feature : Nat) (threshold : K) (c : Bool)
    (hnd : t.nodes[l]? = some nd) (hleaf : nd.is_leaf = true) :
    List.Perm (leaf_samples (split_tree expf step t l nd x y feature threshold c))
        ((x, y) :: leaf_samples t) ∧
      n_leaves (split_tree expf step t l nd x y feature threshold c) = n_leaves t + 1 ∧
      n_internal (split_tree expf step t l nd x y feature threshold c) = n_internal t + 1 := by
  obtain ⟨i1, i2, i3⟩ := leaves_set (split_node nd t.nodes.length feature threshold) rfl
    t.nodes l nd hnd hleaf
  have hd : (data_node expf step l x y).is_leaf = true := rfl
  have ho : (other_node expf step l nd.x_t nd.y_t).is_leaf = true := rfl
  have hdx : ((data_node expf step l x y).x_t, (data_node expf step l x y).y_t) = (x, y) := rfl
  have hox : ((other_node expf step l nd.x_t nd.y_t).x_t,
      (other_node expf step l nd.x_t nd.y_t).y_t) = (nd.x_t, nd.y_t) := rfl
  unfold leaf_samples n_leaves n_internal split_tree arena3
  cases c
  · simp only [Bool.false_eq_true, if_false, List.filter_append, List.map_append,
      List.countP_append, List.filter_cons, List.countP_cons, hd, ho, if_true, List.filter_nil,
      List.map_cons, List.map_nil, List.countP_nil, hdx, hox, Bool.not_true]
    refine ⟨?_, by omega, by omega⟩
    refine List.Perm.trans ?_ (List.Perm.cons _ i1.symm)
    refine List.Perm.trans List.perm_append_comm ?_
    exact List.Perm.swap _ _ _
  · simp only [if_true, List.filter_append, List.map_append,
      List.countP_append, List.filter_cons, List.countP_cons, hd, ho, List.filter_nil,
      List.map_cons, List.map_nil, List.countP_nil, hdx, hox, Bool.not_true, Bool.false_eq_true,
      if_false]
    refine ⟨?_, by omega, by omega⟩
    refine List.Perm.trans ?_ (List.Perm.cons _ i1.symm)
    exact List.perm_append_comm

/-- A later `fit` adds its sample to the leaves and makes one more leaf and one
more internal node. -/
theorem fit_leaves {nf : Nat} (expf : K → K) (step : K) (fuel : Nat) (t : TreeRegressor K)
    (x : List K) (y : K) (feature : Nat) (threshold : K) (t5 : TreeRegressor K)
    (hw : Arena nf t) (hit : t.iteration ≠ 0) (hx : x.length = nf) (hf : feature < nf)
    (h : t.fit expf step fuel x y feature threshold = some t5) :
    List.Perm (leaf_samples t5) ((x, y) :: leaf_samples t) ∧
      n_leaves t5 = n_leaves t + 1 ∧ n_internal t5 = n_internal t + 1 := by
  obtain ⟨t1, l, nd, x1, x2, t3, hd, hnd, hleaf, hx1, hx2, hu, he⟩ :=
    fit_later expf step fuel t x y feature threshold t5 hw hit hx hf h
  obtain ⟨d1, -⟩ := go_downwards_loop_spec expf step fuel t 0 x y false t1 l hw hd
  have hw1 : Arena nf t1 := Arena.arena_congr d1 hw
  have hit1 : t1.iteration ≠ 0 := by rw [← d1.iteration]; exact hit
  have hw2 := split_tree_arena expf step t1 l nd x y feature threshold (decide (x1 < x2))
    hw1 hit1 hnd hf hx
  obtain ⟨u1, -, -, -⟩ := go_upwards_spec fuel _ _ t3 hw2 hu
  obtain ⟨a1, a2, a3⟩ := leaves_congr d1
  obtain ⟨b1, b2, b3⟩ := split_tree_leaves expf step t1 l nd x y feature threshold
    (decide (x1 < x2)) hnd hleaf
  obtain ⟨c1, c2, c3⟩ := leaves_congr u1.sameShape
  subst he
  have e1 : leaf_samples { t3 with iteration := t3.iteration + 1 } = leaf_samples t3 := rfl
  have e2 : n_leaves { t3 with iteration := t3.iteration + 1 } = n_leaves t3 := rfl
  have e3 : n_internal { t3 with iteration := t3.iteration + 1 } = n_internal t3 := rfl
  rw [e1, e2, e3, ← c1, ← c2, ← c3, a1, a2, a3]
  exact ⟨b1, b2, b3⟩

theorem fit_all_leaves {nf : Nat} (expf : K → K) (step : K) (fuel : Nat)
    (calls : List (FitCall K)) :
    ∀ (t t5 : TreeRegressor K), WF nf t → t.iteration ≠ 0 → Valid nf calls →
      fit_all expf step fuel t calls = some t5 →
      List.Perm (leaf_samples t5) (leaf_samples t ++ calls.map FitCall.sample) ∧
        n_leaves t5 = n_leaves t + calls.length ∧
        n_internal t5 = n_internal t + calls.length := by
  induction calls with
  | nil =>
    intro t t5 _ _ _ h
    simp only [fit_all] at h
    injection h with h
    subst h
    simp
  | cons c cs ih =>
    intro t t5 hw hit hv h
    simp only [fit_all] at h
    cases hf : t.fit expf step fuel c.x_t c.y_t c.feature c.threshold with
    | none => rw [hf] at h; simp at h
    | some t1 =>
      rw [hf] at h
      simp only [Option.some_bind] at h
      have hc := hv c (List.mem_cons_self c cs)
      obtain ⟨w1, i1, -⟩ := fit_spec expf step fuel t c.x_t c.y_t c.feature c.threshold t1 hw
        hc.1 hc.2 hf
      obtain ⟨a1, a2, a3⟩ := fit_leaves expf step fuel t c.x_t c.y_t c.feature c.threshold t1
        hw.arena hit hc.1 hc.2 hf
      obtain ⟨b1, b2, b3⟩ := ih t1 t5 w1 (by rw [i1]; omega)
        (fun d hd => hv d (List.mem_cons_of_mem c hd)) h
      refine ⟨?_, by rw [b2, a2, List.length_cons]; omega,
        by rw [b3, a3, List.length_cons]; omega⟩
      refine b1.trans ?_
      refine (List.Perm.append_right _ a1).trans ?_
      rw [List.map_cons]
      show List.Perm ((c.x_t, c.y_t) :: (leaf_samples t ++ List.map FitCall.sample cs))
        (leaf_samples t ++ c.sample :: List.map FitCall.sample cs)
      exact List.perm_middle.symm

/-- After at least one `fit` on a fresh tree, the retained pairs of the leaves
are the fitted samples, up to their order. -/
theorem fit_all_create_leaves {nf : Nat} (expf : K → K) (step : K) (fuel : Nat)
    (calls : List (FitCall K)) (t : TreeRegressor K) (hne : calls ≠ []) (hv : Valid nf calls)
    (h : fit_all expf step fuel create calls = some t) :
    List.Perm (leaf_samples t) (calls.map FitCall.sample) ∧ n_leaves t = calls.length ∧
      n_internal t = calls.length - 1 := by
  cases calls with
  | nil => exact absurd rfl hne
  | cons c cs =>
    simp only [fit_all, fit_create, Option.some_bind] at h
    have hc := hv c (List.mem_cons_self c cs)
    have hw1 : WF nf (root_tree c.x_t c.y_t) :=
      (fit_spec expf step fuel create c.x_t c.y_t c.feature c.threshold _ (create_wf nf)
        hc.1 hc.2 (fit_create expf step fuel c.x_t c.y_t c.feature c.threshold)).1
    obtain ⟨b1, b2, b3⟩ := fit_all_leaves expf step fuel cs (root_tree c.x_t c.y_t) t hw1
      (by show (1 : Nat) ≠ 0; omega) (fun d hd => hv d (List.mem_cons_of_mem c hd)) h
    have e1 : leaf_samples (root_tree c.x_t c.y_t) = [c.sample] := rfl
    have e2 : n_leaves (root_tree c.x_t c.y_t) = 1 := rfl
    have e3 : n_internal (root_tree c.x_t c.y_t) = 0 := rfl
    rw [e1] at b1
    rw [e2] at b2
    rw [e3] at b3
    refine ⟨by simpa using b1, by rw [b2, List.length_cons]; omega,
      by rw [b3, List.length_cons]; omega⟩

/-- Claim C18: no fitted sample is lost or duplicated. After `k ≥ 1` calls of `fit`
on a fresh tree, whatever the sampler outcomes, the tree has exactly `k` leaves and
`k - 1` internal nodes, and the multiset of the retained pairs `(x_t, y_t)` of the
leaves equals the multiset of the fitted samples. -/
theorem leaves_hold_fitted_samples (expf : K → K) (step : K) (nf : Nat)
    (calls : List (FitCall K)) (fuel : Nat) (hne : calls ≠ []) (hv : Valid nf calls)
    (hfuel : 2 * calls.length + 1 ≤ fuel) :
    ∃ t : TreeRegressor K, fit_all expf step fuel create calls = some t ∧
      n_leaves t = calls.length ∧ n_internal t = calls.length - 1 ∧
      Multiset.ofList (leaf_samples t) = Multiset.ofList (calls.map FitCall.sample) := by
  have hlen0 : (create : TreeRegressor K).nodes.length = 1 := rfl
  obtain ⟨t, ht⟩ := fit_all_some expf step fuel calls create (create_wf nf) hv
    (by rw [hlen0]; omega)
  obtain ⟨b1, b2, b3⟩ := fit_all_create_leaves expf step fuel calls t hne hv ht
  exact ⟨t, ht, b2, b3, Multiset.coe_eq_coe.2 b1⟩

end TreeRegressor
namespace TreeRegressor

variable {K : Type} [LinearOrderedField K]

/-- More fuel does not change the leaf found by the routing rule. -/
theorem route_mono (t : TreeRegressor K) (x : List K) (k : Nat) :
    ∀ (fuel s l : Nat), route t x fuel s = some l → route t x (fuel + k) s = some l := by
  intro fuel
  induction fuel with
  | zero => intro s l h; simp [route] at h
  | succ fuel ih =>
    intro s l h
    rw [show fuel + 1 + k = (fuel + k) + 1 by omega]
    unfold route at h ⊢
    cases hnd : t.nodes[s]? with
    | none => rw [hnd] at h; simp at h
    | some nd =>
      rw [hnd] at h
      simp only at h ⊢
      by_cases hleaf : nd.is_leaf = true
      · rw [if_pos hleaf] at h ⊢; exact h
      · rw [if_neg hleaf] at h ⊢
        cases hxv : x[nd.feature]? with
        | none => rw [hxv] at h; simp at h
        | some xv =>
          rw [hxv] at h
          simp only at h ⊢
          by_cases hle : xv ≤ nd.threshold
          · rw [if_pos hle] at h ⊢; exact ih _ _ h
          · rw [if_neg hle] at h ⊢; exact ih _ _ h

/-- The routing rule reads only the arena. -/
theorem route_nodes {t t2 : TreeRegressor K} (h : t.nodes = t2.nodes) (x : List K) :
    ∀ (fuel s : Nat), route t x fuel s = route t2 x fuel s := by
  intro fuel
  induction fuel with
  | zero => intro s; rfl
  | succ fuel ih =>
    intro s
    unfold route
    rw [h]
    cases hnd : t2.nodes[s]? with
    | none => rfl
    | some nd =>
      simp only
      by_cases hleaf : nd.is_leaf = true
      · rw [if_pos hleaf, if_pos hleaf]
      · rw [if_neg hleaf, if_neg hleaf]
        cases hxv : x[nd.feature]? with
        | none => rfl
        | some xv =>
          simp only
          rw [ih, ih]

/-- In fitting mode `go_downwards` ends at the leaf given by the routing rule. -/
theorem go_downwards_loop_route (expf : K → K) (step : K) (fuel : Nat) :
    ∀ (t : TreeRegressor K) (s : Nat) (x : List K) (y : K) (t1 : TreeRegressor K) (l : Nat),
      go_downwards_loop expf step fuel t s x y false = some (t1, l) →
      route t x fuel s = some l := by
  induction fuel with
  | zero => intro t s x y t1 l h; simp [go_downwards_loop] at h
  | succ fuel ih =>
    intro t s x y t1 l h
    unfold go_downwards_loop at h
    unfold route
    cases hn0 : t.node s with
    | none => rw [hn0] at h; simp at h
    | some n0 =>
      rw [hn0] at h
      have hn0' : t.nodes[s]? = some n0 := hn0
      rw [hn0']
      simp only [Option.bind_eq_bind, Option.some_bind, Bool.false_eq_true, if_false] at h
      simp only
      have hss : SameShape t (t.set_node s (n0.update_downwards expf step x y)) :=
        SameShape.shape_set_node t s n0 _ hn0' (update_downwards_shape expf step n0 x y)
      have e1 : (n0.update_downwards expf step x y).is_leaf = n0.is_leaf := rfl
      have e2 : (n0.update_downwards expf step x y).feature = n0.feature := rfl
      have e3 : (n0.update_downwards expf step x y).threshold = n0.threshold := rfl
      have e4 : (n0.update_downwards expf step x y).left = n0.left := rfl
      have e5 : (n0.update_downwards expf step x y).right = n0.right := rfl
      rw [e1, e2, e3, e4, e5] at h
      by_cases hleaf : n0.is_leaf = true
      · rw [if_pos hleaf] at h ⊢
        injection h with h
        injection h with h1 h2
        rw [h2]
      · rw [if_neg hleaf] at h ⊢
        cases hxv : x[n0.feature]? with
        | none => rw [hxv] at h; simp at h
        | some xv =>
          rw [hxv] at h
          simp only [Option.bind_eq_bind, Option.some_bind] at h
          simp only
          by_cases hle : xv ≤ n0.threshold
          · rw [if_pos hle] at h ⊢
            rw [route_congr hss]
            exact ih _ _ _ _ _ _ h
          · rw [if_neg hle] at h ⊢
            rw [route_congr hss]
            exact ih _ _ _ _ _ _ h

/-- Routing after a split: a query that reached another leaf still reaches it, and
a query that reached the split leaf reaches the child chosen by the new rule. -/
theorem route_split (expf : K → K) (step : K) (t : TreeRegressor K) (l : Nat)
    (nd : NodeRegressor K) (x : List K) (y : K) (feature : Nat) (threshold : K) (c : Bool)
    (q : List K) (qv : K) (hnd : t.nodes[l]? = some nd) (hleaf : nd.is_leaf = true)
    (hq : q[feature]? = some qv) :
    ∀ (fuel s k : Nat), route t q fuel s = some k →
      route (split_tree expf step t l nd x y feature threshold c) q (fuel + 1) s =
        some (if k = l then (if qv ≤ threshold then t.nodes.length else t.nodes.length + 1)
          else k) := by
  have hl : l < t.nodes.length := get_lt hnd
  intro fuel
  induction fuel with
  | zero => intro s k h; simp [route] at h
  | succ fuel ih =>
    intro s k h
    unfold route at h
    cases hn0 : t.nodes[s]? with
    | none => rw [hn0] at h; simp at h
    | some n0 =>
      rw [hn0] at h
      simp only at h
      by_cases hs : s = l
      · subst hs
        rw [hnd] at hn0
        injection hn0 with hn0
        subst hn0
        rw [if_pos hleaf] at h
        injection h with h
        subst h
        rw [if_pos rfl]
        unfold route
        rw [split_tree_split expf step t s nd x y feature threshold c hl]
        have f1 : (split_node nd t.nodes.length feature threshold).is_leaf = false := rfl
        have f2 : (split_node nd t.nodes.length feature threshold).feature = feature := rfl
        have f3 : (split_node nd t.nodes.length feature threshold).threshold = threshold := rfl
        have f4 : (split_node nd t.nodes.length feature threshold).left = t.nodes.length := rfl
        have f5 : (split_node nd t.nodes.length feature threshold).right = t.nodes.length + 1 :=
          rfl
        simp only [f1, f2, f3, f4, f5, hq, Bool.false_eq_true, if_false]
        have g1 : ∃ a : NodeRegressor K, (split_tree expf step t s nd x y feature threshold
            c).nodes[t.nodes.length]? = some a ∧ a.is_leaf = true := by
          cases c
          · exact ⟨_, arena3_get_fst _ _ _ _ _, rfl⟩
          · exact ⟨_, arena3_get_fst _ _ _ _ _, rfl⟩
        have g2 : ∃ a : NodeRegressor K, (split_tree expf step t s nd x y feature threshold
            c).nodes[t.nodes.length + 1]? = some a ∧ a.is_leaf = true := by
          cases c
          · exact ⟨_, arena3_get_snd _ _ _ _ _, rfl⟩
          · exact ⟨_, arena3_get_snd _ _ _ _ _, rfl⟩
        obtain ⟨a1, ha1, la1⟩ := g1
        obtain ⟨a2, ha2, la2⟩ := g2
        by_cases hle : qv ≤ threshold
        · rw [if_pos hle, if_pos hle]
          unfold route
          rw [ha1]
          simp only [la1, if_true]
        · rw [if_neg hle, if_neg hle]
          unfold route
          rw [ha2]
          simp only [la2, if_true]
      · have hs2 : s < t.nodes.length := List.getElem?_eq_some.1 hn0 |>.1
        have hold := split_tree_old expf step t l nd x y feature threshold c s hs2
          (fun e => hs e.symm)
        unfold route
        rw [hold, hn0]
        simp only
        by_cases hleaf0 : n0.is_leaf = true
        · rw [if_pos hleaf0] at h ⊢
          injection h with h
          subst h
          rw [if_neg hs]
        · rw [if_neg hleaf0] at h ⊢
          cases hxv : q[n0.feature]? with
          | none => rw [hxv] at h; simp at h
          | some xv =>
            rw [hxv] at h
            simp only at h ⊢
            by_cases hle : xv ≤ n0.threshold
            · rw [if_pos hle] at h ⊢; exact ih _ _ h
            · rw [if_neg hle] at h ⊢; exact ih _ _ h

/-- The bounds passed to `sample_threshold` by the split of a leaf: the smaller
and the larger of the two compared feature values. -/
theorem split_leaf_bounds_eq (t : TreeRegressor K) (index : Nat) (x : List K) (feature : Nat)
    (nd : NodeRegressor K) (x1 x2 : K) (hnd : t.nodes[index]? = some nd)
    (hx1 : x[feature]? = some x1) (hx2 : nd.x_t[feature]? = some x2) :
    t.split_leaf_bounds index x feature =
      some (if x1 < x2 then (x1, x2) else (x2, x1)) := by
  have hl : index < t.nodes.length := get_lt hnd
  have h1 : ((t.add_node index).1.add_node index).1.node index = some nd := by
    show (t.nodes ++ [NodeRegressor.create index] ++ [NodeRegressor.create index])[index]? = _
    rw [List.getElem?_append_left (by simp; omega), List.getElem?_append_left hl]
    exact hnd
  have h2 : ∀ v : NodeRegressor K,
      ((((t.add_node index).1.add_node index).1).set_node index v).node index = some v :=
    fun v => get_set_node_self _ index nd v h1
  unfold split_leaf_bounds
  simp only [Option.bind_eq_bind, h1, Option.some_bind, hx1, h2]
  have h3 : (((nd.set_left (t.add_node index).2).set_right
      ((t.add_node index).1.add_node index).2).set_is_leaf false).x_t = nd.x_t := rfl
  rw [h3, hx2]
  rfl

end TreeRegressor
namespace TreeRegressor

variable {K : Type} [LinearOrderedField K]

theorem Routed.routed_congr {t t2 : TreeRegressor K} (h : SameShape t t2) (hr : Routed t) :
    Routed t2 := by
  intro l nd2 hl hleaf
  obtain ⟨nd, hnd, hs⟩ := h.shape_get hl
  obtain ⟨-, -, -, e4, -, -, e7, -⟩ := shape_fields hs
  obtain ⟨f, hf⟩ := hr l nd hnd (by rw [e4]; exact hleaf)
  exact ⟨f, by rw [← route_congr h, ← e7]; exact hf⟩

/-- The bounds passed to `sample_threshold` in a later `fit`, read on its
decomposition. -/
theorem fit_bounds_eq (expf : K → K) (step : K) (fuel : Nat) (t : TreeRegressor K)
    (x : List K) (y : K) (feature : Nat) (t1 : TreeRegressor K) (l : Nat)
    (nd : NodeRegressor K) (x1 x2 : K) (hit : t.iteration ≠ 0)
    (hd : go_downwards_loop expf step fuel t 0 x y false = some (t1, l))
    (hnd : t1.nodes[l]? = some nd) (hx1 : x[feature]? = some x1)
    (hx2 : nd.x_t[feature]? = some x2) :
    t.fit_bounds expf step fuel x y feature = some (if x1 < x2 then (x1, x2) else (x2, x1)) := by
  unfold fit_bounds go_downwards
  rw [if_neg hit, hd]
  exact split_leaf_bounds_eq t1 l x feature nd x1 x2 hnd hx1 hx2

/-- A later `fit` whose split is non-degenerate keeps every leaf's retained `x_t`
routed to that leaf. -/
theorem fit_routed {nf : Nat} (expf : K → K) (step : K) (fuel : Nat) (t : TreeRegressor K)
    (c : FitCall K) (t5 : TreeRegressor K)
    (hw : Arena nf t) (hit : t.iteration ≠ 0) (hx : c.x_t.length = nf) (hf : c.feature < nf)
    (h : t.fit expf step fuel c.x_t c.y_t c.feature c.threshold = some t5)
    (hok : split_ok expf step fuel t c = true) (hr : Routed t) : Routed t5 := by
  obtain ⟨t1, l, nd, x1, x2, t3, hd, hnd, hleaf, hx1, hx2, hu, he⟩ :=
    fit_later expf step fuel t c.x_t c.y_t c.feature c.threshold t5 hw hit hx hf h
  obtain ⟨d1, -⟩ := go_downwards_loop_spec expf step fuel t 0 c.x_t c.y_t false t1 l hw hd
  have hw1 : Arena nf t1 := Arena.arena_congr d1 hw
  have hit1 : t1.iteration ≠ 0 := by rw [← d1.iteration]; exact hit
  have hl : l < t1.nodes.length := get_lt hnd
  have hw2 := split_tree_arena expf step t1 l nd c.x_t c.y_t c.feature c.threshold
    (decide (x1 < x2)) hw1 hit1 hnd hf hx
  obtain ⟨u1, -, -, -⟩ := go_upwards_spec fuel _ _ t3 hw2 hu
  have hr1 : Routed t1 := hr.routed_congr d1
  have hroute : route t1 c.x_t fuel 0 = some l := by
    rw [← route_congr d1]
    exact go_downwards_loop_route expf step fuel t 0 c.x_t c.y_t t1 l hd
  -- the threshold separates the two compared values
  have hb := fit_bounds_eq expf step fuel t c.x_t c.y_t c.feature t1 l nd x1 x2 hit hd hnd
    hx1 hx2
  unfold split_ok at hok
  rw [hb] at hok
  simp only [Bool.and_eq_true, decide_eq_true_eq] at hok
  have hsep : (x1 ≤ c.threshold ↔ x1 < x2) ∧ (x2 ≤ c.threshold ↔ ¬ x1 < x2) := by
    by_cases hc : x1 < x2
    · rw [if_pos hc] at hok
      exact ⟨⟨fun _ => hc, fun _ => hok.1⟩, ⟨fun h2 => absurd (lt_of_lt_of_le hok.2 h2)
        (lt_irrefl _), fun h2 => absurd hc h2⟩⟩
    · rw [if_neg hc] at hok
      exact ⟨⟨fun h2 => absurd (lt_of_lt_of_le hok.2 h2) (lt_irrefl _), fun h2 => absurd h2 hc⟩,
        ⟨fun _ => hc, fun _ => hok.1⟩⟩
  have hr2 : Routed (split_tree expf step t1 l nd c.x_t c.y_t c.feature c.threshold
      (decide (x1 < x2))) := by
    intro j nd2 hj hleaf2
    rcases split_tree_cases expf step t1 l nd c.x_t c.y_t c.feature c.threshold
      (decide (x1 < x2)) hl j nd2 hj with ⟨_, e⟩ | ⟨hjl, hjlt, e⟩ | ⟨ej, e⟩ | ⟨ej, e⟩
    · rw [e] at hleaf2
      exact absurd hleaf2 (by simp [split_node, NodeRegressor.set_is_leaf,
        NodeRegressor.set_feature, NodeRegressor.set_threshold])
    · obtain ⟨f, hf2⟩ := hr1 j nd2 e hleaf2
      have hlen : c.feature < nd2.x_t.length := by
        rw [hw1.width hit1 j nd2 e]; exact hf
      obtain ⟨qv, hqv⟩ := exists_get_of_lt hlen
      refine ⟨f + 1, ?_⟩
      rw [route_split expf step t1 l nd c.x_t c.y_t c.feature c.threshold (decide (x1 < x2))
        nd2.x_t qv hnd hleaf hqv f 0 j hf2, if_neg hjl]
    · refine ⟨fuel + 1, ?_⟩
      have ex : nd2.x_t = c.x_t := by rw [e]; rfl
      rw [ex, route_split expf step t1 l nd c.x_t c.y_t c.feature c.threshold
        (decide (x1 < x2)) c.x_t x1 hnd hleaf hx1 fuel 0 l hroute, if_pos rfl, ej]
      unfold data_index
      by_cases hc : x1 < x2
      · rw [if_pos (hsep.1.2 hc)]; simp [hc]
      · rw [if_neg (fun h2 => hc (hsep.1.1 h2))]; simp [hc]
    · obtain ⟨f, hf2⟩ := hr1 l nd hnd hleaf
      refine ⟨f + 1, ?_⟩
      have ex : nd2.x_t = nd.x_t := by rw [e]; rfl
      rw [ex, route_split expf step t1 l nd c.x_t c.y_t c.feature c.threshold
        (decide (x1 < x2)) nd.x_t x2 hnd hleaf hx2 f 0 l hf2, if_pos rfl, ej]
      unfold other_index
      by_cases hc : x1 < x2
      · rw [if_neg (fun h2 => (hsep.2.1 h2) hc)]; simp [hc]
      · rw [if_pos (hsep.2.2 hc)]; simp [hc]
  have hr3 : Routed t3 := hr2.routed_congr u1.sameShape
  subst he
  intro j nd2 hj hleaf2
  obtain ⟨f, hf2⟩ := hr3 j nd2 hj hleaf2
  have hn : ({ t3 with iteration := t3.iteration + 1 } : TreeRegressor K).nodes = t3.nodes := rfl
  exact ⟨f, by rw [← hf2]; exact route_nodes hn nd2.x_t f 0⟩

theorem fit_all_routed {nf : Nat} (expf : K → K) (step : K) (fuel : Nat)
    (calls : List (FitCall K)) :
    ∀ (t t5 : TreeRegressor K), WF nf t → t.iteration ≠ 0 → Valid nf calls →
      fit_all expf step fuel t calls = some t5 →
      non_degenerate expf step fuel t calls = true → Routed t → Routed t5 := by
  induction calls with
  | nil =>
    intro t t5 _ _ _ h _ hr
    simp only [fit_all] at h
    injection h with h
    subst h
    exact hr
  | cons c cs ih =>
    intro t t5 hw hit hv h hnd hr
    simp only [fit_all] at h
    cases hf : t.fit expf step fuel c.x_t c.y_t c.feature c.threshold with
    | none => rw [hf] at h; simp at h
    | some t1 =>
      rw [hf] at h
      simp only [Option.some_bind] at h
      unfold non_degenerate at hnd
      rw [hf] at hnd
      simp only [Bool.and_eq_true] at hnd
      have hc := hv c (List.mem_cons_self c cs)
      obtain ⟨w1, i1, -⟩ := fit_spec expf step fuel t c.x_t c.y_t c.feature c.threshold t1 hw
        hc.1 hc.2 hf
      exact ih t1 t5 w1 (by rw [i1]; omega) (fun d hd => hv d (List.mem_cons_of_mem c hd)) h
        hnd.2 (fit_routed expf step fuel t c t1 hw.arena hit hc.1 hc.2 hf hnd.1 hr)

theorem root_tree_routed (x : List K) (y : K) : Routed (root_tree x y) := by
  intro j nd hj _
  cases j with
  | zero => exact ⟨1, rfl⟩
  | succ j => simp [root_tree] at hj

/-- Claim C16: training samples are interpolated. For every sequence of calls of
`fit` on a fresh tree in which every split is non-degenerate (the bounds
`min(x[j], leaf.x_t[j])` and `max(x[j], leaf.x_t[j])` of the sampled feature `j`
satisfy `min ≤ threshold < max`, so `x[j] ≠ leaf.x_t[j]`), the final tree returns
`y_i` for `predict(x_i, use_aggregation = false)` on every fitted sample
`(x_i, y_i)`, and every leaf's retained `x_t` routes from the root to that very
leaf. -/
theorem fitted_samples_interpolated (expf : K → K) (step : K) (nf : Nat)
    (calls : List (FitCall K)) (fuel : Nat) (hv : Valid nf calls)
    (hfuel : 2 * calls.length + 1 ≤ fuel)
    (hnd : non_degenerate expf step fuel create calls = true) :
    ∃ t : TreeRegressor K, fit_all expf step fuel create calls = some t ∧
      (∀ c ∈ calls, t.predict expf step fuel c.x_t false = some (t, c.y_t)) ∧
      (∀ (l : Nat) (nd : NodeRegressor K), t.nodes[l]? = some nd → nd.is_leaf = true →
        route t nd.x_t fuel 0 = some l) := by
  have hlen0 : (create : TreeRegressor K).nodes.length = 1 := rfl
  obtain ⟨t, ht⟩ := fit_all_some expf step fuel calls create (create_wf nf) hv
    (by rw [hlen0]; omega)
  refine ⟨t, ht, ?_⟩
  cases calls with
  | nil =>
    simp only [fit_all] at ht
    injection ht with ht
    subst ht
    refine ⟨fun c hc => absurd hc (List.not_mem_nil c), ?_⟩
    intro l nd hl _
    obtain ⟨f, hf⟩ : ∃ f, fuel = f + 1 := ⟨fuel - 1, by omega⟩
    subst hf
    cases l with
    | zero => rfl
    | succ l => simp [create, add_node, empty] at hl
  | cons c cs =>
    have hne : c :: cs ≠ [] := List.cons_ne_nil c cs
    obtain ⟨w5, i5, -⟩ := fit_all_spec expf step fuel (c :: cs) create t (create_wf nf) hv ht
    have hit5 : t.iteration ≠ 0 := by rw [i5, List.length_cons]; omega
    have hsize : t.nodes.length ≤ fuel := by
      rw [w5.size, i5]
      have : (create : TreeRegressor K).iteration = 0 := rfl
      rw [this]
      omega
    obtain ⟨p1, -, -⟩ := fit_all_create_leaves expf step fuel (c :: cs) t hne hv ht
    have ht2 := ht
    simp only [fit_all, fit_create, Option.some_bind] at ht2
    have hc := hv c (List.mem_cons_self c cs)
    have hw1 : WF nf (root_tree c.x_t c.y_t) :=
      (fit_spec expf step fuel create c.x_t c.y_t c.feature c.threshold _ (create_wf nf)
        hc.1 hc.2 (fit_create expf step fuel c.x_t c.y_t c.feature c.threshold)).1
    have hnd2 : non_degenerate expf step fuel (root_tree c.x_t c.y_t) cs = true := by
      unfold non_degenerate at hnd
      rw [fit_create] at hnd
      simp only [Bool.and_eq_true] at hnd
      exact hnd.2
    have hrt : Routed t := fit_all_routed expf step fuel cs (root_tree c.x_t c.y_t) t hw1
      (by show (1 : Nat) ≠ 0; omega) (fun d hd => hv d (List.mem_cons_of_mem c hd)) ht2 hnd2
      (root_tree_routed c.x_t c.y_t)
    -- the routing rule with the given fuel
    have hfull : ∀ (l : Nat) (nd : NodeRegressor K), t.nodes[l]? = some nd → nd.is_leaf = true →
        route t nd.x_t fuel 0 = some l := by
      intro l nd hl hleaf
      obtain ⟨f, hf⟩ := hrt l nd hl hleaf
      obtain ⟨l2, nd2, g1, -⟩ := predict_plain expf step t nd.x_t fuel w5.arena
        (w5.arena.width hit5 l nd hl) hsize
      have a1 := route_mono t nd.x_t fuel f 0 l hf
      have a2 := route_mono t nd.x_t f fuel 0 l2 g1
      rw [Nat.add_comm] at a2
      rw [a1] at a2
      injection a2 with a2
      rw [g1, a2]
    refine ⟨?_, hfull⟩
    intro d hd
    have hmem : d.sample ∈ leaf_samples t :=
      p1.mem_iff.2 (List.mem_map_of_mem FitCall.sample hd)
    unfold leaf_samples at hmem
    obtain ⟨n, hn, hns⟩ := List.mem_map.1 hmem
    obtain ⟨hn1, hn2⟩ := List.mem_filter.1 hn
    obtain ⟨l, hl⟩ := List.getElem?_of_mem hn1
    have ex : n.x_t = d.x_t := congrArg Prod.fst hns
    have ey : n.y_t = d.y_t := congrArg Prod.snd hns
    have hroute := hfull l n hl hn2
    obtain ⟨l2, nd2, g1, g2, -, -, g5⟩ := predict_plain expf step t d.x_t fuel w5.arena
      (hv d hd).1 hsize
    rw [ex, g1] at hroute
    injection hroute with hroute
    subst hroute
    rw [hl] at g2
    injection g2 with g2
    rw [g5, ← g2, ey]

end TreeRegressor
namespace TreeRegressor

theorem split_leaf_sides_witness :
    ((1 : ℚ) ≠ 0 ∧ min (1 : ℚ) 0 ≤ 0 ∧ (0 : ℚ) < max 1 0) ∧
      ∃ (t2 : TreeRegressor ℚ) (d o : Nat) (sp dn sn : NodeRegressor ℚ),
        (root_tree [0, 0] 1).split_leaf (fun _ => 1) 0 0 [1, 0] 2 0 0 = some (t2, d) ∧
        t2.nodes[0]? = some sp ∧ sp.is_leaf = false ∧ sp.feature = 0 ∧
        sp.threshold = 0 ∧
        ((sp.left = d ∧ sp.right = o) ∨ (sp.left = o ∧ sp.right = d)) ∧ o ≠ d ∧
        route t2 [1, 0] 2 0 = some d ∧
        t2.nodes[d]? = some dn ∧ dn.is_leaf = true ∧ dn.x_t = [1, 0] ∧ dn.y_t = 2 ∧
        route t2 [0, 0] 2 0 = some o ∧
        t2.nodes[o]? = some sn ∧ sn.is_leaf = true ∧ sn.x_t = [0, 0] ∧ sn.y_t = 1 :=
  ⟨⟨by decide, min_le_of_right_le (le_refl 0), lt_max_of_lt_left (by decide)⟩,
    split_leaf_sides (fun _ => 1) 0 (root_tree [0, 0] 1) 0 [1, 0] 2 0 0
      (((NodeRegressor.create 0).set_x_t [0, 0]).set_y_t 1) 1 0 rfl rfl rfl rfl (by decide)
      (min_le_of_right_le (le_refl 0)) (lt_max_of_lt_left (by decide))⟩

theorem split_leaf_children_witness :
    (root_tree ([0, 0] : List ℚ) 1).n_nodes = (root_tree ([0, 0] : List ℚ) 1).nodes.length ∧
      ∃ (t2 : TreeRegressor ℚ) (d o : Nat) (dn sn : NodeRegressor ℚ),
        (root_tree [0, 0] 1).split_leaf (fun _ => 1) 0 0 [1, 0] 2 0 (1 / 2) = some (t2, d) ∧
        ((d = 1 ∧ o = 1 + 1) ∨ (d = 1 + 1 ∧ o = 1)) ∧
        t2.n_nodes = 1 + 2 ∧
        t2.nodes[d]? = some dn ∧ dn.x_t = [1, 0] ∧ dn.y_t = 2 ∧
        t2.nodes[o]? = some sn ∧ sn.x_t = [0, 0] ∧ sn.y_t = 1 ∧
        (NodeRegressor.create 0 : NodeRegressor ℚ).predict = 0 ∧
        dn.n_samples = 1 ∧
        dn.weight = (fun _ => (1 : ℚ))
          (-0 * (NodeRegressor.create 0 : NodeRegressor ℚ).loss dn.y_t) ∧
        dn.weight = (fun _ => (1 : ℚ)) (-0 * (dn.y_t * dn.y_t / 2)) ∧ dn.predict = dn.y_t ∧
        sn.n_samples = 1 ∧
        sn.weight = (fun _ => (1 : ℚ))
          (-0 * (NodeRegressor.create 0 : NodeRegressor ℚ).loss sn.y_t) ∧
        sn.weight = (fun _ => (1 : ℚ)) (-0 * (sn.y_t * sn.y_t / 2)) ∧ sn.predict = sn.y_t :=
  ⟨rfl,
    split_leaf_children (fun _ => 1) 0 (root_tree [0, 0] 1) 0 [1, 0] 2 0 (1 / 2)
      (((NodeRegressor.create 0).set_x_t [0, 0]).set_y_t 1) 1 0 rfl rfl rfl rfl⟩

theorem topology_invariant_witness :
    Reachable (fun _ => (1 : ℚ)) 0 2 sample_tree ∧
      ((∀ (i : Nat) (nd : NodeRegressor ℚ), sample_tree.nodes[i]? = some nd →
        nd.is_leaf = false →
        nd.left ≠ nd.right ∧ nd.left < sample_tree.n_nodes ∧ nd.right < sample_tree.n_nodes ∧
        nd.right = nd.left + 1 ∧
        ∃ l r : NodeRegressor ℚ, sample_tree.nodes[nd.left]? = some l ∧
          sample_tree.nodes[nd.right]? = some r ∧ l.parent = i ∧ r.parent = i) ∧
      (∀ (fuel : Nat) (x : List ℚ) (y : ℚ) (feature : Nat) (threshold : ℚ)
        (t5 : TreeRegressor ℚ), x.length = 2 → feature < 2 →
        sample_tree.fit (fun _ => 1) 0 fuel x y feature threshold = some t5 →
        ∀ (i : Nat) (nd : NodeRegressor ℚ), sample_tree.nodes[i]? = some nd →
          nd.is_leaf = false →
          ∃ nd5, t5.nodes[i]? = some nd5 ∧ nd5.left = nd.left ∧ nd5.right = nd.right ∧
            nd5.parent = nd.parent ∧ nd5.is_leaf = false) ∧
      ∀ (fuel : Nat) (x : List ℚ) (y : ℚ) (feature : Nat) (threshold : ℚ), x.length = 2 →
        feature < 2 → sample_tree.n_nodes + 2 ≤ fuel →
        ∃ t5, sample_tree.fit (fun _ => 1) 0 fuel x y feature threshold = some t5) :=
  ⟨⟨5, sample_calls, by unfold Valid; decide, by rfl⟩,
    topology_invariant (fun _ => 1) 0 2 sample_tree
      ⟨5, sample_calls, by unfold Valid; decide, by rfl⟩⟩

theorem fitted_samples_interpolated_witness :
    Valid 2 lower_calls ∧ 2 * lower_calls.length + 1 ≤ 5 ∧
      non_degenerate (fun _ => (1 : ℚ)) 0 5 create lower_calls = true ∧
      ∃ t : TreeRegressor ℚ, fit_all (fun _ => (1 : ℚ)) 0 5 create lower_calls = some t ∧
        (∀ c ∈ lower_calls, t.predict (fun _ => 1) 0 5 c.x_t false = some (t, c.y_t)) ∧
        (∀ (l : Nat) (nd : NodeRegressor ℚ), t.nodes[l]? = some nd → nd.is_leaf = true →
          route t nd.x_t 5 0 = some l) :=
  ⟨by unfold Valid; decide, by decide, by decide,
    fitted_samples_interpolated (fun _ => 1) 0 2 lower_calls 5 (by unfold Valid; decide)
      (by decide) (by decide)⟩

theorem global_weight_invariant_witness :
    Valid 2 sample_calls ∧ 2 * sample_calls.length + 1 ≤ 5 ∧
      ∃ t, fit_all (fun _ => (1 : ℚ)) 0 5 create sample_calls = some t ∧ ∀ i, LocalEq t i :=
  ⟨by unfold Valid; decide, by decide,
    global_weight_invariant (fun _ => 1) 0 2 sample_calls 5 (by unfold Valid; decide)
      (by decide)⟩

theorem leaves_hold_fitted_samples_witness :
    sample_calls ≠ [] ∧ Valid 2 sample_calls ∧ 2 * sample_calls.length + 1 ≤ 5 ∧
      ∃ t : TreeRegressor ℚ, fit_all (fun _ => (1 : ℚ)) 0 5 create sample_calls = some t ∧
        n_leaves t = sample_calls.length ∧ n_internal t = sample_calls.length - 1 ∧
        Multiset.ofList (leaf_samples t) = Multiset.ofList (sample_calls.map FitCall.sample) :=
  ⟨List.cons_ne_nil _ _, by unfold Valid; decide, by decide,
    leaves_hold_fitted_samples (fun _ => 1) 0 2 sample_calls 5 (List.cons_ne_nil _ _)
      (by unfold Valid; decide) (by decide)⟩

theorem traversals_terminate_witness :
    Reachable (fun _ => (1 : ℚ)) 0 2 sample_tree ∧
      ((∀ (i : Nat) (nd : NodeRegressor ℚ), sample_tree.nodes[i]? = some nd → 0 < i →
        nd.parent < i) ∧
      (∀ (i : Nat) (nd : NodeRegressor ℚ), sample_tree.nodes[i]? = some nd →
        nd.is_leaf = false →
        i < nd.left ∧ nd.left < sample_tree.n_nodes ∧ i < nd.right ∧
          nd.right < sample_tree.n_nodes) ∧
      (∀ (x : List ℚ) (y : ℚ) (predict : Bool), x.length = 2 →
        ∃ (t1 : TreeRegressor ℚ) (l : Nat) (nd : NodeRegressor ℚ),
          sample_tree.go_downwards (fun _ => 1) 0 sample_tree.n_nodes x y predict =
            some (t1, l) ∧
          t1.nodes[l]? = some nd ∧ nd.is_leaf = true) ∧
      ∀ i : Nat, i < sample_tree.n_nodes →
        ∃ t1, sample_tree.go_upwards sample_tree.n_nodes i = some t1) :=
  ⟨⟨5, sample_calls, by unfold Valid; decide, by rfl⟩,
    traversals_terminate (fun _ => 1) 0 2 sample_tree
      ⟨5, sample_calls, by unfold Valid; decide, by rfl⟩⟩

theorem root_skips_first_sample_witness :
    sample_calls ≠ [] ∧ Valid 2 sample_calls ∧ 2 * sample_calls.length + 1 ≤ 5 ∧
      ∃ (t : TreeRegressor ℚ) (root : NodeRegressor ℚ),
        fit_all (fun _ => (1 : ℚ)) 0 5 create sample_calls = some t ∧
        t.nodes[0]? = some root ∧
        root.n_samples = sample_calls.length - 1 ∧
        root.predict =
          (sample_calls.tail.map FitCall.y_t).sum / ((sample_calls.length - 1 : Nat) : ℚ) ∧
        (sample_calls.length = 1 →
          root.predict = 0 ∧
            ∀ x : List ℚ, t.predict (fun _ => 1) 0 5 x true = some (t, 0)) :=
  ⟨List.cons_ne_nil _ _, by unfold Valid; decide, by decide,
    root_skips_first_sample (fun _ => 1) 0 2 sample_calls 5 (List.cons_ne_nil _ _)
      (by unfold Valid; decide) (by decide)⟩

end TreeRegressor
